import Mathlib

/-!
Verification development for the ezio disk I/O and block cache subsystem.

The definitions below are shallow embeddings of the C++ sources:
  * store_buffer.hpp      -- torrent_location and its std hash specialisation
  * unified_cache.hpp/cpp -- cache_partition, unified_cache, eviction, watermarks
  * buffer_pool.hpp/cpp   -- the 16 KiB slab pool with high/low watermarks
  * raw_disk_io.cpp       -- partition_storage, async_read / async_write /
                             async_hash, flush_dirty_blocks

Machine integers are embedded as Nat/Int with explicit reduction mod 2 ^ 64
where size_t overflow is relevant.  Locks, spdlog calls and std::chrono
instrumentation have no effect on the values computed and are dropped;
where the embedding makes a choice (for instance the exact Boost version
of hash_combine) the doc comment of the definition records it.
-/

namespace ezio

/-- `DEFAULT_BLOCK_SIZE` from buffer_pool.hpp: 16 KiB. -/
def DEFAULT_BLOCK_SIZE : Int := 16384

/-- Block address, from store_buffer.hpp (class torrent_location):
`torrent` is the storage slot (libtorrent::storage_index_t, a uint32 strong
typedef), `piece` the piece index (an int32 strong typedef) and `offset`
the byte offset of the block inside its piece (a C++ int).  Equality uses
all three fields, as the C++ operator== does. -/
structure torrent_location where
  torrent : Nat
  piece : Int
  offset : Int
deriving DecidableEq, Repr

/-- The modulus of size_t arithmetic on the 64-bit Linux targets ezio
builds for. -/
def SIZE_T_MOD : Nat := 2 ^ 64

/-- A C++ integral value reinterpreted as size_t, i.e. reduced into
[0, 2^64).  This is what std::hash of libstdc++ returns for int / uint32
inputs (the identity cast to size_t). -/
def toSizeT (i : Int) : Nat := (i % (SIZE_T_MOD : Int)).toNat

/-- The multiplier of the 64-bit boost::hash_combine_impl. -/
def HASH_COMBINE_M : Nat := 0xc6a4a7935bd1e995

/-- The mixing applied to the incoming value by the 64-bit
boost::hash_combine_impl (Boost 1.56 - 1.80, the murmur-style variant
selected when size_t has 64 bits): k *= m; k ^= k >> 47; k *= m. -/
def hash_combine_mix (k : Nat) : Nat :=
  let k1 := (k * HASH_COMBINE_M) % SIZE_T_MOD
  let k2 := k1 ^^^ (k1 >>> 47)
  (k2 * HASH_COMBINE_M) % SIZE_T_MOD

/-- boost::hash_combine on a 64-bit size_t seed (Boost 1.56 - 1.80):
h ^= mix(k); h *= m; h += 0xe6546b64.  (Boost 1.81+ replaced this by
hash_mix; like this variant it mixes the combined value in bijectively,
which is the only property the theorems below rely on.) -/
def hash_combine (h k : Nat) : Nat :=
  let h1 := h ^^^ hash_combine_mix k
  ((h1 * HASH_COMBINE_M) % SIZE_T_MOD + 0xe6546b64) % SIZE_T_MOD

/-- std::hash of ezio::torrent_location, from store_buffer.hpp: a
boost::hash_combine chain seeded with 0 over std::hash of the storage
index, then of the piece index, then of the offset.  Note that the
offset is combined in. -/
def std_hash_torrent_location (l : torrent_location) : Nat :=
  hash_combine (hash_combine (hash_combine 0 l.torrent) (toSizeT l.piece)) (toSizeT l.offset)

/-- `NUM_PARTITIONS` from unified_cache.hpp. -/
def NUM_PARTITIONS : Nat := 32

/-- unified_cache::get_partition_index (unified_cache.hpp): the full
location hash, shifted right by 32 bits, reduced modulo the number of
partitions. -/
def get_partition_index (l : torrent_location) : Nat :=
  (std_hash_torrent_location l >>> 32) % NUM_PARTITIONS

/-! Helper lemmas: the 64-bit hash_combine is a bijection in the combined
value, so the offset genuinely influences the location hash. -/

theorem size_t_mod_pos : 0 < SIZE_T_MOD := by decide

theorem xor_shiftRight_distrib (a b n : Nat) :
    (a ^^^ b) >>> n = (a >>> n) ^^^ (b >>> n) := by
  apply Nat.eq_of_testBit_eq
  intro i
  simp [Nat.testBit_shiftRight, Nat.testBit_xor]

theorem shiftRight_eq_zero_of_lt {a n : Nat} (h : a < 2 ^ n) : a >>> n = 0 := by
  rw [Nat.shiftRight_eq_div_pow]
  exact Nat.div_eq_of_lt h

theorem shiftRight_le_self (a n : Nat) : a >>> n ≤ a := by
  rw [Nat.shiftRight_eq_div_pow]
  exact Nat.div_le_self _ _

theorem xor_left_cancel {h a b : Nat} (heq : h ^^^ a = h ^^^ b) : a = b := by
  have h2 := congrArg (fun z => h ^^^ z) heq
  simpa [← Nat.xor_assoc, Nat.xor_self, Nat.zero_xor] using h2

/-- k ^^^ (k >>> 47) is an involution on 64-bit values. -/
theorem xorshift47_involution {c : Nat} (hc : c < SIZE_T_MOD) :
    (c ^^^ (c >>> 47)) ^^^ ((c ^^^ (c >>> 47)) >>> 47) = c := by
  have h94 : (c >>> 47) >>> 47 = 0 := by
    rw [← Nat.shiftRight_add]
    exact shiftRight_eq_zero_of_lt (lt_of_lt_of_le hc (by norm_num [SIZE_T_MOD]))
  rw [xor_shiftRight_distrib, h94]
  rw [Nat.xor_assoc]
  rw [show (c >>> 47) ^^^ ((c >>> 47) ^^^ 0) = 0 by
    simp [Nat.xor_self]]
  simp

theorem xorshift47_inj {a b : Nat} (ha : a < SIZE_T_MOD) (hb : b < SIZE_T_MOD)
    (h : a ^^^ (a >>> 47) = b ^^^ (b >>> 47)) : a = b := by
  have h1 := xorshift47_involution ha
  rw [h] at h1
  rw [xorshift47_involution hb] at h1
  exact h1.symm

theorem mul_M_mod_inj {a b : Nat} (ha : a < SIZE_T_MOD) (hb : b < SIZE_T_MOD)
    (h : (a * HASH_COMBINE_M) % SIZE_T_MOD = (b * HASH_COMBINE_M) % SIZE_T_MOD) :
    a = b := by
  have hco : Nat.Coprime SIZE_T_MOD HASH_COMBINE_M :=
    Nat.Coprime.pow_left 64 (by decide)
  have hmod : a ≡ b [MOD SIZE_T_MOD] := Nat.ModEq.cancel_right_of_coprime hco h
  calc a = a % SIZE_T_MOD := (Nat.mod_eq_of_lt ha).symm
    _ = b % SIZE_T_MOD := hmod
    _ = b := Nat.mod_eq_of_lt hb

theorem hash_combine_mix_inj {a b : Nat} (ha : a < SIZE_T_MOD) (hb : b < SIZE_T_MOD)
    (h : hash_combine_mix a = hash_combine_mix b) : a = b := by
  unfold hash_combine_mix at h
  have hlt : ∀ x : Nat, x % SIZE_T_MOD < SIZE_T_MOD := fun x => Nat.mod_lt x size_t_mod_pos
  have hxs : ∀ x : Nat, x < SIZE_T_MOD → x ^^^ (x >>> 47) < SIZE_T_MOD := by
    intro x hx
    exact Nat.xor_lt_two_pow hx (lt_of_le_of_lt (shiftRight_le_self x 47) hx)
  have hxa : (a * HASH_COMBINE_M) % SIZE_T_MOD ^^^ (((a * HASH_COMBINE_M) % SIZE_T_MOD) >>> 47) < SIZE_T_MOD :=
    hxs ((a * HASH_COMBINE_M) % SIZE_T_MOD) (hlt (a * HASH_COMBINE_M))
  have hxb : (b * HASH_COMBINE_M) % SIZE_T_MOD ^^^ (((b * HASH_COMBINE_M) % SIZE_T_MOD) >>> 47) < SIZE_T_MOD :=
    hxs ((b * HASH_COMBINE_M) % SIZE_T_MOD) (hlt (b * HASH_COMBINE_M))
  have h2 := mul_M_mod_inj hxa hxb h
  have h3 := xorshift47_inj (hlt _) (hlt _) h2
  exact mul_M_mod_inj ha hb h3

theorem hash_combine_right_inj {h a b : Nat} (hh : h < SIZE_T_MOD)
    (ha : a < SIZE_T_MOD) (hb : b < SIZE_T_MOD)
    (heq : hash_combine h a = hash_combine h b) : a = b := by
  unfold hash_combine at heq
  have hlt : ∀ x : Nat, x % SIZE_T_MOD < SIZE_T_MOD := fun x => Nat.mod_lt x size_t_mod_pos
  have hm : Nat.ModEq SIZE_T_MOD
      (((h ^^^ hash_combine_mix a) * HASH_COMBINE_M) % SIZE_T_MOD + 0xe6546b64)
      (((h ^^^ hash_combine_mix b) * HASH_COMBINE_M) % SIZE_T_MOD + 0xe6546b64) := heq
  have h1 : ((h ^^^ hash_combine_mix a) * HASH_COMBINE_M) % SIZE_T_MOD
      = ((h ^^^ hash_combine_mix b) * HASH_COMBINE_M) % SIZE_T_MOD := by
    have h2 := Nat.ModEq.add_right_cancel' 0xe6546b64 hm
    calc ((h ^^^ hash_combine_mix a) * HASH_COMBINE_M) % SIZE_T_MOD
        = ((h ^^^ hash_combine_mix a) * HASH_COMBINE_M) % SIZE_T_MOD % SIZE_T_MOD :=
          (Nat.mod_eq_of_lt (hlt _)).symm
      _ = ((h ^^^ hash_combine_mix b) * HASH_COMBINE_M) % SIZE_T_MOD % SIZE_T_MOD := h2
      _ = ((h ^^^ hash_combine_mix b) * HASH_COMBINE_M) % SIZE_T_MOD :=
          Nat.mod_eq_of_lt (hlt _)
  have hxa : h ^^^ hash_combine_mix a < SIZE_T_MOD :=
    Nat.xor_lt_two_pow hh (hlt _)
  have hxb : h ^^^ hash_combine_mix b < SIZE_T_MOD :=
    Nat.xor_lt_two_pow hh (hlt _)
  have h3 := mul_M_mod_inj hxa hxb h1
  exact hash_combine_mix_inj ha hb (xor_left_cancel h3)

theorem hash_combine_lt (h k : Nat) : hash_combine h k < SIZE_T_MOD :=
  Nat.mod_lt _ size_t_mod_pos

theorem toSizeT_lt (i : Int) : toSizeT i < SIZE_T_MOD := by
  unfold toSizeT
  have h1 : 0 ≤ i % (SIZE_T_MOD : Int) :=
    Int.emod_nonneg i (by norm_num [SIZE_T_MOD])
  have h2 : i % (SIZE_T_MOD : Int) < (SIZE_T_MOD : Int) :=
    Int.emod_lt_of_pos i (by norm_num [SIZE_T_MOD])
  omega

/-- C1, counterexample.  The blocks at offsets 0 and 16384 of piece 0 of
storage 0 share storage id and piece index and differ only in offset,
yet unified_cache::get_partition_index maps them to different shards
(the location hash of store_buffer.hpp combines the offset in). -/
theorem shard_index_offset_counterexample :
    get_partition_index ⟨0, 0, 0⟩ ≠ get_partition_index ⟨0, 0, 16384⟩ := by
  decide

/-- C1, amended.  The shard index is derived from the hash of the whole
location, storage id, piece index and offset: the final hash_combine step
mixes the offset in bijectively, so for a fixed storage and piece the
location hash determines the block offset, and blocks of one piece at
distinct offsets can land on distinct shards (the counterexample above);
only operations on the same (storage, piece, offset) triple are
guaranteed the same shard. -/
theorem shard_hash_mixes_offset_injectively (t : Nat) (p o1 o2 : Int)
    (h1 : 0 ≤ o1) (h2 : o1 < (SIZE_T_MOD : Int))
    (h3 : 0 ≤ o2) (h4 : o2 < (SIZE_T_MOD : Int))
    (heq : std_hash_torrent_location ⟨t, p, o1⟩ = std_hash_torrent_location ⟨t, p, o2⟩) :
    o1 = o2 := by
  unfold std_hash_torrent_location at heq
  have h5 := hash_combine_right_inj (hash_combine_lt _ _) (toSizeT_lt o1) (toSizeT_lt o2) heq
  unfold toSizeT at h5
  rw [Int.emod_eq_of_lt h1 h2, Int.emod_eq_of_lt h3 h4] at h5
  omega

/-- Witness for the amended C1 theorem at concrete inputs. -/
theorem shard_hash_mixes_offset_injectively_witness :
    ((0 : Int) ≤ 0 ∧ (0 : Int) < (SIZE_T_MOD : Int)) ∧ (0 : Int) = 0 :=
  ⟨⟨le_refl 0, by norm_num [SIZE_T_MOD]⟩,
    shard_hash_mixes_offset_injectively 0 0 0 0 (le_refl 0)
      (by norm_num [SIZE_T_MOD]) (le_refl 0) (by norm_num [SIZE_T_MOD]) rfl⟩

/-! ## Buffer pool (buffer_pool.hpp / buffer_pool.cpp)

The pool counts allocated 16 KiB buffers in the C++ int m_size, latches
m_exceeded_max_size under pressure and keeps a vector of weak
disk_observer references.  A weak reference is modelled as Option Nat
(none = the observer was destroyed before the notification fired);
success of the underlying malloc is passed in as a Bool.  The
spdlog calls have no effect on state and are dropped. -/

/-- MAX_BUFFER_POOL_SIZE from buffer_pool.hpp: 128 MiB. -/
def MAX_BUFFER_POOL_SIZE : Nat := 128 * 1024 * 1024

/-- BUFFER_COUNT from buffer_pool.hpp. -/
def BUFFER_COUNT : Nat := MAX_BUFFER_POOL_SIZE / (16 * 1024)

/-- LOW_WATERMARK from buffer_pool.hpp: half of BUFFER_COUNT. -/
def LOW_WATERMARK : Nat := MAX_BUFFER_POOL_SIZE / (16 * 1024) / 2

/-- HIGH_WATERMARK from buffer_pool.hpp: 7/8 of BUFFER_COUNT. -/
def HIGH_WATERMARK : Nat := MAX_BUFFER_POOL_SIZE / (16 * 1024) / 8 * 7

/-- The mutable state of ezio::buffer_pool (buffer_pool.cpp constructor
initialises the four numeric fields from the macros above). -/
structure buffer_pool where
  size : Int
  max_use : Int
  low_watermark : Int
  high_watermark : Int
  exceeded_max_size : Bool
  observers : List (Option Nat)
deriving DecidableEq

/-- The state built by the buffer_pool constructor. -/
def buffer_pool.start : buffer_pool :=
  ⟨0, (BUFFER_COUNT : Int), (LOW_WATERMARK : Int), (HIGH_WATERMARK : Int), false, []⟩

/-- buffer_pool::allocate_buffer_impl.  Returns the new state and whether
a buffer was handed out (the char pointer was non-null). -/
def allocate_buffer_impl (p : buffer_pool) (mallocOk : Bool) : buffer_pool × Bool :=
  if p.size ≥ p.max_use then ({ p with exceeded_max_size := true }, false)
  else
    let p1 := if p.size > p.high_watermark then { p with exceeded_max_size := true } else p
    if mallocOk then ({ p1 with size := p1.size + 1 }, true)
    else ({ p1 with exceeded_max_size := true }, false)

/-- buffer_pool::allocate_buffer(bool and exceeded, observer o): after the
impl call, when m_exceeded_max_size is latched, the out-parameter
exceeded is set and a non-null observer is enqueued.  Result:
(new state, buffer handed out, exceeded out-parameter). -/
def allocate_buffer_observer (p : buffer_pool) (mallocOk : Bool) (o : Option (Option Nat)) :
    buffer_pool × Bool × Bool :=
  let r := allocate_buffer_impl p mallocOk
  if r.1.exceeded_max_size then
    (match o with
     | some ob => { r.1 with observers := r.1.observers ++ [ob] }
     | none => r.1, r.2, true)
  else (r.1, r.2, false)

/-- Events emitted by free_disk_buffer, in program order: taking the pool
mutex, freeing the buffer, releasing the mutex, and posting the detached
observer list to the engine's io_context. -/
inductive pool_event where
  | lock
  | freed
  | unlock
  | post (cbs : List (Option Nat))
deriving DecidableEq

/-- buffer_pool::check_buffer_level.  On recovery the observer list is
swapped out and the mutex explicitly unlocked before the post; on the
early return the lock is released at scope exit.  Returns the new state
and the trailing event trace. -/
def check_buffer_level (p : buffer_pool) : buffer_pool × List pool_event :=
  if ¬ p.exceeded_max_size ∨ p.size > p.low_watermark then
    (p, [.unlock])
  else
    ({ p with exceeded_max_size := false, observers := [] },
      [.unlock, .post p.observers])

/-- buffer_pool::free_disk_buffer: under the mutex, free the buffer,
decrement m_size and run check_buffer_level. -/
def free_disk_buffer (p : buffer_pool) : buffer_pool × List pool_event :=
  let r := check_buffer_level { p with size := p.size - 1 }
  (r.1, [.lock, .freed] ++ r.2)

/-- ezio::watermark_callback (buffer_pool.cpp): lock each weak reference
in turn and invoke on_disk on those still alive.  Returns the observers
invoked, in order. -/
def watermark_callback : List (Option Nat) → List Nat
  | [] => []
  | some o :: rest => o :: watermark_callback rest
  | none :: rest => watermark_callback rest

/-- A client operation on the pool: an allocation attempt (with given
malloc outcome and optional observer) or a buffer free. -/
inductive pool_op where
  | alloc (mallocOk : Bool) (o : Option (Option Nat))
  | free
deriving DecidableEq

/-- Run a sequence of pool operations. -/
def run_pool : buffer_pool → List pool_op → buffer_pool
  | p, [] => p
  | p, .alloc ok o :: rest => run_pool (allocate_buffer_observer p ok o).1 rest
  | p, .free :: rest => run_pool (free_disk_buffer p).1 rest

/-- Number of operations in the run that actually received a buffer. -/
def run_pool_got : buffer_pool → List pool_op → Nat
  | _, [] => 0
  | p, .alloc ok o :: rest =>
      (if (allocate_buffer_observer p ok o).2.1 then 1 else 0)
        + run_pool_got (allocate_buffer_observer p ok o).1 rest
  | p, .free :: rest => run_pool_got (free_disk_buffer p).1 rest

/-- Number of free operations in a sequence. -/
def free_count : List pool_op → Nat
  | [] => 0
  | .free :: rest => free_count rest + 1
  | .alloc _ _ :: rest => free_count rest

/-- Every allocation in the sequence has a successful malloc. -/
def all_malloc_ok (ops : List pool_op) : Prop :=
  ∀ ok o, pool_op.alloc ok o ∈ ops → ok = true

/-- The pool invariant: watermark geometry plus the fact that the
exceeded latch is only ever set while usage is above the low watermark
(given that malloc itself never fails). -/
def pool_inv (p : buffer_pool) : Prop :=
  p.low_watermark < p.max_use ∧ p.low_watermark ≤ p.high_watermark ∧
    (p.exceeded_max_size = true → p.low_watermark < p.size)

theorem alloc_observer_size (p : buffer_pool) (ok : Bool) (o : Option (Option Nat)) :
    (allocate_buffer_observer p ok o).1.size
      = p.size + (if (allocate_buffer_observer p ok o).2.1 then 1 else 0) := by
  unfold allocate_buffer_observer allocate_buffer_impl
  rcases o with _ | ob <;> rcases ok with _ | _ <;>
    rcases hpe : p.exceeded_max_size with _ | _ <;>
    by_cases h1 : p.size ≥ p.max_use <;>
    by_cases h2 : p.size > p.high_watermark <;>
    simp [h1, h2, hpe]

theorem alloc_observer_const (p : buffer_pool) (ok : Bool) (o : Option (Option Nat)) :
    (allocate_buffer_observer p ok o).1.max_use = p.max_use
    ∧ (allocate_buffer_observer p ok o).1.low_watermark = p.low_watermark
    ∧ (allocate_buffer_observer p ok o).1.high_watermark = p.high_watermark := by
  unfold allocate_buffer_observer allocate_buffer_impl
  rcases o with _ | ob <;> rcases ok with _ | _ <;>
    rcases hpe : p.exceeded_max_size with _ | _ <;>
    by_cases h1 : p.size ≥ p.max_use <;>
    by_cases h2 : p.size > p.high_watermark <;>
    simp [h1, h2, hpe]

theorem free_buffer_size (p : buffer_pool) :
    (free_disk_buffer p).1.size = p.size - 1 := by
  unfold free_disk_buffer check_buffer_level
  split <;> simp

theorem free_buffer_const (p : buffer_pool) :
    (free_disk_buffer p).1.max_use = p.max_use
    ∧ (free_disk_buffer p).1.low_watermark = p.low_watermark
    ∧ (free_disk_buffer p).1.high_watermark = p.high_watermark := by
  unfold free_disk_buffer check_buffer_level
  split <;> simp

theorem alloc_preserves_inv {p : buffer_pool} (h : pool_inv p) (o : Option (Option Nat)) :
    pool_inv (allocate_buffer_observer p true o).1 := by
  obtain ⟨h1, h2, h3⟩ := h
  unfold pool_inv allocate_buffer_observer allocate_buffer_impl
  rcases hpe : p.exceeded_max_size with _ | _
  · rcases o with _ | ob <;>
      by_cases hc1 : p.size ≥ p.max_use <;>
      by_cases hc2 : p.size > p.high_watermark <;>
      simp [hc1, hc2, hpe] <;> omega
  · have h4 : p.low_watermark < p.size := h3 hpe
    rcases o with _ | ob <;>
      by_cases hc1 : p.size ≥ p.max_use <;>
      by_cases hc2 : p.size > p.high_watermark <;>
      simp [hc1, hc2, hpe] <;> omega

theorem free_preserves_inv {p : buffer_pool} (h : pool_inv p) :
    pool_inv (free_disk_buffer p).1 := by
  obtain ⟨h1, h2, h3⟩ := h
  unfold pool_inv free_disk_buffer check_buffer_level
  rcases hpe : p.exceeded_max_size with _ | _ <;>
    by_cases hc : p.size - 1 > p.low_watermark <;>
    simp [hpe, hc] <;> omega

theorem run_pool_preserves_inv (ops : List pool_op) :
    ∀ p : buffer_pool, pool_inv p → all_malloc_ok ops → pool_inv (run_pool p ops) := by
  induction ops with
  | nil => intro p hp _; exact hp
  | cons op rest ih =>
      intro p hp hok
      cases op with
      | alloc ok o =>
          have hok1 : ok = true := hok ok o (List.mem_cons_self _ _)
          subst hok1
          exact ih _ (alloc_preserves_inv hp o)
            (fun ok2 o2 hm => hok ok2 o2 (List.mem_cons_of_mem _ hm))
      | free =>
          exact ih _ (free_preserves_inv hp)
            (fun ok2 o2 hm => hok ok2 o2 (List.mem_cons_of_mem _ hm))

theorem run_pool_size (ops : List pool_op) :
    ∀ p : buffer_pool,
      (run_pool p ops).size
        = p.size + (run_pool_got p ops : Int) - (free_count ops : Int) := by
  induction ops with
  | nil => intro p; simp [run_pool, run_pool_got, free_count]
  | cons op rest ih =>
      intro p
      cases op with
      | alloc ok o =>
          have h1 := alloc_observer_size p ok o
          simp only [run_pool, run_pool_got, free_count]
          rw [ih, h1]
          split <;> push_cast <;> ring
      | free =>
          have h1 := free_buffer_size p
          simp only [run_pool, run_pool_got, free_count]
          rw [ih, h1]
          push_cast
          ring

/-- C7.  Freeing a pool buffer decrements m_size; when the exceeded
latch is set and usage has dropped to at most the low watermark
(max_use / 2 at construction), the latch clears, the observer list is
detached, and the list is posted only after the mutex has been released
(the unlock event strictly precedes the post event in the trace);
the posted callback invokes on_disk exactly on the observers whose weak
references still resolve; and, provided malloc never fails, a run in
which every handed-out buffer is freed ends with usage 0 and the
exceeded flag clear. -/
theorem free_buffer_watermark_recovery :
    (∀ p : buffer_pool, (free_disk_buffer p).1.size = p.size - 1)
    ∧ (∀ p : buffer_pool, p.exceeded_max_size = true → p.size - 1 ≤ p.low_watermark →
        (free_disk_buffer p).1.exceeded_max_size = false
        ∧ (free_disk_buffer p).1.observers = []
        ∧ (free_disk_buffer p).2
            = [.lock, .freed, .unlock, .post p.observers])
    ∧ (∀ cbs : List (Option Nat), watermark_callback cbs = cbs.filterMap id)
    ∧ buffer_pool.start.low_watermark = buffer_pool.start.max_use / 2
    ∧ (∀ ops : List pool_op, all_malloc_ok ops →
        run_pool_got buffer_pool.start ops = free_count ops →
        (run_pool buffer_pool.start ops).size = 0
        ∧ (run_pool buffer_pool.start ops).exceeded_max_size = false) := by
  refine ⟨free_buffer_size, ?_, ?_, ?_, ?_⟩
  · intro p hexc hle
    unfold free_disk_buffer check_buffer_level
    have hcond : ¬ (p.size - 1 > p.low_watermark) := by omega
    simp [hexc, hcond]
  · intro cbs
    induction cbs with
    | nil => simp [watermark_callback]
    | cons c rest ih => cases c <;> simp [watermark_callback, ih]
  · show (LOW_WATERMARK : Int) = (BUFFER_COUNT : Int) / 2
    norm_num [LOW_WATERMARK, BUFFER_COUNT, MAX_BUFFER_POOL_SIZE]
  · intro ops hok hbal
    have hinv : pool_inv (run_pool buffer_pool.start ops) := by
      apply run_pool_preserves_inv ops buffer_pool.start ?_ hok
      refine ⟨?_, ?_, ?_⟩
      · show (LOW_WATERMARK : Int) < (BUFFER_COUNT : Int)
        norm_num [LOW_WATERMARK, BUFFER_COUNT, HIGH_WATERMARK, MAX_BUFFER_POOL_SIZE]
      · show (LOW_WATERMARK : Int) ≤ (HIGH_WATERMARK : Int)
        norm_num [LOW_WATERMARK, HIGH_WATERMARK, MAX_BUFFER_POOL_SIZE]
      · intro hx
        exact absurd hx (by simp [buffer_pool.start])
    have hsz : (run_pool buffer_pool.start ops).size = 0 := by
      rw [run_pool_size ops buffer_pool.start, hbal]
      simp [buffer_pool.start]
    refine ⟨hsz, ?_⟩
    by_contra hx
    have hx2 : (run_pool buffer_pool.start ops).exceeded_max_size = true := by
      revert hx
      cases (run_pool buffer_pool.start ops).exceeded_max_size <;> simp
    have h3 := hinv.2.2 hx2
    rw [hsz] at h3
    have h4 : (run_pool buffer_pool.start ops).low_watermark = (LOW_WATERMARK : Int) := by
      have hc : ∀ ops2, ∀ p : buffer_pool,
          (run_pool p ops2).low_watermark = p.low_watermark := by
        intro ops2
        induction ops2 with
        | nil => intro p; rfl
        | cons op rest ih =>
            intro p
            cases op with
            | alloc ok o => simp [run_pool, ih, (alloc_observer_const p ok o).2.1]
            | free => simp [run_pool, ih, (free_buffer_const p).2.1]
      exact hc ops buffer_pool.start
    rw [h4] at h3
    norm_num [LOW_WATERMARK, MAX_BUFFER_POOL_SIZE] at h3

/-- Witness for the C7 theorem: a pool with the latch set and usage just
above the low watermark recovers on the next free, and the two-operation
run (one successful allocation, one free) ends balanced. -/
theorem free_buffer_watermark_recovery_witness :
    (buffer_pool.mk 4097 8192 4096 7168 true [some 5, none]).exceeded_max_size = true
    ∧ ((free_disk_buffer (buffer_pool.mk 4097 8192 4096 7168 true [some 5, none])).1.exceeded_max_size = false
        ∧ (free_disk_buffer (buffer_pool.mk 4097 8192 4096 7168 true [some 5, none])).2
            = [.lock, .freed, .unlock, .post [some 5, none]]
        ∧ watermark_callback [some 5, none] = [5])
    ∧ ((run_pool buffer_pool.start [.alloc true none, .free]).size = 0
        ∧ (run_pool buffer_pool.start [.alloc true none, .free]).exceeded_max_size = false) := by
  have h := free_buffer_watermark_recovery
  refine ⟨rfl, ⟨?_, ?_, ?_⟩, ?_⟩
  · exact (h.2.1 _ rfl (by norm_num)).1
  · exact (h.2.1 _ rfl (by norm_num)).2.2
  · rw [h.2.2.1]
    rfl
  · refine h.2.2.2.2 _ ?_ ?_
    · intro ok o hm
      simp only [List.mem_cons, List.mem_singleton] at hm
      rcases hm with h1 | h1 | h1
      · cases h1; rfl
      · cases h1
      · cases h1
    · rfl

/-! ## Layout name parsing and partition_storage (raw_disk_io.cpp)

partition_storage::read / ::write map a block request through
libtorrent's file_storage::map_block (an external library function; its
result, the ordered slice list, is taken here as an input), parse each
slice's file name as a hexadecimal device offset with
std::stoll(name, 0, 16), and perform one pread/pwrite per slice.  The
first name that fails to parse aborts the loop with a parse_failed
error tagged with that file's index. -/

/-- The error kinds of section 7 of the spec that this embedding uses. -/
inductive error_kind where
  | no_memory
  | invalid_request
  | parse_failed
deriving DecidableEq

/-- libtorrent operation_t values used by ezio. -/
inductive operation_kind where
  | file_read
  | file_write
  | alloc_cache_piece
deriving DecidableEq

/-- libtorrent::storage_error: an error code (none = success), the
tagged file index and the operation tag. -/
structure storage_error where
  ec : Option error_kind
  file : Option Nat
  operation : Option operation_kind
deriving DecidableEq

/-- A default-constructed (success) storage_error. -/
def storage_error.ok : storage_error := ⟨none, none, none⟩

/-- The whitespace set skipped by strtoll (C isspace in the C locale). -/
def is_space_char (c : Char) : Bool :=
  c == ' ' || c == '\t' || c == '\n' || c == '\x0b' || c == '\x0c' || c == '\r'

/-- Value of a hexadecimal digit, lower or upper case. -/
def hex_digit_val (c : Char) : Option Nat :=
  if '0' ≤ c ∧ c ≤ '9' then some (c.toNat - '0'.toNat)
  else if 'a' ≤ c ∧ c ≤ 'f' then some (c.toNat - 'a'.toNat + 10)
  else if 'A' ≤ c ∧ c ≤ 'F' then some (c.toNat - 'A'.toNat + 10)
  else none

def is_hex_digit (c : Char) : Bool := (hex_digit_val c).isSome

/-- INT64_MAX, the largest value std::stoll can return. -/
def INT64_MAX : Nat := 2 ^ 63 - 1

/-- std::stoll(name, 0, 16), i.e. strtoll with base 16: skip leading
whitespace, accept an optional sign, accept an optional 0x / 0X prefix
(only when a hex digit follows it; otherwise the leading 0 is itself
the number), then consume hex digits of either case.  none is returned
when no digits can be consumed (std::invalid_argument) or the value
falls outside the long long range (std::out_of_range); both exceptions
are caught by the same handler in partition_storage. -/
def strtoll_hex (s : List Char) : Option Int :=
  let s1 := s.dropWhile is_space_char
  let neg : Bool := match s1 with
    | c :: _ => c == '-'
    | [] => false
  let s2 := match s1 with
    | c :: rest => if c == '-' || c == '+' then rest else s1
    | [] => s1
  let s3 := match s2 with
    | c0 :: c1 :: c2 :: rest =>
        if c0 == '0' && (c1 == 'x' || c1 == 'X') && is_hex_digit c2 then c2 :: rest else s2
    | _ => s2
  let digits := s3.takeWhile is_hex_digit
  if digits.isEmpty then none
  else
    let v : Nat := digits.foldl (fun a c => a * 16 + ((hex_digit_val c).getD 0)) 0
    if neg then (if v ≤ 2 ^ 63 then some (-(v : Int)) else none)
    else (if v ≤ INT64_MAX then some (v : Int) else none)

/-- One slice of libtorrent's map_block result: the file it falls in,
the byte offset inside that file, and its length. -/
structure file_slice where
  file_index : Nat
  offset : Int
  size : Int
deriving DecidableEq

/-- One positional I/O call performed by partition_storage. -/
structure pio_call where
  device_offset : Int
  len : Int
deriving DecidableEq

/-- The slice loop of partition_storage::read: accumulate the transfer
count and the pread calls; the first unparseable file name stops the
loop with parse_failed tagged with that file index (raw_disk_io.cpp).
Arguments: name table, remaining slices, bytes so far, calls so far. -/
def partition_read_go (names : List (List Char)) :
    List file_slice → Int → List pio_call → Int × List pio_call × storage_error
  | [], ret, acc => (ret, acc.reverse, storage_error.ok)
  | sl :: rest, ret, acc =>
      match strtoll_hex (names.getD sl.file_index []) with
      | none => (ret, acc.reverse, ⟨some .parse_failed, some sl.file_index, some .file_read⟩)
      | some base => partition_read_go names rest (ret + sl.size) (⟨base + sl.offset, sl.size⟩ :: acc)

/-- partition_storage::read on an already-mapped request. -/
def partition_storage_read (names : List (List Char)) (slices : List file_slice) :
    Int × List pio_call × storage_error :=
  partition_read_go names slices 0 []

/-- The slice loop of partition_storage::write; identical to the read
loop except that no transfer count is kept and the operation tag is
file_write. -/
def partition_write_go (names : List (List Char)) :
    List file_slice → List pio_call → List pio_call × storage_error
  | [], acc => (acc.reverse, storage_error.ok)
  | sl :: rest, acc =>
      match strtoll_hex (names.getD sl.file_index []) with
      | none => (acc.reverse, ⟨some .parse_failed, some sl.file_index, some .file_write⟩)
      | some base => partition_write_go names rest (⟨base + sl.offset, sl.size⟩ :: acc)

/-- partition_storage::write on an already-mapped request. -/
def partition_storage_write (names : List (List Char)) (slices : List file_slice) :
    List pio_call × storage_error :=
  partition_write_go names slices []

/-- The first slice (in mapping order) whose file name does not parse. -/
def first_unparsed (names : List (List Char)) (slices : List file_slice) : Option Nat :=
  (slices.find? (fun sl => (strtoll_hex (names.getD sl.file_index [])).isNone)).map
    (fun sl => sl.file_index)

/-- C5, counterexample.  The claim requires the parser to reject a
leading space and a 0x prefix; std::stoll with base 16 accepts both, so
a read whose single file is named 0x1A succeeds with no error instead
of failing with ParseFailed. -/
theorem hex_parser_accepts_ws_and_0x_counterexample :
    strtoll_hex [' ', '1', 'a'] = some 26
    ∧ strtoll_hex ['0', 'x', '1', 'A'] = some 26
    ∧ (partition_storage_read [['0', 'x', '1', 'A']] [⟨0, 0, 16384⟩]).2.2 = storage_error.ok
    ∧ (partition_storage_read [['0', 'x', '1', 'A']] [⟨0, 0, 16384⟩]).2.1 = [⟨26, 16384⟩] := by
  decide

/-- C5, amended.  Mapping a read or write through the layout fails with
ParseFailed, tagged with the failing file's index, exactly when some
file name of the mapping does not parse under std::stoll(name, 0, 16)
(the first such file is reported); the parser accepts lower- and
upper-case hex digits, and in addition tolerates leading whitespace, an
optional sign, and a 0x / 0X prefix. -/
theorem parse_failed_iff_unparseable_name (names : List (List Char)) (slices : List file_slice) :
    (partition_storage_read names slices).2.2
      = (match first_unparsed names slices with
          | some i => (⟨some .parse_failed, some i, some .file_read⟩ : storage_error)
          | none => storage_error.ok)
    ∧ (partition_storage_write names slices).2
      = (match first_unparsed names slices with
          | some i => (⟨some .parse_failed, some i, some .file_write⟩ : storage_error)
          | none => storage_error.ok)
    ∧ strtoll_hex ['a', 'B', '3'] = some 2739
    ∧ strtoll_hex [' ', '\t', 'f', 'F'] = some 255
    ∧ strtoll_hex ['0', 'X', '1', '0'] = some 16
    ∧ strtoll_hex ['g', '1'] = none := by
  refine ⟨?_, ?_, by decide, by decide, by decide, by decide⟩
  · have hgo : ∀ sls ret acc, (partition_read_go names sls ret acc).2.2
        = (match first_unparsed names sls with
            | some i => (⟨some .parse_failed, some i, some .file_read⟩ : storage_error)
            | none => storage_error.ok) := by
      intro sls
      induction sls with
      | nil => intro ret acc; rfl
      | cons sl rest ih =>
          intro ret acc
          rcases hp : strtoll_hex (names.getD sl.file_index []) with _ | v
          · rw [partition_read_go, hp]
            rw [show first_unparsed names (sl :: rest) = some sl.file_index by
              unfold first_unparsed
              rw [List.find?_cons_of_pos]
              · rfl
              · simp only [hp, Option.isNone_none]]
          · rw [partition_read_go, hp]
            rw [show first_unparsed names (sl :: rest) = first_unparsed names rest by
              unfold first_unparsed
              rw [List.find?_cons_of_neg]
              simp only [hp, Option.isNone_some]
              exact Bool.false_ne_true]
            exact ih _ _
    exact hgo slices 0 []
  · have hgo : ∀ sls acc, (partition_write_go names sls acc).2
        = (match first_unparsed names sls with
            | some i => (⟨some .parse_failed, some i, some .file_write⟩ : storage_error)
            | none => storage_error.ok) := by
      intro sls
      induction sls with
      | nil => intro acc; rfl
      | cons sl rest ih =>
          intro acc
          rcases hp : strtoll_hex (names.getD sl.file_index []) with _ | v
          · rw [partition_write_go, hp]
            rw [show first_unparsed names (sl :: rest) = some sl.file_index by
              unfold first_unparsed
              rw [List.find?_cons_of_pos]
              · rfl
              · simp only [hp, Option.isNone_none]]
          · rw [partition_write_go, hp]
            rw [show first_unparsed names (sl :: rest) = first_unparsed names rest by
              unfold first_unparsed
              rw [List.find?_cons_of_neg]
              simp only [hp, Option.isNone_some]
              exact Bool.false_ne_true]
            exact ih _
    exact hgo slices []

/-! ## Block cache (unified_cache.hpp / unified_cache.cpp)

cache_partition holds an unordered_map from torrent_location to
cache_entry (embedded as an association list with distinct keys), three
LRU lists whose front is the most-recently-used end, a capacity and the
two watermark counters m_num_dirty / m_num_clean (size_t in C++,
embedded as Int computing exactly; the C++ value is this integer
reduced mod 2^64, and it never leaves [0, 2^64) in coherent states).  The statistics
counters (hits / misses / inserts / evictions / contentions) influence
no behaviour and are dropped, as are the per-partition mutex and the
observer notification of check_watermark_recovery (a function called by
a newer revision of unified_cache.cpp but absent from the header; it
touches no entry, list or counter state). -/

/-- cache_state from unified_cache.hpp. -/
inductive cache_state where
  | write_lru
  | read_lru1
  | read_lru2
deriving DecidableEq

/-- cache_entry from unified_cache.hpp.  The 16 KiB malloc'ed buffer is
the list of its byte values; `length` is the size of the valid prefix.
The C++ loc field is the entry's key in the partition map, and lru_iter
is represented by the partition's explicit lists. -/
structure cache_entry where
  data : List Nat
  length : Int
  dirty : Bool
  state : cache_state
deriving DecidableEq

/-- The mutable state of one cache_partition. -/
structure cache_partition where
  entries : List (torrent_location × cache_entry)
  write_lru : List torrent_location
  read_lru1 : List torrent_location
  read_lru2 : List torrent_location
  max_entries : Nat
  num_dirty : Int
  num_clean : Int
  exceeded : Bool
deriving DecidableEq

/-- A freshly constructed partition with the given capacity. -/
def cache_partition.empty (max : Nat) : cache_partition := ⟨[], [], [], [], max, 0, 0, false⟩

/-- m_entries.find(loc). -/
def find_entry : List (torrent_location × cache_entry) → torrent_location → Option cache_entry
  | [], _ => none
  | x :: rest, l => if x.1 = l then some x.2 else find_entry rest l

/-- Overwrite the entry stored under an existing key (writing through
the iterator obtained from find). -/
def set_entry : List (torrent_location × cache_entry) → torrent_location → cache_entry →
    List (torrent_location × cache_entry)
  | [], _, _ => []
  | x :: rest, l, e =>
      if x.1 = l then (x.1, e) :: set_entry rest l e else x :: set_entry rest l e

/-- m_entries.erase(it). -/
def erase_entry : List (torrent_location × cache_entry) → torrent_location →
    List (torrent_location × cache_entry)
  | [], _ => []
  | x :: rest, l => if x.1 = l then erase_entry rest l else x :: erase_entry rest l

/-- The LRU list holding blocks of the given state. -/
def lru_list (p : cache_partition) : cache_state → List torrent_location
  | .write_lru => p.write_lru
  | .read_lru1 => p.read_lru1
  | .read_lru2 => p.read_lru2

/-- Replace one of the three LRU lists. -/
def set_lru_list (p : cache_partition) : cache_state → List torrent_location → cache_partition
  | .write_lru, lst => { p with write_lru := lst }
  | .read_lru1, lst => { p with read_lru1 := lst }
  | .read_lru2, lst => { p with read_lru2 := lst }

/-- cache_partition::move_to_list: no-op when the states coincide;
otherwise erase the location from its current state's list, push it at
the front of the target list and update the entry's state field.
`e` is the entry currently stored under `l`. -/
def move_to_list (p : cache_partition) (l : torrent_location) (e : cache_entry)
    (new_state : cache_state) : cache_partition :=
  if e.state == new_state then p
  else
    let p1 := set_lru_list p e.state ((lru_list p e.state).erase l)
    let p2 := set_lru_list p1 new_state (l :: lru_list p1 new_state)
    { p2 with entries := set_entry p2.entries l { e with state := new_state } }

/-- The move-to-front of the current list performed by insert and get
when the state does not change (erase the stored iterator, push_front,
store the new iterator). -/
def touch_front (p : cache_partition) (l : torrent_location) (s : cache_state) :
    cache_partition :=
  set_lru_list p s (l :: (lru_list p s).erase l)

/-- cache_partition::evict_one_lru (unified_cache.cpp): take the back of
read_lru1, else the back of read_lru2; a missing map entry is the
logged inconsistency path returning false, and empty read lists (all
blocks dirty, in write_lru) also return false.  On success returns the
evicted location and the new state. -/
def evict_one_lru (p : cache_partition) : Option (torrent_location × cache_partition) :=
  match p.read_lru1.getLast? with
  | some l =>
      match find_entry p.entries l with
      | none => none
      | some _ =>
          some (l, { p with entries := erase_entry p.entries l,
                            read_lru1 := p.read_lru1.dropLast,
                            num_clean := p.num_clean - 1 })
  | none =>
      match p.read_lru2.getLast? with
      | some l =>
          match find_entry p.entries l with
          | none => none
          | some _ =>
              some (l, { p with entries := erase_entry p.entries l,
                                read_lru2 := p.read_lru2.dropLast,
                                num_clean := p.num_clean - 1 })
      | none => none

/-- The while loop at the head of cache_partition::insert: while at
capacity, evict; stop as soon as eviction fails (over-allocation is
then permitted) or room exists.  fuel bounds the iteration count;
entries.length + 1 suffices because every successful eviction removes
an entry. -/
def evict_until_room : cache_partition → Nat → cache_partition
  | p, 0 => p
  | p, fuel + 1 =>
      if p.entries.length ≥ p.max_entries then
        match evict_one_lru p with
        | some r => evict_until_room r.2 fuel
        | none => p
      else p

/-- cache_partition::insert (unified_cache.cpp).  On an existing key:
memcpy the new bytes over the buffer, set length and dirty, adjust the
counters on real clean/dirty transitions, and move or touch the LRU
position.  On a new key: run the eviction loop, allocate a fresh 16 KiB
buffer (malloc assumed to succeed; uninitialised bytes embedded as 0),
copy, and link at the front of the target list. -/
def cache_partition.insert (p : cache_partition) (l : torrent_location) (src : List Nat)
    (length : Int) (dirty : Bool) : cache_partition :=
  match find_entry p.entries l with
  | some e =>
      let data2 := src.take length.toNat ++ e.data.drop length.toNat
      let new_state := if dirty then cache_state.write_lru else cache_state.read_lru1
      let nd := if dirty then (if e.dirty then p.num_dirty else p.num_dirty + 1)
                else (if e.dirty then p.num_dirty - 1 else p.num_dirty)
      let nc := if dirty then (if e.dirty then p.num_clean else p.num_clean - 1)
                else (if e.dirty then p.num_clean + 1 else p.num_clean)
      let e2 := { e with data := data2, length := length, dirty := dirty }
      let p1 := { p with entries := set_entry p.entries l e2, num_dirty := nd, num_clean := nc }
      if e.state == new_state then touch_front p1 l new_state
      else move_to_list p1 l e2 new_state
  | none =>
      let p1 := evict_until_room p (p.entries.length + 1)
      let e : cache_entry :=
        { data := src.take length.toNat ++ List.replicate (DEFAULT_BLOCK_SIZE.toNat - length.toNat) 0,
          length := length, dirty := dirty,
          state := if dirty then cache_state.write_lru else cache_state.read_lru1 }
      let p2 := { p1 with entries := (l, e) :: p1.entries,
                          num_dirty := if dirty then p1.num_dirty + 1 else p1.num_dirty,
                          num_clean := if dirty then p1.num_clean else p1.num_clean + 1 }
      set_lru_list p2 e.state (l :: lru_list p2 e.state)

/-- cache_partition::mark_clean (unified_cache.cpp): if present and
dirty, clear the dirty flag; when the entry sits in write_lru, move it
to read_lru2 and shift the counters.  The entry stays cached. -/
def cache_partition.mark_clean (p : cache_partition) (l : torrent_location) : cache_partition :=
  match find_entry p.entries l with
  | some e =>
      if e.dirty then
        let e2 := { e with dirty := false }
        let p1 := { p with entries := set_entry p.entries l e2 }
        if e.state == cache_state.write_lru then
          let p2 := move_to_list p1 l e2 cache_state.read_lru2
          { p2 with num_dirty := p2.num_dirty - 1, num_clean := p2.num_clean + 1 }
        else p1
      else p
  | none => p

/-- cache_partition::get (unified_cache.hpp): on a hit promote a
read_lru1 entry to read_lru2, otherwise move the entry to the front of
its current list; hand the buffer to the continuation (returned here).
On a miss return none. -/
def cache_partition.get (p : cache_partition) (l : torrent_location) :
    Option (List Nat) × cache_partition :=
  match find_entry p.entries l with
  | none => (none, p)
  | some e =>
      if e.state == cache_state.read_lru1 then
        (some e.data, move_to_list p l e cache_state.read_lru2)
      else
        (some e.data, touch_front p l e.state)

/-- cache_partition::get2 (unified_cache.hpp): both buffers are captured
from the initial lookups, then the same promotion logic as get is
applied to each found entry in order. -/
def cache_partition.get2 (p : cache_partition) (l1 l2 : torrent_location) :
    Option (List Nat) × Option (List Nat) × cache_partition :=
  let b1 := (find_entry p.entries l1).map (fun e => e.data)
  let b2 := (find_entry p.entries l2).map (fun e => e.data)
  let p1 := match find_entry p.entries l1 with
    | some e =>
        if e.state == cache_state.read_lru1 then move_to_list p l1 e cache_state.read_lru2
        else touch_front p l1 e.state
    | none => p
  let p2 := match find_entry p1.entries l2 with
    | some e =>
        if e.state == cache_state.read_lru1 then move_to_list p1 l2 e cache_state.read_lru2
        else touch_front p1 l2 e.state
    | none => p1
  (b1, b2, p2)

/-- cache_partition::collect_dirty_blocks_for_storage
(unified_cache.cpp): walk the map, return the keys of the dirty entries
of the given storage and clear their dirty flags.  Neither the counters
nor the LRU lists (nor the entry states) are touched. -/
def collect_dirty_blocks_for_storage (p : cache_partition) (storage : Nat) :
    List torrent_location × cache_partition :=
  ((p.entries.filter (fun x => x.2.dirty && (x.1.torrent == storage))).map (fun x => x.1),
   { p with entries := p.entries.map (fun x =>
       if x.2.dirty && (x.1.torrent == storage) then (x.1, { x.2 with dirty := false }) else x) })

/-- cache_partition::get_dirty_ratio.  The C++ code divides in float;
the ratio is embedded exactly as a rational. -/
def get_dirty_ratio (p : cache_partition) : ℚ :=
  if p.max_entries = 0 then 0 else (p.num_dirty : ℚ) / (p.max_entries : ℚ)

/-- cache_partition::check_watermark (unified_cache.hpp).  The float
thresholds 0.90f / 0.70f are embedded as the rationals 9/10 and 7/10.
Returns (new partition, true when the cache is OK for more writes). -/
def check_watermark (p : cache_partition) : cache_partition × Bool :=
  if p.max_entries = 0 then (p, true)
  else
    let ratio := (p.num_dirty : ℚ) / (p.max_entries : ℚ)
    if p.exceeded = false ∧ ratio > 9 / 10 then ({ p with exceeded := true }, false)
    else if p.exceeded = true ∧ ratio < 7 / 10 then ({ p with exceeded := false }, true)
    else (p, !p.exceeded)

/-! Supporting lemmas about the association-list primitives. -/

theorem getLast?_mem {α : Type} : ∀ {l : List α} {a : α}, l.getLast? = some a → a ∈ l := by
  intro l
  induction l with
  | nil => intro a h; cases h
  | cons b rest ih =>
      intro a h
      cases rest with
      | nil =>
          simp only [List.getLast?_singleton] at h
          cases h
          exact List.mem_singleton_self _
      | cons c rest2 =>
          rw [List.getLast?_cons_cons] at h
          exact List.mem_cons_of_mem _ (ih h)

theorem find_entry_mem {es : List (torrent_location × cache_entry)} {l : torrent_location}
    {e : cache_entry} (h : find_entry es l = some e) : (l, e) ∈ es := by
  induction es with
  | nil => cases h
  | cons x rest ih =>
      by_cases hx : x.1 = l
      · rw [find_entry, if_pos hx] at h
        have he : x.2 = e := by injection h
        have hxe : (l, e) = x := by rw [← hx, ← he]
        rw [hxe]
        exact List.mem_cons_self _ _
      · rw [find_entry, if_neg hx] at h
        exact List.mem_cons_of_mem _ (ih h)

theorem find_entry_eq_none {es : List (torrent_location × cache_entry)} {l : torrent_location}
    (h : find_entry es l = none) : ∀ e, (l, e) ∉ es := by
  induction es with
  | nil => intro e hmem; cases hmem
  | cons x rest ih =>
      intro e hmem
      by_cases hx : x.1 = l
      · rw [find_entry, if_pos hx] at h
        cases h
      · rw [find_entry, if_neg hx] at h
        rcases List.mem_cons.mp hmem with h1 | h1
        · exact hx (by rw [← h1])
        · exact ih h e h1

theorem mem_find_entry {es : List (torrent_location × cache_entry)}
    (hnd : (es.map (fun x => x.1)).Nodup) {l : torrent_location} {e : cache_entry}
    (h : (l, e) ∈ es) : find_entry es l = some e := by
  induction es with
  | nil => cases h
  | cons x rest ih =>
      rw [List.map_cons, List.nodup_cons] at hnd
      rcases List.mem_cons.mp h with h1 | h1
      · rw [← h1]
        rw [find_entry, if_pos rfl]
      · have hmem : l ∈ rest.map (fun y => y.1) := List.mem_map.mpr ⟨(l, e), h1, rfl⟩
        have hne : ¬ x.1 = l := by
          intro hx
          apply hnd.1
          rw [hx]
          exact hmem
        rw [find_entry, if_neg hne]
        exact ih hnd.2 h1

theorem set_entry_keys (es : List (torrent_location × cache_entry)) (l : torrent_location)
    (e : cache_entry) : (set_entry es l e).map (fun x => x.1) = es.map (fun x => x.1) := by
  induction es with
  | nil => rfl
  | cons x rest ih =>
      by_cases hx : x.1 = l
      · rw [set_entry, if_pos hx, List.map_cons, List.map_cons, ih]
      · rw [set_entry, if_neg hx, List.map_cons, List.map_cons, ih]

theorem set_entry_length (es : List (torrent_location × cache_entry)) (l : torrent_location)
    (e : cache_entry) : (set_entry es l e).length = es.length := by
  induction es with
  | nil => rfl
  | cons x rest ih =>
      by_cases hx : x.1 = l
      · rw [set_entry, if_pos hx, List.length_cons, List.length_cons, ih]
      · rw [set_entry, if_neg hx, List.length_cons, List.length_cons, ih]

theorem find_entry_set_eq {es : List (torrent_location × cache_entry)} {l : torrent_location}
    {e0 : cache_entry} (e : cache_entry) (h : find_entry es l = some e0) :
    find_entry (set_entry es l e) l = some e := by
  induction es with
  | nil => cases h
  | cons x rest ih =>
      by_cases hx : x.1 = l
      · rw [set_entry, if_pos hx, find_entry, if_pos hx]
      · rw [find_entry, if_neg hx] at h
        rw [set_entry, if_neg hx, find_entry, if_neg hx]
        exact ih h

theorem find_entry_set_ne {es : List (torrent_location × cache_entry)} {l l' : torrent_location}
    (e : cache_entry) (h : ¬ l' = l) :
    find_entry (set_entry es l e) l' = find_entry es l' := by
  induction es with
  | nil => rfl
  | cons x rest ih =>
      by_cases hx : x.1 = l
      · have hx2 : ¬ x.1 = l' := by
          intro hc
          exact h (by rw [← hc, hx])
        rw [set_entry, if_pos hx, find_entry, if_neg hx2, find_entry, if_neg hx2]
        exact ih
      · rw [set_entry, if_neg hx, find_entry, find_entry]
        by_cases hx3 : x.1 = l'
        · rw [if_pos hx3, if_pos hx3]
        · rw [if_neg hx3, if_neg hx3]
          exact ih

theorem mem_set_entry {es : List (torrent_location × cache_entry)} {l : torrent_location}
    {e : cache_entry} {x : torrent_location × cache_entry} (h : x ∈ set_entry es l e) :
    (x.1 = l ∧ x.2 = e ∧ ∃ e0, (l, e0) ∈ es) ∨ (¬ x.1 = l ∧ x ∈ es) := by
  induction es with
  | nil => cases h
  | cons y rest ih =>
      by_cases hy : y.1 = l
      · rw [set_entry, if_pos hy] at h
        rcases List.mem_cons.mp h with h1 | h1
        · left
          refine ⟨by rw [h1, hy], by rw [h1], ⟨y.2, ?_⟩⟩
          rw [← hy]
          exact List.mem_cons_self _ _
        · rcases ih h1 with ⟨ha, hb, ⟨e0, hc⟩⟩ | ⟨ha, hb⟩
          · exact Or.inl ⟨ha, hb, ⟨e0, List.mem_cons_of_mem _ hc⟩⟩
          · exact Or.inr ⟨ha, List.mem_cons_of_mem _ hb⟩
      · rw [set_entry, if_neg hy] at h
        rcases List.mem_cons.mp h with h1 | h1
        · right
          rw [h1]
          exact ⟨hy, List.mem_cons_self _ _⟩
        · rcases ih h1 with ⟨ha, hb, ⟨e0, hc⟩⟩ | ⟨ha, hb⟩
          · exact Or.inl ⟨ha, hb, ⟨e0, List.mem_cons_of_mem _ hc⟩⟩
          · exact Or.inr ⟨ha, List.mem_cons_of_mem _ hb⟩

theorem mem_erase_entry {es : List (torrent_location × cache_entry)} {l : torrent_location}
    {x : torrent_location × cache_entry} :
    x ∈ erase_entry es l ↔ x ∈ es ∧ ¬ x.1 = l := by
  induction es with
  | nil => simp [erase_entry]
  | cons y rest ih =>
      by_cases hy : y.1 = l
      · rw [erase_entry, if_pos hy]
        rw [ih]
        constructor
        · rintro ⟨h1, h2⟩
          exact ⟨List.mem_cons_of_mem _ h1, h2⟩
        · rintro ⟨h1, h2⟩
          rcases List.mem_cons.mp h1 with h3 | h3
          · exact absurd (by rw [h3, hy]) h2
          · exact ⟨h3, h2⟩
      · rw [erase_entry, if_neg hy]
        constructor
        · intro h1
          rcases List.mem_cons.mp h1 with h3 | h3
          · exact ⟨by rw [h3]; exact List.mem_cons_self _ _, by rw [h3]; exact hy⟩
          · exact ⟨List.mem_cons_of_mem _ (ih.mp h3).1, (ih.mp h3).2⟩
        · rintro ⟨h1, h2⟩
          rcases List.mem_cons.mp h1 with h3 | h3
          · rw [h3]
            exact List.mem_cons_self _ _
          · exact List.mem_cons_of_mem _ (ih.mpr ⟨h3, h2⟩)

theorem erase_entry_keys (es : List (torrent_location × cache_entry)) (l : torrent_location) :
    (erase_entry es l).map (fun x => x.1)
      = (es.map (fun x => x.1)).filter (fun k => decide (¬ k = l)) := by
  induction es with
  | nil => rfl
  | cons x rest ih =>
      by_cases hx : x.1 = l
      · rw [erase_entry, if_pos hx, List.map_cons, List.filter_cons]
        have hd : (decide (¬ x.1 = l)) = false := by simp [hx]
        rw [hd]
        simpa using ih
      · rw [erase_entry, if_neg hx, List.map_cons, List.map_cons, List.filter_cons]
        have hd : (decide (¬ x.1 = l)) = true := by simp [hx]
        rw [hd]
        simpa using ih

theorem find_entry_erase_self (es : List (torrent_location × cache_entry))
    (l : torrent_location) : find_entry (erase_entry es l) l = none := by
  induction es with
  | nil => rfl
  | cons x rest ih =>
      by_cases hx : x.1 = l
      · rw [erase_entry, if_pos hx]
        exact ih
      · rw [erase_entry, if_neg hx, find_entry, if_neg hx]
        exact ih

theorem find_entry_erase_ne {es : List (torrent_location × cache_entry)}
    {l l' : torrent_location} (h : ¬ l' = l) :
    find_entry (erase_entry es l) l' = find_entry es l' := by
  induction es with
  | nil => rfl
  | cons x rest ih =>
      by_cases hx : x.1 = l
      · have hx2 : ¬ x.1 = l' := by
          intro hc
          exact h (by rw [← hc, hx])
        rw [erase_entry, if_pos hx, find_entry, if_neg hx2]
        exact ih
      · rw [erase_entry, if_neg hx, find_entry, find_entry]
        by_cases hx3 : x.1 = l'
        · rw [if_pos hx3, if_pos hx3]
        · rw [if_neg hx3, if_neg hx3]
          exact ih

theorem erase_entry_length_of_mem {es : List (torrent_location × cache_entry)}
    {l : torrent_location} {e : cache_entry}
    (hnd : (es.map (fun x => x.1)).Nodup) (h : find_entry es l = some e) :
    (erase_entry es l).length + 1 = es.length := by
  induction es with
  | nil => cases h
  | cons x rest ih =>
      rw [List.map_cons, List.nodup_cons] at hnd
      by_cases hx : x.1 = l
      · rw [erase_entry, if_pos hx]
        have hnone : erase_entry rest l = rest := by
          have hnm : ∀ y ∈ rest, ¬ y.1 = l := by
            intro y hy hc
            apply hnd.1
            rw [hx, ← hc]
            exact List.mem_map.mpr ⟨y, hy, rfl⟩
          clear ih h hnd
          induction rest with
          | nil => rfl
          | cons z rest2 ih2 =>
              rw [erase_entry, if_neg (hnm z (List.mem_cons_self _ _))]
              rw [ih2 (fun y hy => hnm y (List.mem_cons_of_mem _ hy))]
        rw [hnone, List.length_cons]
      · rw [find_entry, if_neg hx] at h
        rw [erase_entry, if_neg hx, List.length_cons, List.length_cons]
        rw [ih hnd.2 h]

theorem find_entry_cons_eq (es : List (torrent_location × cache_entry))
    (l : torrent_location) (e : cache_entry) : find_entry ((l, e) :: es) l = some e := by
  rw [find_entry, if_pos rfl]

theorem find_entry_cons_ne (es : List (torrent_location × cache_entry))
    {l l' : torrent_location} (e : cache_entry) (h : ¬ l' = l) :
    find_entry ((l, e) :: es) l' = find_entry es l' := by
  rw [find_entry, if_neg (fun hc => h (by rw [← hc]))]

/-! Coherence: the well-formedness invariant tying the entry map, the
three LRU lists and the dirty flags together. -/

/-- A partition is coherent when its keys are distinct, its LRU lists
are duplicate-free, every entry is linked into the list matching its
state field, every list member is backed by an entry of that state, and
every dirty entry lives in write_lru. -/
def coherent (p : cache_partition) : Prop :=
  (p.entries.map (fun x => x.1)).Nodup
  ∧ p.write_lru.Nodup ∧ p.read_lru1.Nodup ∧ p.read_lru2.Nodup
  ∧ (∀ x ∈ p.entries, x.1 ∈ lru_list p x.2.state)
  ∧ (∀ l ∈ p.write_lru, ∃ e, find_entry p.entries l = some e ∧ e.state = cache_state.write_lru)
  ∧ (∀ l ∈ p.read_lru1, ∃ e, find_entry p.entries l = some e ∧ e.state = cache_state.read_lru1)
  ∧ (∀ l ∈ p.read_lru2, ∃ e, find_entry p.entries l = some e ∧ e.state = cache_state.read_lru2)
  ∧ (∀ x ∈ p.entries, x.2.dirty = true → x.2.state = cache_state.write_lru)

theorem coherent_empty (max : Nat) : coherent (cache_partition.empty max) := by
  refine ⟨by simp [cache_partition.empty], by simp [cache_partition.empty],
    by simp [cache_partition.empty], by simp [cache_partition.empty],
    ?_, ?_, ?_, ?_, ?_⟩ <;> intro x hx <;> simp [cache_partition.empty] at hx

theorem lru_list_nodup {p : cache_partition} (h : coherent p) (s : cache_state) :
    (lru_list p s).Nodup := by
  cases s
  · exact h.2.1
  · exact h.2.2.1
  · exact h.2.2.2.1

theorem coherent_list_state {p : cache_partition} (h : coherent p) {l : torrent_location}
    {s : cache_state} (hm : l ∈ lru_list p s) :
    ∃ e, find_entry p.entries l = some e ∧ e.state = s := by
  cases s
  · exact h.2.2.2.2.2.1 l hm
  · exact h.2.2.2.2.2.2.1 l hm
  · exact h.2.2.2.2.2.2.2.1 l hm

theorem coherent_find_mem_list {p : cache_partition} (h : coherent p) {l : torrent_location}
    {e : cache_entry} (hf : find_entry p.entries l = some e) : l ∈ lru_list p e.state :=
  h.2.2.2.2.1 (l, e) (find_entry_mem hf)

theorem coherent_not_mem_of_ne_state {p : cache_partition} (h : coherent p)
    {l : torrent_location} {e : cache_entry} (hf : find_entry p.entries l = some e)
    {s : cache_state} (hs : ¬ s = e.state) : l ∉ lru_list p s := by
  intro hm
  rcases coherent_list_state h hm with ⟨e2, hf2, hst⟩
  rw [hf] at hf2
  injection hf2 with he
  exact hs (by rw [← hst, he])

theorem coherent_none_not_mem {p : cache_partition} (h : coherent p) {l : torrent_location}
    (hf : find_entry p.entries l = none) (s : cache_state) : l ∉ lru_list p s := by
  intro hm
  rcases coherent_list_state h hm with ⟨e2, hf2, _⟩
  rw [hf] at hf2
  cases hf2

theorem coherent_find_dirty {p : cache_partition} (h : coherent p) {l : torrent_location}
    {e : cache_entry} (hf : find_entry p.entries l = some e) (hd : e.dirty = true) :
    e.state = cache_state.write_lru :=
  h.2.2.2.2.2.2.2.2 (l, e) (find_entry_mem hf) hd

/-- Canonical coherence transfer for an operation that replaces the
entry at `l` by `e3` with a different state and relinks `l` from the
old state's list to the front of the new state's list. -/
theorem relink_coherent {p : cache_partition} {l : torrent_location} {e e3 : cache_entry}
    (h : coherent p) (hf : find_entry p.entries l = some e)
    (hne : ¬ e3.state = e.state) (hd : e3.dirty = true → e3.state = cache_state.write_lru)
    {q : cache_partition}
    (hkeys : q.entries.map (fun x => x.1) = p.entries.map (fun x => x.1))
    (hfq : find_entry q.entries l = some e3)
    (hfq2 : ∀ l', ¬ l' = l → find_entry q.entries l' = find_entry p.entries l')
    (hq_old : lru_list q e.state = (lru_list p e.state).erase l)
    (hq_new : lru_list q e3.state = l :: lru_list p e3.state)
    (hq_other : ∀ s, ¬ s = e.state → ¬ s = e3.state → lru_list q s = lru_list p s) :
    coherent q := by
  have hnodup : (q.entries.map (fun x => x.1)).Nodup := by rw [hkeys]; exact h.1
  have hnotmem_new : l ∉ lru_list p e3.state :=
    coherent_not_mem_of_ne_state h hf hne
  have hlist_nodup : ∀ s : cache_state, (lru_list q s).Nodup := by
    intro s
    by_cases hs1 : s = e.state
    · rw [hs1, hq_old]
      exact (lru_list_nodup h e.state).erase l
    · by_cases hs2 : s = e3.state
      · rw [hs2, hq_new]
        exact List.nodup_cons.mpr ⟨hnotmem_new, lru_list_nodup h e3.state⟩
      · rw [hq_other s hs1 hs2]
        exact lru_list_nodup h s
  have hmem_list : ∀ x ∈ q.entries, x.1 ∈ lru_list q x.2.state := by
    intro x hx
    have hfx : find_entry q.entries x.1 = some x.2 := mem_find_entry hnodup hx
    by_cases hxl : x.1 = l
    · rw [hxl] at hfx
      rw [hfq] at hfx
      injection hfx with he3
      rw [hxl, ← he3, hq_new]
      exact List.mem_cons_self _ _
    · rw [hfq2 x.1 hxl] at hfx
      have hold := coherent_find_mem_list h hfx
      by_cases hs1 : x.2.state = e.state
      · rw [hs1, hq_old]
        rw [hs1] at hold
        exact (List.mem_erase_of_ne hxl).mpr hold
      · by_cases hs2 : x.2.state = e3.state
        · rw [hs2, hq_new]
          rw [hs2] at hold
          exact List.mem_cons_of_mem _ hold
        · rw [hq_other _ hs1 hs2]
          exact hold
  have hback : ∀ s : cache_state, ∀ l2 ∈ lru_list q s,
      ∃ e2, find_entry q.entries l2 = some e2 ∧ e2.state = s := by
    intro s l2 hl2
    by_cases hl2l : l2 = l
    · rw [hl2l]
      refine ⟨e3, hfq, ?_⟩
      by_cases hs2 : s = e3.state
      · rw [hs2]
      · exfalso
        rw [hl2l] at hl2
        by_cases hs1 : s = e.state
        · rw [hs1, hq_old] at hl2
          exact (lru_list_nodup h e.state).not_mem_erase hl2
        · rw [hq_other s hs1 hs2] at hl2
          exact coherent_not_mem_of_ne_state h hf (fun hc => hs1 hc) hl2
    · have hl2p : l2 ∈ lru_list p s := by
        by_cases hs1 : s = e.state
        · rw [hs1, hq_old] at hl2
          rw [hs1]
          exact List.erase_subset _ _ hl2
        · by_cases hs2 : s = e3.state
          · rw [hs2, hq_new] at hl2
            rcases List.mem_cons.mp hl2 with hc | hc
            · exact absurd hc hl2l
            · rw [hs2]
              exact hc
          · rw [hq_other s hs1 hs2] at hl2
            exact hl2
      rcases coherent_list_state h hl2p with ⟨e2, hf2, hst2⟩
      exact ⟨e2, by rw [hfq2 l2 hl2l]; exact hf2, hst2⟩
  have hdirty : ∀ x ∈ q.entries, x.2.dirty = true → x.2.state = cache_state.write_lru := by
    intro x hx hxd
    have hfx : find_entry q.entries x.1 = some x.2 := mem_find_entry hnodup hx
    by_cases hxl : x.1 = l
    · rw [hxl, hfq] at hfx
      injection hfx with he3
      rw [← he3] at hxd ⊢
      exact hd hxd
    · rw [hfq2 x.1 hxl] at hfx
      exact h.2.2.2.2.2.2.2.2 (x.1, x.2) (find_entry_mem hfx) hxd
  exact ⟨hnodup, hlist_nodup cache_state.write_lru, hlist_nodup cache_state.read_lru1,
    hlist_nodup cache_state.read_lru2, hmem_list,
    hback cache_state.write_lru, hback cache_state.read_lru1, hback cache_state.read_lru2,
    hdirty⟩

/-- Canonical coherence transfer for an operation that replaces the
entry at `l` keeping its state and moves `l` to the front of its own
list. -/
theorem retouch_coherent {p : cache_partition} {l : torrent_location} {e e3 : cache_entry}
    (h : coherent p) (hf : find_entry p.entries l = some e)
    (hst : e3.state = e.state) (hd : e3.dirty = true → e3.state = cache_state.write_lru)
    {q : cache_partition}
    (hkeys : q.entries.map (fun x => x.1) = p.entries.map (fun x => x.1))
    (hfq : find_entry q.entries l = some e3)
    (hfq2 : ∀ l', ¬ l' = l → find_entry q.entries l' = find_entry p.entries l')
    (hq_same : lru_list q e.state = l :: (lru_list p e.state).erase l)
    (hq_other : ∀ s, ¬ s = e.state → lru_list q s = lru_list p s) :
    coherent q := by
  have hnodup : (q.entries.map (fun x => x.1)).Nodup := by rw [hkeys]; exact h.1
  have hlist_nodup : ∀ s : cache_state, (lru_list q s).Nodup := by
    intro s
    by_cases hs1 : s = e.state
    · rw [hs1, hq_same]
      exact List.nodup_cons.mpr ⟨(lru_list_nodup h e.state).not_mem_erase,
        (lru_list_nodup h e.state).erase l⟩
    · rw [hq_other s hs1]
      exact lru_list_nodup h s
  have hmem_iff : ∀ l2, l2 ∈ lru_list q e.state ↔ l2 ∈ lru_list p e.state := by
    intro l2
    rw [hq_same]
    by_cases hl2 : l2 = l
    · rw [hl2]
      simp only [List.mem_cons, true_or, true_iff]
      exact coherent_find_mem_list h hf
    · rw [List.mem_cons]
      constructor
      · rintro (hc | hc)
        · exact absurd hc hl2
        · exact List.erase_subset _ _ hc
      · intro hc
        exact Or.inr ((List.mem_erase_of_ne hl2).mpr hc)
  have hmem_list : ∀ x ∈ q.entries, x.1 ∈ lru_list q x.2.state := by
    intro x hx
    have hfx : find_entry q.entries x.1 = some x.2 := mem_find_entry hnodup hx
    by_cases hxl : x.1 = l
    · rw [hxl] at hfx
      rw [hfq] at hfx
      injection hfx with he3
      rw [hxl, ← he3, hst, hq_same]
      exact List.mem_cons_self _ _
    · rw [hfq2 x.1 hxl] at hfx
      have hold := coherent_find_mem_list h hfx
      by_cases hs1 : x.2.state = e.state
      · rw [hs1, hmem_iff, ← hs1]
        exact hold
      · rw [hq_other _ hs1]
        exact hold
  have hback : ∀ s : cache_state, ∀ l2 ∈ lru_list q s,
      ∃ e2, find_entry q.entries l2 = some e2 ∧ e2.state = s := by
    intro s l2 hl2
    by_cases hl2l : l2 = l
    · rw [hl2l]
      refine ⟨e3, hfq, ?_⟩
      by_cases hs1 : s = e.state
      · rw [hs1, hst]
      · exfalso
        rw [hq_other s hs1, hl2l] at hl2
        exact coherent_not_mem_of_ne_state h hf hs1 hl2
    · have hl2p : l2 ∈ lru_list p s := by
        by_cases hs1 : s = e.state
        · rw [hs1] at hl2 ⊢
          exact (hmem_iff l2).mp hl2
        · rw [hq_other s hs1] at hl2
          exact hl2
      rcases coherent_list_state h hl2p with ⟨e2, hf2, hst2⟩
      exact ⟨e2, by rw [hfq2 l2 hl2l]; exact hf2, hst2⟩
  have hdirty : ∀ x ∈ q.entries, x.2.dirty = true → x.2.state = cache_state.write_lru := by
    intro x hx hxd
    have hfx : find_entry q.entries x.1 = some x.2 := mem_find_entry hnodup hx
    by_cases hxl : x.1 = l
    · rw [hxl, hfq] at hfx
      injection hfx with he3
      rw [← he3] at hxd ⊢
      exact hd hxd
    · rw [hfq2 x.1 hxl] at hfx
      exact h.2.2.2.2.2.2.2.2 (x.1, x.2) (find_entry_mem hfx) hxd
  exact ⟨hnodup, hlist_nodup cache_state.write_lru, hlist_nodup cache_state.read_lru1,
    hlist_nodup cache_state.read_lru2, hmem_list,
    hback cache_state.write_lru, hback cache_state.read_lru1, hback cache_state.read_lru2,
    hdirty⟩

/-- Canonical coherence transfer for inserting a fresh entry at an
absent key, linked at the front of its state's list. -/
theorem extend_coherent {p : cache_partition} {l : torrent_location} {e3 : cache_entry}
    (h : coherent p) (hf : find_entry p.entries l = none)
    (hd : e3.dirty = true → e3.state = cache_state.write_lru)
    {q : cache_partition}
    (hq_entries : q.entries = (l, e3) :: p.entries)
    (hq_new : lru_list q e3.state = l :: lru_list p e3.state)
    (hq_other : ∀ s, ¬ s = e3.state → lru_list q s = lru_list p s) :
    coherent q := by
  have hnotkey : l ∉ p.entries.map (fun x => x.1) := by
    intro hc
    rcases List.mem_map.mp hc with ⟨y, hy, hyl⟩
    have : (l, y.2) ∈ p.entries := by
      have : y = (l, y.2) := by
        rw [← hyl]
      rw [← this]
      exact hy
    exact find_entry_eq_none hf y.2 this
  have hnodup : (q.entries.map (fun x => x.1)).Nodup := by
    rw [hq_entries, List.map_cons]
    exact List.nodup_cons.mpr ⟨hnotkey, h.1⟩
  have hfq : find_entry q.entries l = some e3 := by
    rw [hq_entries]
    exact find_entry_cons_eq _ _ _
  have hfq2 : ∀ l', ¬ l' = l → find_entry q.entries l' = find_entry p.entries l' := by
    intro l' hl'
    rw [hq_entries]
    exact find_entry_cons_ne _ _ hl'
  have hlist_nodup : ∀ s : cache_state, (lru_list q s).Nodup := by
    intro s
    by_cases hs1 : s = e3.state
    · rw [hs1, hq_new]
      refine List.nodup_cons.mpr ⟨?_, lru_list_nodup h e3.state⟩
      exact coherent_none_not_mem h hf e3.state
    · rw [hq_other s hs1]
      exact lru_list_nodup h s
  have hmem_list : ∀ x ∈ q.entries, x.1 ∈ lru_list q x.2.state := by
    intro x hx
    rw [hq_entries] at hx
    rcases List.mem_cons.mp hx with h1 | h1
    · rw [h1, hq_new]
      exact List.mem_cons_self _ _
    · have hold := h.2.2.2.2.1 x h1
      by_cases hs1 : x.2.state = e3.state
      · rw [hs1, hq_new]
        rw [hs1] at hold
        exact List.mem_cons_of_mem _ hold
      · rw [hq_other _ hs1]
        exact hold
  have hback : ∀ s : cache_state, ∀ l2 ∈ lru_list q s,
      ∃ e2, find_entry q.entries l2 = some e2 ∧ e2.state = s := by
    intro s l2 hl2
    by_cases hl2l : l2 = l
    · rw [hl2l]
      refine ⟨e3, hfq, ?_⟩
      by_cases hs1 : s = e3.state
      · rw [hs1]
      · exfalso
        rw [hq_other s hs1, hl2l] at hl2
        exact coherent_none_not_mem h hf s hl2
    · have hl2p : l2 ∈ lru_list p s := by
        by_cases hs1 : s = e3.state
        · rw [hs1, hq_new] at hl2
          rcases List.mem_cons.mp hl2 with hc | hc
          · exact absurd hc hl2l
          · rw [hs1]
            exact hc
        · rw [hq_other s hs1] at hl2
          exact hl2
      rcases coherent_list_state h hl2p with ⟨e2, hf2, hst2⟩
      exact ⟨e2, by rw [hfq2 l2 hl2l]; exact hf2, hst2⟩
  have hdirty : ∀ x ∈ q.entries, x.2.dirty = true → x.2.state = cache_state.write_lru := by
    intro x hx hxd
    rw [hq_entries] at hx
    rcases List.mem_cons.mp hx with h1 | h1
    · rw [h1] at hxd ⊢
      exact hd hxd
    · exact h.2.2.2.2.2.2.2.2 x h1 hxd
  exact ⟨hnodup, hlist_nodup cache_state.write_lru, hlist_nodup cache_state.read_lru1,
    hlist_nodup cache_state.read_lru2, hmem_list,
    hback cache_state.write_lru, hback cache_state.read_lru1, hback cache_state.read_lru2,
    hdirty⟩

/-! Effect characterisations of the small state transformers. -/

theorem set_entry_set_entry (es : List (torrent_location × cache_entry))
    (l : torrent_location) (a b : cache_entry) :
    set_entry (set_entry es l a) l b = set_entry es l b := by
  induction es with
  | nil => rfl
  | cons x rest ih =>
      by_cases hx : x.1 = l
      · rw [set_entry, if_pos hx, set_entry, if_pos hx, set_entry, if_pos hx, ih]
      · rw [set_entry, if_neg hx, set_entry, if_neg hx, set_entry, if_neg hx, ih]

theorem lru_list_set_self (p : cache_partition) (s : cache_state)
    (lst : List torrent_location) : lru_list (set_lru_list p s lst) s = lst := by
  cases s <;> rfl

theorem lru_list_set_ne (p : cache_partition) {s s' : cache_state} (h : ¬ s' = s)
    (lst : List torrent_location) : lru_list (set_lru_list p s lst) s' = lru_list p s' := by
  cases s <;> cases s' <;> first | rfl | exact absurd rfl h

theorem set_lru_list_fields (p : cache_partition) (s : cache_state)
    (lst : List torrent_location) :
    (set_lru_list p s lst).entries = p.entries
    ∧ (set_lru_list p s lst).num_dirty = p.num_dirty
    ∧ (set_lru_list p s lst).num_clean = p.num_clean
    ∧ (set_lru_list p s lst).max_entries = p.max_entries := by
  cases s <;> exact ⟨rfl, rfl, rfl, rfl⟩

theorem touch_front_spec (p : cache_partition) (l : torrent_location) (s : cache_state) :
    (touch_front p l s).entries = p.entries
    ∧ lru_list (touch_front p l s) s = l :: (lru_list p s).erase l
    ∧ (∀ s', ¬ s' = s → lru_list (touch_front p l s) s' = lru_list p s')
    ∧ (touch_front p l s).num_dirty = p.num_dirty
    ∧ (touch_front p l s).num_clean = p.num_clean
    ∧ (touch_front p l s).max_entries = p.max_entries := by
  refine ⟨(set_lru_list_fields _ _ _).1, lru_list_set_self _ _ _,
    fun s' h => lru_list_set_ne _ h _,
    (set_lru_list_fields _ _ _).2.1, (set_lru_list_fields _ _ _).2.2.1,
    (set_lru_list_fields _ _ _).2.2.2⟩

theorem move_to_list_spec (p : cache_partition) (l : torrent_location) (e : cache_entry)
    {ns : cache_state} (h : ¬ ns = e.state) :
    (move_to_list p l e ns).entries = set_entry p.entries l { e with state := ns }
    ∧ lru_list (move_to_list p l e ns) e.state = (lru_list p e.state).erase l
    ∧ lru_list (move_to_list p l e ns) ns = l :: lru_list p ns
    ∧ (∀ s, ¬ s = e.state → ¬ s = ns → lru_list (move_to_list p l e ns) s = lru_list p s)
    ∧ (move_to_list p l e ns).num_dirty = p.num_dirty
    ∧ (move_to_list p l e ns).num_clean = p.num_clean
    ∧ (move_to_list p l e ns).max_entries = p.max_entries := by
  obtain ⟨d0, ln0, dt0, st0⟩ := e
  cases st0 <;> cases ns <;>
    first
      | exact absurd rfl h
      | exact ⟨rfl, rfl, rfl,
          (by intro s h1 h2; cases s <;> first | rfl | exact absurd rfl h1 | exact absurd rfl h2),
          rfl, rfl, rfl⟩

theorem dropLast_eq_erase_getLast {α : Type} [DecidableEq α] {lst : List α} {a : α}
    (hnd : lst.Nodup) (hl : lst.getLast? = some a) : lst.dropLast = lst.erase a := by
  have hne : lst ≠ [] := by
    intro hc
    rw [hc] at hl
    cases hl
  have hsplit := List.dropLast_append_getLast hne
  have ha : lst.getLast hne = a := by
    rw [List.getLast?_eq_getLast _ hne] at hl
    injection hl
  have hnotmem : a ∉ lst.dropLast := by
    intro hc
    have h2 : ¬ lst.Nodup := by
      rw [← hsplit, ha]
      intro h3
      rcases List.nodup_append.mp h3 with ⟨_, _, hdisj⟩
      exact hdisj hc (List.mem_singleton_self a)
    exact h2 hnd
  calc lst.dropLast = (lst.dropLast ++ [a]).erase a := by
        rw [List.erase_append_right _ hnotmem]
        simp
    _ = lst.erase a := by rw [← ha, hsplit]

/-- Canonical coherence transfer for removing an entry and unlinking it
from its list. -/
theorem remove_coherent {p : cache_partition} {l : torrent_location} {e : cache_entry}
    (h : coherent p) (hf : find_entry p.entries l = some e)
    {q : cache_partition}
    (hq_entries : q.entries = erase_entry p.entries l)
    (hq_old : lru_list q e.state = (lru_list p e.state).erase l)
    (hq_other : ∀ s, ¬ s = e.state → lru_list q s = lru_list p s) :
    coherent q := by
  have hkeys : q.entries.map (fun x => x.1)
      = (p.entries.map (fun x => x.1)).filter (fun k => decide (¬ k = l)) := by
    rw [hq_entries]
    exact erase_entry_keys _ _
  have hnodup : (q.entries.map (fun x => x.1)).Nodup := by
    rw [hkeys]
    exact List.Nodup.sublist (List.filter_sublist _) h.1
  have hfq_self : find_entry q.entries l = none := by
    rw [hq_entries]
    exact find_entry_erase_self _ _
  have hfq2 : ∀ l', ¬ l' = l → find_entry q.entries l' = find_entry p.entries l' := by
    intro l' hl'
    rw [hq_entries]
    exact find_entry_erase_ne hl'
  have hlist_nodup : ∀ s : cache_state, (lru_list q s).Nodup := by
    intro s
    by_cases hs1 : s = e.state
    · rw [hs1, hq_old]
      exact (lru_list_nodup h e.state).erase l
    · rw [hq_other s hs1]
      exact lru_list_nodup h s
  have hmem_list : ∀ x ∈ q.entries, x.1 ∈ lru_list q x.2.state := by
    intro x hx
    rw [hq_entries] at hx
    rcases mem_erase_entry.mp hx with ⟨hxp, hxl⟩
    have hold := h.2.2.2.2.1 x hxp
    by_cases hs1 : x.2.state = e.state
    · rw [hs1, hq_old]
      rw [hs1] at hold
      exact (List.mem_erase_of_ne hxl).mpr hold
    · rw [hq_other _ hs1]
      exact hold
  have hback : ∀ s : cache_state, ∀ l2 ∈ lru_list q s,
      ∃ e2, find_entry q.entries l2 = some e2 ∧ e2.state = s := by
    intro s l2 hl2
    have hl2l : ¬ l2 = l := by
      intro hc
      by_cases hs1 : s = e.state
      · rw [hs1, hq_old, hc] at hl2
        exact (lru_list_nodup h e.state).not_mem_erase hl2
      · rw [hq_other s hs1, hc] at hl2
        exact coherent_not_mem_of_ne_state h hf hs1 hl2
    have hl2p : l2 ∈ lru_list p s := by
      by_cases hs1 : s = e.state
      · rw [hs1, hq_old] at hl2
        rw [hs1]
        exact List.erase_subset _ _ hl2
      · rw [hq_other s hs1] at hl2
        exact hl2
    rcases coherent_list_state h hl2p with ⟨e2, hf2, hst2⟩
    exact ⟨e2, by rw [hfq2 l2 hl2l]; exact hf2, hst2⟩
  have hdirty : ∀ x ∈ q.entries, x.2.dirty = true → x.2.state = cache_state.write_lru := by
    intro x hx hxd
    rw [hq_entries] at hx
    exact h.2.2.2.2.2.2.2.2 x (mem_erase_entry.mp hx).1 hxd
  exact ⟨hnodup, hlist_nodup cache_state.write_lru, hlist_nodup cache_state.read_lru1,
    hlist_nodup cache_state.read_lru2, hmem_list,
    hback cache_state.write_lru, hback cache_state.read_lru1, hback cache_state.read_lru2,
    hdirty⟩

/-- Global bookkeeping invariant, maintained by every partition
operation: coherence, counter sum equal to the entry count, and
m_num_dirty dominating the write_lru length. -/
def wf (p : cache_partition) : Prop :=
  coherent p ∧ p.num_dirty + p.num_clean = (p.entries.length : Int)
    ∧ ((p.write_lru.length : Int)) ≤ p.num_dirty

/-- The state field mirrors the dirty flag exactly (broken by
collect_dirty_blocks_for_storage, which clears flags in place). -/
def state_dirty (p : cache_partition) : Prop :=
  ∀ x ∈ p.entries, (x.2.state = cache_state.write_lru ↔ x.2.dirty = true)

/-- The exact counter invariant, maintained while no collect operation
has run: the counters equal the list lengths and the state field
mirrors the dirty flag. -/
def wfx (p : cache_partition) : Prop :=
  wf p ∧ p.num_dirty = (p.write_lru.length : Int)
    ∧ p.num_clean = (p.read_lru1.length : Int) + (p.read_lru2.length : Int)
    ∧ state_dirty p

theorem evict_one_lru_spec {p : cache_partition} (h : coherent p) {l : torrent_location}
    {p' : cache_partition} (he : evict_one_lru p = some (l, p')) :
    (∃ e, find_entry p.entries l = some e ∧ e.dirty = false)
    ∧ coherent p'
    ∧ p'.entries.length + 1 = p.entries.length
    ∧ p'.num_dirty = p.num_dirty
    ∧ p'.num_clean = p.num_clean - 1
    ∧ p'.write_lru = p.write_lru
    ∧ p'.max_entries = p.max_entries
    ∧ p'.read_lru1.length + p'.read_lru2.length + 1
        = p.read_lru1.length + p.read_lru2.length
    ∧ (∀ x ∈ p'.entries, x ∈ p.entries) := by
  unfold evict_one_lru at he
  rcases h1 : p.read_lru1.getLast? with _ | l1
  · rcases h2 : p.read_lru2.getLast? with _ | l2
    · simp only [h1, h2] at he
      cases he
    · have hm2 : l2 ∈ p.read_lru2 := getLast?_mem h2
      rcases coherent_list_state h (show l2 ∈ lru_list p cache_state.read_lru2 from hm2)
        with ⟨e, hf, hst⟩
      simp only [h1, h2, hf, Option.some.injEq, Prod.mk.injEq] at he
      obtain ⟨hel, hep⟩ := he
      rw [hel] at hf hm2 hep
      have hdirty : e.dirty = false := by
        cases hd : e.dirty
        · rfl
        · have := coherent_find_dirty h hf hd
          rw [hst] at this
          cases this
      have hdrop : p.read_lru2.dropLast = p.read_lru2.erase l := by
        rw [hel] at h2
        exact dropLast_eq_erase_getLast h.2.2.2.1 h2
      have hcoh : coherent p' := by
        refine remove_coherent h hf (by rw [← hep]) ?_ ?_
        · rw [hst, ← hep]
          show p.read_lru2.dropLast = p.read_lru2.erase l
          exact hdrop
        · intro s hs
          rw [hst] at hs
          rw [← hep]
          cases s <;> first | rfl | exact absurd rfl hs
      have hlen : p'.entries.length + 1 = p.entries.length := by
        rw [← hep]
        exact erase_entry_length_of_mem h.1 hf
      have hr2len : p.read_lru2.length ≥ 1 := by
        cases h3 : p.read_lru2 with
        | nil => rw [h3] at hm2; cases hm2
        | cons a rest => simp
      refine ⟨⟨e, hf, hdirty⟩, hcoh, hlen, by rw [← hep], by rw [← hep], by rw [← hep],
        by rw [← hep], ?_, ?_⟩
      · rw [← hep]
        show p.read_lru1.length + p.read_lru2.dropLast.length + 1
            = p.read_lru1.length + p.read_lru2.length
        rw [List.length_dropLast]
        omega
      · intro x hx
        rw [← hep] at hx
        exact (mem_erase_entry.mp hx).1
  · have hm1 : l1 ∈ p.read_lru1 := getLast?_mem h1
    rcases coherent_list_state h (show l1 ∈ lru_list p cache_state.read_lru1 from hm1)
      with ⟨e, hf, hst⟩
    simp only [h1, hf, Option.some.injEq, Prod.mk.injEq] at he
    obtain ⟨hel, hep⟩ := he
    rw [hel] at hf hm1 hep
    have hdirty : e.dirty = false := by
      cases hd : e.dirty
      · rfl
      · have := coherent_find_dirty h hf hd
        rw [hst] at this
        cases this
    have hdrop : p.read_lru1.dropLast = p.read_lru1.erase l := by
      rw [hel] at h1
      exact dropLast_eq_erase_getLast h.2.2.1 h1
    have hcoh : coherent p' := by
      refine remove_coherent h hf (by rw [← hep]) ?_ ?_
      · rw [hst, ← hep]
        show p.read_lru1.dropLast = p.read_lru1.erase l
        exact hdrop
      · intro s hs
        rw [hst] at hs
        rw [← hep]
        cases s <;> first | rfl | exact absurd rfl hs
    have hlen : p'.entries.length + 1 = p.entries.length := by
      rw [← hep]
      exact erase_entry_length_of_mem h.1 hf
    have hr1len : p.read_lru1.length ≥ 1 := by
      cases h3 : p.read_lru1 with
      | nil => rw [h3] at hm1; cases hm1
      | cons a rest => simp
    refine ⟨⟨e, hf, hdirty⟩, hcoh, hlen, by rw [← hep], by rw [← hep], by rw [← hep],
      by rw [← hep], ?_, ?_⟩
    · rw [← hep]
      show p.read_lru1.dropLast.length + p.read_lru2.length + 1
          = p.read_lru1.length + p.read_lru2.length
      rw [List.length_dropLast]
      omega
    · intro x hx
      rw [← hep] at hx
      exact (mem_erase_entry.mp hx).1

theorem evict_until_room_spec : ∀ (fuel : Nat) (p : cache_partition), coherent p →
    coherent (evict_until_room p fuel)
    ∧ (evict_until_room p fuel).num_dirty = p.num_dirty
    ∧ (evict_until_room p fuel).write_lru = p.write_lru
    ∧ (evict_until_room p fuel).max_entries = p.max_entries
    ∧ (evict_until_room p fuel).num_dirty + (evict_until_room p fuel).num_clean
        - ((evict_until_room p fuel).entries.length : Int)
        = p.num_dirty + p.num_clean - (p.entries.length : Int)
    ∧ (evict_until_room p fuel).num_clean
        - ((evict_until_room p fuel).read_lru1.length : Int)
        - ((evict_until_room p fuel).read_lru2.length : Int)
      = p.num_clean - (p.read_lru1.length : Int) - (p.read_lru2.length : Int)
    ∧ (∀ x ∈ (evict_until_room p fuel).entries, x ∈ p.entries) := by
  intro fuel
  induction fuel with
  | zero =>
      intro p hp
      exact ⟨hp, rfl, rfl, rfl, rfl, rfl, fun x hx => hx⟩
  | succ n ih =>
      intro p hp
      rw [evict_until_room]
      by_cases hc : p.entries.length ≥ p.max_entries
      · rw [if_pos hc]
        rcases he : evict_one_lru p with _ | r
        · exact ⟨hp, rfl, rfl, rfl, rfl, rfl, fun x hx => hx⟩
        · obtain ⟨l2, p2⟩ := r
          obtain ⟨_, hcoh2, hlen2, hnd2, hnc2, hw2, hmax2, hr2, hsub2⟩ :=
            evict_one_lru_spec hp he
          obtain ⟨ha, hb, hcna, hd2, he2, hf2, hg2⟩ := ih p2 hcoh2
          refine ⟨ha, by rw [hb, hnd2], by rw [hcna, hw2], by rw [hd2, hmax2], ?_, ?_,
            fun x hx => hsub2 x (hg2 x hx)⟩
          · rw [he2, hnd2, hnc2]
            have : (p2.entries.length : Int) = (p.entries.length : Int) - 1 := by
              omega
            rw [this]
            ring
          · rw [hf2, hnc2]
            have : (p2.read_lru1.length : Int) + (p2.read_lru2.length : Int)
                = (p.read_lru1.length : Int) + (p.read_lru2.length : Int) - 1 := by
              omega
            omega
      · rw [if_neg hc]
        exact ⟨hp, rfl, rfl, rfl, rfl, rfl, fun x hx => hx⟩

theorem state_dirty_find {p : cache_partition} (hsd : state_dirty p) {l : torrent_location}
    {e : cache_entry} (hf : find_entry p.entries l = some e) :
    e.state = cache_state.write_lru ↔ e.dirty = true :=
  hsd (l, e) (find_entry_mem hf)

/-- One get-style step (lookup with multi-LRU promotion) preserves the
bookkeeping invariants. -/
theorem get_pres {p : cache_partition} (hw : wf p) (l : torrent_location) :
    wf (cache_partition.get p l).2 ∧ (wfx p → wfx (cache_partition.get p l).2) := by
  obtain ⟨hcoh, hsum, hle⟩ := hw
  unfold cache_partition.get
  rcases hf : find_entry p.entries l with _ | e
  · exact ⟨⟨hcoh, hsum, hle⟩, fun hx => hx⟩
  · simp only []
    by_cases hs : e.state = cache_state.read_lru1
    · have hb : (e.state == cache_state.read_lru1) = true := by simp [hs]
      rw [hb]
      simp only [if_true]
      have hne : ¬ cache_state.read_lru2 = e.state := by
        rw [hs]
        intro hc
        cases hc
      obtain ⟨hqe, hqold, hqnew, hqoth, hqnd, hqnc, hqmax⟩ :=
        move_to_list_spec p l e hne
      have hdirty_false : e.dirty = false := by
        cases hd : e.dirty
        · rfl
        · have h2 := coherent_find_dirty hcoh hf hd
          rw [hs] at h2
          cases h2
      have hcoh2 : coherent (move_to_list p l e cache_state.read_lru2) := by
        refine @relink_coherent p l e { e with state := cache_state.read_lru2 } hcoh hf hne
          (fun hc => absurd (show e.dirty = true from hc)
            (by rw [hdirty_false]; exact Bool.false_ne_true))
          (move_to_list p l e cache_state.read_lru2) ?_ ?_ ?_ hqold hqnew ?_
        · rw [hqe]
          exact set_entry_keys _ _ _
        · rw [hqe]
          exact find_entry_set_eq _ hf
        · intro l2 hl2
          rw [hqe]
          exact find_entry_set_ne _ hl2
        · exact hqoth
      have hwlen : (move_to_list p l e cache_state.read_lru2).write_lru = p.write_lru := by
        have h1 : ¬ cache_state.write_lru = e.state := by
          rw [hs]
          intro hc
          cases hc
        have h2 : ¬ cache_state.write_lru = cache_state.read_lru2 := by
          intro hc
          cases hc
        exact hqoth cache_state.write_lru h1 h2
      have helen : (move_to_list p l e cache_state.read_lru2).entries.length
          = p.entries.length := by
        rw [hqe]
        exact set_entry_length _ _ _
      refine ⟨⟨hcoh2, ?_, ?_⟩, ?_⟩
      · rw [hqnd, hqnc, helen]
        exact hsum
      · rw [hqnd, hwlen]
        exact hle
      · rintro ⟨_, hexd, hexc, hsd⟩
        have hmem1 : l ∈ p.read_lru1 := by
          have h2 := coherent_find_mem_list hcoh hf
          rw [hs] at h2
          exact h2
        have hr1 : (move_to_list p l e cache_state.read_lru2).read_lru1
            = p.read_lru1.erase l := by
          have h2 := hqold
          rw [hs] at h2
          exact h2
        have hr2 : (move_to_list p l e cache_state.read_lru2).read_lru2
            = l :: p.read_lru2 := hqnew
        have hr1len : p.read_lru1.length ≥ 1 := by
          cases h3 : p.read_lru1 with
          | nil => rw [h3] at hmem1; cases hmem1
          | cons a rest => simp
        have hr1len2 : (p.read_lru1.erase l).length = p.read_lru1.length - 1 :=
          List.length_erase_of_mem hmem1
        refine ⟨⟨hcoh2, by rw [hqnd, hqnc, helen]; exact hsum, by rw [hqnd, hwlen]; exact hle⟩,
          by rw [hqnd, hwlen]; exact hexd, ?_, ?_⟩
        · rw [hqnc, hr1, hr2, hexc, hr1len2]
          simp only [List.length_cons]
          have : p.read_lru1.length - 1 + 1 = p.read_lru1.length := by omega
          push_cast [hr1len]
          ring
        · intro x hx
          rw [hqe] at hx
          rcases mem_set_entry hx with ⟨hx1, hx2, _⟩ | ⟨hx1, hx2⟩
          · rw [hx2]
            constructor
            · intro hc
              cases hc
            · intro hc
              rw [show ({ e with state := cache_state.read_lru2 } : cache_entry).dirty
                  = e.dirty from rfl, hdirty_false] at hc
              cases hc
          · exact hsd x hx2
    · have hb : (e.state == cache_state.read_lru1) = false := by simp [hs]
      rw [hb]
      simp only [if_false, Bool.false_eq_true]
      obtain ⟨hqe, hqsame, hqoth, hqnd, hqnc, hqmax⟩ := touch_front_spec p l e.state
      have hmem : l ∈ lru_list p e.state := coherent_find_mem_list hcoh hf
      have hcoh2 : coherent (touch_front p l e.state) := by
        refine retouch_coherent hcoh hf rfl (coherent_find_dirty hcoh hf) ?_ ?_ ?_ hqsame hqoth
        · rw [hqe]
        · rw [hqe]
          exact hf
        · intro l2 _
          rw [hqe]
      have hlen_touch : ∀ s, (lru_list (touch_front p l e.state) s).length
          = (lru_list p s).length := by
        intro s
        by_cases hs1 : s = e.state
        · rw [hs1, hqsame]
          simp only [List.length_cons]
          rw [List.length_erase_of_mem hmem]
          have h4 : (lru_list p e.state).length ≥ 1 := by
            cases h3 : lru_list p e.state with
            | nil => rw [h3] at hmem; cases hmem
            | cons a rest => simp
          omega
        · rw [hqoth s hs1]
      have hwlen : (touch_front p l e.state).write_lru.length = p.write_lru.length :=
        hlen_touch cache_state.write_lru
      have helen : (touch_front p l e.state).entries.length = p.entries.length := by
        rw [hqe]
      refine ⟨⟨hcoh2, by rw [hqnd, hqnc, helen]; exact hsum, by rw [hqnd, hwlen]; exact hle⟩, ?_⟩
      rintro ⟨_, hexd, hexc, hsd⟩
      have hr1f : (touch_front p l e.state).read_lru1.length = p.read_lru1.length :=
        hlen_touch cache_state.read_lru1
      have hr2f : (touch_front p l e.state).read_lru2.length = p.read_lru2.length :=
        hlen_touch cache_state.read_lru2
      refine ⟨⟨hcoh2, by rw [hqnd, hqnc, helen]; exact hsum, by rw [hqnd, hwlen]; exact hle⟩,
        by rw [hqnd, hwlen]; exact hexd,
        by rw [hqnc, hr1f, hr2f]; exact hexc, ?_⟩
      intro x hx
      rw [hqe] at hx
      exact hsd x hx

theorem get_snd_match (q : cache_partition) (l2 : torrent_location) :
    (cache_partition.get q l2).2
      = (match find_entry q.entries l2 with
          | some e =>
              if e.state == cache_state.read_lru1 then move_to_list q l2 e cache_state.read_lru2
              else touch_front q l2 e.state
          | none => q) := by
  unfold cache_partition.get
  rcases h2 : find_entry q.entries l2 with _ | e2
  · simp [h2]
  · simp only [h2]
    split <;> rfl

theorem get2_snd_eq (p : cache_partition) (l1 l2 : torrent_location) :
    (cache_partition.get2 p l1 l2).2.2
      = (cache_partition.get (cache_partition.get p l1).2 l2).2 := by
  unfold cache_partition.get2
  rw [get_snd_match, get_snd_match]

theorem get2_pres {p : cache_partition} (hw : wf p) (l1 l2 : torrent_location) :
    wf (cache_partition.get2 p l1 l2).2.2
    ∧ (wfx p → wfx (cache_partition.get2 p l1 l2).2.2) := by
  rw [get2_snd_eq]
  have h1 := get_pres hw l1
  have h2 := get_pres h1.1 l2
  exact ⟨h2.1, fun hx => h2.2 (h1.2 hx)⟩

theorem mark_clean_pres {p : cache_partition} (hw : wf p) (l : torrent_location) :
    wf (cache_partition.mark_clean p l) ∧ (wfx p → wfx (cache_partition.mark_clean p l)) := by
  obtain ⟨hcoh, hsum, hle⟩ := hw
  unfold cache_partition.mark_clean
  rcases hf : find_entry p.entries l with _ | e
  · exact ⟨⟨hcoh, hsum, hle⟩, fun hx => hx⟩
  · simp only []
    rcases hed : e.dirty with _ | _
    · simp only [Bool.false_eq_true, if_false]
      exact ⟨⟨hcoh, hsum, hle⟩, fun hx => hx⟩
    · simp only [if_true]
      have hsw : e.state = cache_state.write_lru := coherent_find_dirty hcoh hf hed
      have hb : (e.state == cache_state.write_lru) = true := by simp [hsw]
      rw [hb]
      simp only [if_true]
      have hmemw : l ∈ p.write_lru := by
        have h2 := coherent_find_mem_list hcoh hf
        rw [hsw] at h2
        exact h2
      have hwlen1 : p.write_lru.length ≥ 1 := by
        cases h3 : p.write_lru with
        | nil => rw [h3] at hmemw; cases hmemw
        | cons a rest => simp
      have hp1lru : ∀ s, lru_list { p with entries := (set_entry p.entries l ({ e with dirty := false })) } s = lru_list p s := by
        intro s
        cases s <;> rfl
      have hne2 : ¬ cache_state.read_lru2 = ({ e with dirty := false } : cache_entry).state := by
        show ¬ cache_state.read_lru2 = e.state
        rw [hsw]
        intro hc
        cases hc
      obtain ⟨hqe, hqold, hqnew, hqoth, hqnd, hqnc, hqmax⟩ :=
        move_to_list_spec { p with entries := set_entry p.entries l ({ e with dirty := false }) }
          l { e with dirty := false } hne2
      have hqe2 : (move_to_list
            { p with entries := set_entry p.entries l ({ e with dirty := false }) }
            l { e with dirty := false } cache_state.read_lru2).entries
          = set_entry p.entries l { e with dirty := false, state := cache_state.read_lru2 } := by
        rw [hqe]
        show set_entry (set_entry p.entries l { e with dirty := false }) l
            { e with dirty := false, state := cache_state.read_lru2 }
          = set_entry p.entries l { e with dirty := false, state := cache_state.read_lru2 }
        exact set_entry_set_entry _ _ _ _
      have hcoh2 : coherent (move_to_list
          { p with entries := set_entry p.entries l ({ e with dirty := false }) }
          l { e with dirty := false } cache_state.read_lru2) := by
        refine @relink_coherent p l e
          { e with dirty := false, state := cache_state.read_lru2 } hcoh hf
          (by show ¬ cache_state.read_lru2 = e.state; rw [hsw]; intro hc; cases hc)
          (fun hc => absurd (show false = true from hc) Bool.false_ne_true)
          _ ?_ ?_ ?_ ?_ ?_ ?_
        · rw [hqe2]
          exact set_entry_keys _ _ _
        · rw [hqe2]
          exact find_entry_set_eq _ hf
        · intro l3 hl3
          rw [hqe2]
          exact find_entry_set_ne _ hl3
        · show lru_list _ e.state = (lru_list p e.state).erase l
          have h4 := hqold
          rw [hp1lru] at h4
          exact h4
        · show lru_list _ cache_state.read_lru2 = l :: lru_list p cache_state.read_lru2
          rw [hqnew, hp1lru]
        · intro s hs1 hs2
          have h4 := hqoth s hs1 hs2
          rw [hp1lru] at h4
          exact h4
      have hwq : (move_to_list
          { p with entries := set_entry p.entries l ({ e with dirty := false }) }
          l { e with dirty := false } cache_state.read_lru2).write_lru
          = p.write_lru.erase l := by
        have h4 := hqold
        rw [hp1lru] at h4
        show lru_list _ cache_state.write_lru = _
        rw [← hsw]
        rw [h4, hsw]
        rfl
      have hr1q : (move_to_list
          { p with entries := set_entry p.entries l ({ e with dirty := false }) }
          l { e with dirty := false } cache_state.read_lru2).read_lru1 = p.read_lru1 := by
        have h4 := hqoth cache_state.read_lru1
          (by show ¬ _ = e.state; rw [hsw]; intro hc; cases hc)
          (by intro hc; cases hc)
        rw [hp1lru] at h4
        exact h4
      have hr2q : (move_to_list
          { p with entries := set_entry p.entries l ({ e with dirty := false }) }
          l { e with dirty := false } cache_state.read_lru2).read_lru2
          = l :: p.read_lru2 := by
        have h4 := hqnew
        rw [hp1lru] at h4
        exact h4
      have hlenq : (move_to_list
          { p with entries := set_entry p.entries l ({ e with dirty := false }) }
          l { e with dirty := false } cache_state.read_lru2).entries.length
          = p.entries.length := by
        rw [hqe2]
        exact set_entry_length _ _ _
      have hndq : (move_to_list
          { p with entries := set_entry p.entries l ({ e with dirty := false }) }
          l { e with dirty := false } cache_state.read_lru2).num_dirty = p.num_dirty := hqnd
      have hncq : (move_to_list
          { p with entries := set_entry p.entries l ({ e with dirty := false }) }
          l { e with dirty := false } cache_state.read_lru2).num_clean = p.num_clean := hqnc
      have hwerase : (p.write_lru.erase l).length = p.write_lru.length - 1 :=
        List.length_erase_of_mem hmemw
      refine ⟨⟨hcoh2, ?_, ?_⟩, ?_⟩
      · show (_ : Int) - 1 + (_ + 1) = _
        rw [hndq, hncq, hlenq]
        have := hsum
        ring_nf
        ring_nf at this
        omega
      · show ((_ : cache_partition).write_lru.length : Int) ≤ _ - 1
        rw [hwq, hndq, hwerase]
        have h5 : ((p.write_lru.length - 1 : Nat) : Int) = (p.write_lru.length : Int) - 1 := by
          omega
        rw [h5]
        omega
      · rintro ⟨_, hexd, hexc, hsd⟩
        refine ⟨⟨hcoh2, ?_, ?_⟩, ?_, ?_, ?_⟩
        · show (_ : Int) - 1 + (_ + 1) = _
          rw [hndq, hncq, hlenq]
          omega
        · show ((_ : cache_partition).write_lru.length : Int) ≤ _ - 1
          rw [hwq, hndq, hwerase]
          omega
        · show (_ : Int) - 1 = _
          rw [hndq, hwq, hwerase, hexd]
          omega
        · show (_ : Int) + 1 = _
          rw [hncq, hr1q, hr2q, hexc]
          simp only [List.length_cons]
          push_cast
          ring
        · intro x hx
          rw [hqe2] at hx
          rcases mem_set_entry hx with ⟨hx1, hx2, _⟩ | ⟨hx1, hx2⟩
          · rw [hx2]
            constructor
            · intro hc
              cases hc
            · intro hc
              cases hc
          · exact hsd x hx2

theorem collect_keys (es : List (torrent_location × cache_entry)) (storage : Nat) :
    (es.map (fun x => if x.2.dirty && (x.1.torrent == storage)
        then (x.1, { x.2 with dirty := false }) else x)).map (fun x => x.1)
      = es.map (fun x => x.1) := by
  induction es with
  | nil => rfl
  | cons x rest ih =>
      rw [List.map_cons, List.map_cons, List.map_cons]
      by_cases hc : (x.2.dirty && (x.1.torrent == storage)) = true
      · rw [if_pos hc, ih]
      · rw [if_neg hc, ih]

theorem find_entry_collect (es : List (torrent_location × cache_entry)) (storage : Nat)
    (l : torrent_location) :
    find_entry (es.map (fun x => if x.2.dirty && (x.1.torrent == storage)
        then (x.1, { x.2 with dirty := false }) else x)) l
      = (find_entry es l).map
          (fun e => if e.dirty && (l.torrent == storage) then { e with dirty := false } else e) := by
  induction es with
  | nil => rfl
  | cons x rest ih =>
      rw [List.map_cons]
      by_cases hx : x.1 = l
      · by_cases hc : (x.2.dirty && (x.1.torrent == storage)) = true
        · rw [if_pos hc, find_entry, find_entry]
          simp only [if_pos hx]
          rw [hx] at hc
          rw [Option.map_some']
          rw [if_pos hc]
        · rw [if_neg hc, find_entry, find_entry]
          simp only [if_pos hx]
          rw [hx] at hc
          rw [Option.map_some']
          rw [if_neg hc]
      · by_cases hc : (x.2.dirty && (x.1.torrent == storage)) = true
        · rw [if_pos hc, find_entry, find_entry]
          simp only [if_neg hx]
          exact ih
        · rw [if_neg hc, find_entry, find_entry]
          simp only [if_neg hx]
          exact ih

theorem mem_collect {es : List (torrent_location × cache_entry)} {storage : Nat}
    {x : torrent_location × cache_entry}
    (h : x ∈ es.map (fun x => if x.2.dirty && (x.1.torrent == storage)
        then (x.1, { x.2 with dirty := false }) else x)) :
    ∃ y ∈ es, x.1 = y.1 ∧ x.2.state = y.2.state ∧ (x.2.dirty = true → y.2.dirty = true) := by
  rcases List.mem_map.mp h with ⟨y, hy, hyx⟩
  by_cases hc : (y.2.dirty && (y.1.torrent == storage)) = true
  · rw [if_pos hc] at hyx
    refine ⟨y, hy, ?_, ?_, ?_⟩
    · rw [← hyx]
    · rw [← hyx]
    · intro hd
      rw [← hyx] at hd
      cases hd
  · rw [if_neg hc] at hyx
    exact ⟨y, hy, by rw [← hyx], by rw [← hyx], fun hd => by rw [hyx]; exact hd⟩

theorem collect_pres {p : cache_partition} (hw : wf p) (storage : Nat) :
    wf (collect_dirty_blocks_for_storage p storage).2 := by
  obtain ⟨hcoh, hsum, hle⟩ := hw
  have hqe : (collect_dirty_blocks_for_storage p storage).2.entries
      = p.entries.map (fun x => if x.2.dirty && (x.1.torrent == storage)
          then (x.1, { x.2 with dirty := false }) else x) := rfl
  have hqlru : ∀ s, lru_list (collect_dirty_blocks_for_storage p storage).2 s
      = lru_list p s := by
    intro s
    cases s <;> rfl
  have hkeys : (collect_dirty_blocks_for_storage p storage).2.entries.map (fun x => x.1)
      = p.entries.map (fun x => x.1) := by
    rw [hqe]
    exact collect_keys _ _
  have hfind : ∀ l, find_entry (collect_dirty_blocks_for_storage p storage).2.entries l
      = (find_entry p.entries l).map
          (fun e => if e.dirty && (l.torrent == storage) then { e with dirty := false } else e) := by
    intro l
    rw [hqe]
    exact find_entry_collect _ _ _
  have hcoh2 : coherent (collect_dirty_blocks_for_storage p storage).2 := by
    refine ⟨by rw [hkeys]; exact hcoh.1, ?_, ?_, ?_, ?_, ?_, ?_, ?_, ?_⟩
    · show ((collect_dirty_blocks_for_storage p storage).2).write_lru.Nodup
      exact hcoh.2.1
    · exact hcoh.2.2.1
    · exact hcoh.2.2.2.1
    · intro x hx
      rw [hqe] at hx
      rcases mem_collect hx with ⟨y, hy, h1, h2, _⟩
      simp only [hqlru, h1, h2]
      exact hcoh.2.2.2.2.1 y hy
    · intro l hl
      have hl2 : l ∈ p.write_lru := hl
      rcases hcoh.2.2.2.2.2.1 l hl2 with ⟨e, hf, hst⟩
      refine ⟨if e.dirty && (l.torrent == storage) then { e with dirty := false } else e,
        by rw [hfind, hf]; rfl, ?_⟩
      by_cases hc : (e.dirty && (l.torrent == storage)) = true
      · rw [if_pos hc]
        exact hst
      · rw [if_neg hc]
        exact hst
    · intro l hl
      have hl2 : l ∈ p.read_lru1 := hl
      rcases hcoh.2.2.2.2.2.2.1 l hl2 with ⟨e, hf, hst⟩
      refine ⟨if e.dirty && (l.torrent == storage) then { e with dirty := false } else e,
        by rw [hfind, hf]; rfl, ?_⟩
      by_cases hc : (e.dirty && (l.torrent == storage)) = true
      · rw [if_pos hc]
        exact hst
      · rw [if_neg hc]
        exact hst
    · intro l hl
      have hl2 : l ∈ p.read_lru2 := hl
      rcases hcoh.2.2.2.2.2.2.2.1 l hl2 with ⟨e, hf, hst⟩
      refine ⟨if e.dirty && (l.torrent == storage) then { e with dirty := false } else e,
        by rw [hfind, hf]; rfl, ?_⟩
      by_cases hc : (e.dirty && (l.torrent == storage)) = true
      · rw [if_pos hc]
        exact hst
      · rw [if_neg hc]
        exact hst
    · intro x hx hxd
      rw [hqe] at hx
      rcases mem_collect hx with ⟨y, hy, h1, h2, h3⟩
      rw [h2]
      exact hcoh.2.2.2.2.2.2.2.2 y hy (h3 hxd)
  refine ⟨hcoh2, ?_, ?_⟩
  · show p.num_dirty + p.num_clean = _
    rw [hqe]
    rw [List.length_map]
    exact hsum
  · exact hle

/-- Update path of cache_partition::insert on an existing entry, in
canonical form: entry replaced by e2 (same state) or e3 (new state at
the front of its list), counters shifted on real transitions. -/
theorem insert_update_retouch {p : cache_partition} (hcoh : coherent p)
    {l : torrent_location} {e : cache_entry} (hf : find_entry p.entries l = some e)
    (e2 : cache_entry) (hst : e2.state = e.state)
    (hd : e2.dirty = true → e2.state = cache_state.write_lru)
    (nd nc : Int) :
    coherent (touch_front
      { p with entries := set_entry p.entries l e2, num_dirty := nd, num_clean := nc }
      l e2.state) := by
  have hp1lru : ∀ s, lru_list
      { p with entries := set_entry p.entries l e2, num_dirty := nd, num_clean := nc } s
      = lru_list p s := by
    intro s
    cases s <;> rfl
  obtain ⟨hqe, hqsame, hqoth, _, _, _⟩ :=
    touch_front_spec
      { p with entries := set_entry p.entries l e2, num_dirty := nd, num_clean := nc } l e2.state
  refine retouch_coherent hcoh hf hst hd ?_ ?_ ?_ ?_ ?_
  · rw [hqe]
    show (set_entry p.entries l e2).map (fun x => x.1) = _
    exact set_entry_keys _ _ _
  · rw [hqe]
    show find_entry (set_entry p.entries l e2) l = some e2
    exact find_entry_set_eq _ hf
  · intro l2 hl2
    rw [hqe]
    show find_entry (set_entry p.entries l e2) l2 = _
    exact find_entry_set_ne _ hl2
  · rw [← hst]
    rw [hqsame, hp1lru]
  · intro s hs
    have hs2 : ¬ s = e2.state := by
      rw [hst]
      exact hs
    rw [hqoth s hs2, hp1lru]

theorem insert_update_relink {p : cache_partition} (hcoh : coherent p)
    {l : torrent_location} {e : cache_entry} (hf : find_entry p.entries l = some e)
    (e2 : cache_entry) (hst : e2.state = e.state) {ns : cache_state}
    (hne : ¬ ns = e.state)
    (hd : e2.dirty = true → ns = cache_state.write_lru)
    (nd nc : Int) :
    coherent (move_to_list
      { p with entries := set_entry p.entries l e2, num_dirty := nd, num_clean := nc }
      l e2 ns) := by
  have hp1lru : ∀ s, lru_list
      { p with entries := set_entry p.entries l e2, num_dirty := nd, num_clean := nc } s
      = lru_list p s := by
    intro s
    cases s <;> rfl
  have hne2 : ¬ ns = e2.state := by
    rw [hst]
    exact hne
  obtain ⟨hqe, hqold, hqnew, hqoth, _, _, _⟩ :=
    move_to_list_spec
      { p with entries := set_entry p.entries l e2, num_dirty := nd, num_clean := nc }
      l e2 hne2
  refine @relink_coherent p l e { e2 with state := ns } hcoh hf
    (show ¬ ({ e2 with state := ns } : cache_entry).state = e.state from hne)
    (fun hc => hd (show e2.dirty = true from hc)) _ ?_ ?_ ?_ ?_ ?_ ?_
  · rw [hqe]
    show (set_entry (set_entry p.entries l e2) l ({ e2 with state := ns })).map (fun x => x.1)
        = _
    rw [set_entry_set_entry]
    exact set_entry_keys _ _ _
  · rw [hqe]
    show find_entry (set_entry (set_entry p.entries l e2) l ({ e2 with state := ns })) l
        = _
    rw [set_entry_set_entry]
    exact find_entry_set_eq _ hf
  · intro l2 hl2
    rw [hqe]
    show find_entry (set_entry (set_entry p.entries l e2) l ({ e2 with state := ns })) l2
        = _
    rw [set_entry_set_entry]
    exact find_entry_set_ne _ hl2
  · show lru_list _ e.state = (lru_list p e.state).erase l
    rw [← hst]
    rw [hqold, hp1lru]
  · show lru_list _ ns = l :: lru_list p ns
    rw [hqnew, hp1lru]
  · intro s hs1 hs2
    show lru_list _ s = lru_list p s
    have hs3 : ¬ s = e2.state := by
      rw [hst]
      exact hs1
    rw [hqoth s hs3 hs2, hp1lru]

theorem insert_update_touch_len {p : cache_partition} (hcoh : coherent p)
    {l : torrent_location} {e : cache_entry} (hf : find_entry p.entries l = some e)
    (e2 : cache_entry) (hst : e2.state = e.state) (nd nc : Int) (s : cache_state) :
    (lru_list (touch_front
      { p with entries := set_entry p.entries l e2, num_dirty := nd, num_clean := nc }
      l e2.state) s).length = (lru_list p s).length := by
  have hp1 : ∀ s', lru_list
      { p with entries := set_entry p.entries l e2, num_dirty := nd, num_clean := nc } s'
      = lru_list p s' := by
    intro s'
    cases s' <;> rfl
  obtain ⟨_, hqsame, hqoth, _, _, _⟩ :=
    touch_front_spec
      { p with entries := set_entry p.entries l e2, num_dirty := nd, num_clean := nc } l e2.state
  have hmem2 : l ∈ lru_list p e2.state := by
    rw [hst]
    exact coherent_find_mem_list hcoh hf
  by_cases hs : s = e2.state
  · rw [hs, hqsame, hp1 e2.state]
    rw [List.length_cons, List.length_erase_of_mem hmem2]
    have h1 := List.length_pos_of_mem hmem2
    omega
  · rw [hqoth s hs, hp1 s]

theorem insert_update_move_len {p : cache_partition} (hcoh : coherent p)
    {l : torrent_location} {e : cache_entry} (hf : find_entry p.entries l = some e)
    (e2 : cache_entry) (hst : e2.state = e.state) {ns : cache_state}
    (hne : ¬ ns = e.state) (nd nc : Int) (s : cache_state) :
    ((lru_list (move_to_list
      { p with entries := set_entry p.entries l e2, num_dirty := nd, num_clean := nc }
      l e2 ns) s).length : Int)
    = ((lru_list p s).length : Int) + (if ns = s then 1 else 0)
      - (if e.state = s then 1 else 0) := by
  have hp1 : ∀ s', lru_list
      { p with entries := set_entry p.entries l e2, num_dirty := nd, num_clean := nc } s'
      = lru_list p s' := by
    intro s'
    cases s' <;> rfl
  have hne2 : ¬ ns = e2.state := by
    rw [hst]
    exact hne
  obtain ⟨_, hqold, hqnew, hqoth, _, _, _⟩ :=
    move_to_list_spec
      { p with entries := set_entry p.entries l e2, num_dirty := nd, num_clean := nc }
      l e2 hne2
  have hmem2 : l ∈ lru_list p e2.state := by
    rw [hst]
    exact coherent_find_mem_list hcoh hf
  by_cases h1 : s = ns
  · subst h1
    rw [hqnew, hp1 s]
    rw [if_pos rfl, if_neg (fun hc => hne hc.symm)]
    simp only [List.length_cons]
    push_cast
    ring
  · by_cases h2 : s = e2.state
    · rw [h2, hqold, hp1 e2.state]
      rw [if_neg hne2, if_pos hst.symm]
      have h3 := List.length_pos_of_mem hmem2
      rw [List.length_erase_of_mem hmem2]
      omega
    · rw [hqoth s h2 h1, hp1 s]
      rw [if_neg (fun hc => h1 hc.symm), if_neg (fun hc => h2 (hst.trans hc).symm)]
      omega

theorem insert_touch_case {p : cache_partition} (hw : wf p)
    {l : torrent_location} {e : cache_entry} (hf : find_entry p.entries l = some e)
    (e2 : cache_entry) (hst : e2.state = e.state)
    (hd : e2.dirty = true → e2.state = cache_state.write_lru)
    (nd nc : Int)
    (hsum2 : nd + nc = p.num_dirty + p.num_clean)
    (hnd_ge : (p.write_lru.length : Int) ≤ nd)
    (hxnd : wfx p → nd = (p.write_lru.length : Int))
    (hxnc : wfx p → nc = (p.read_lru1.length : Int) + (p.read_lru2.length : Int))
    (hxsd : wfx p → (e2.state = cache_state.write_lru ↔ e2.dirty = true)) :
    wf (touch_front
      { p with entries := set_entry p.entries l e2, num_dirty := nd, num_clean := nc }
      l e2.state)
    ∧ (wfx p → wfx (touch_front
      { p with entries := set_entry p.entries l e2, num_dirty := nd, num_clean := nc }
      l e2.state)) := by
  obtain ⟨hcoh, hsum, hle⟩ := hw
  have hcoh2 := insert_update_retouch hcoh hf e2 hst hd nd nc
  have hqe : (touch_front
      { p with entries := set_entry p.entries l e2, num_dirty := nd, num_clean := nc }
      l e2.state).entries = set_entry p.entries l e2 := (touch_front_spec _ _ _).1
  have hlen0 : (touch_front
      { p with entries := set_entry p.entries l e2, num_dirty := nd, num_clean := nc }
      l e2.state).entries.length = p.entries.length := by
    rw [hqe, set_entry_length]
  have hnd2 : (touch_front
      { p with entries := set_entry p.entries l e2, num_dirty := nd, num_clean := nc }
      l e2.state).num_dirty = nd := (touch_front_spec _ _ _).2.2.2.1
  have hnc2 : (touch_front
      { p with entries := set_entry p.entries l e2, num_dirty := nd, num_clean := nc }
      l e2.state).num_clean = nc := (touch_front_spec _ _ _).2.2.2.2.1
  have hwl0 : (touch_front
      { p with entries := set_entry p.entries l e2, num_dirty := nd, num_clean := nc }
      l e2.state).write_lru.length = p.write_lru.length :=
    insert_update_touch_len hcoh hf e2 hst nd nc cache_state.write_lru
  have hr1_0 : (touch_front
      { p with entries := set_entry p.entries l e2, num_dirty := nd, num_clean := nc }
      l e2.state).read_lru1.length = p.read_lru1.length :=
    insert_update_touch_len hcoh hf e2 hst nd nc cache_state.read_lru1
  have hr2_0 : (touch_front
      { p with entries := set_entry p.entries l e2, num_dirty := nd, num_clean := nc }
      l e2.state).read_lru2.length = p.read_lru2.length :=
    insert_update_touch_len hcoh hf e2 hst nd nc cache_state.read_lru2
  refine ⟨⟨hcoh2, by omega, by omega⟩, ?_⟩
  intro hx
  have hxnd2 := hxnd hx
  have hxnc2 := hxnc hx
  have hxsd2 := hxsd hx
  obtain ⟨_, _, _, hsd⟩ := hx
  refine ⟨⟨hcoh2, by omega, by omega⟩, by omega, by omega, ?_⟩
  intro x hxm
  rw [hqe] at hxm
  rcases mem_set_entry hxm with ⟨_, hx2, _⟩ | ⟨_, hx2⟩
  · rw [hx2]
    exact hxsd2
  · exact hsd x hx2

theorem insert_move_case {p : cache_partition} (hw : wf p)
    {l : torrent_location} {e : cache_entry} (hf : find_entry p.entries l = some e)
    (e2 : cache_entry) (hst : e2.state = e.state) {ns : cache_state}
    (hne : ¬ ns = e.state)
    (hd : e2.dirty = true → ns = cache_state.write_lru)
    (nd nc : Int)
    (hsum2 : nd + nc = p.num_dirty + p.num_clean)
    (hnd_ge : (p.write_lru.length : Int)
        + (if ns = cache_state.write_lru then 1 else 0)
        - (if e.state = cache_state.write_lru then 1 else 0) ≤ nd)
    (hxnd : wfx p → nd = (p.write_lru.length : Int)
        + (if ns = cache_state.write_lru then 1 else 0)
        - (if e.state = cache_state.write_lru then 1 else 0))
    (hxnc : wfx p → nc = (p.read_lru1.length : Int) + (p.read_lru2.length : Int)
        + (if ns = cache_state.read_lru1 then 1 else 0)
        + (if ns = cache_state.read_lru2 then 1 else 0)
        - (if e.state = cache_state.read_lru1 then 1 else 0)
        - (if e.state = cache_state.read_lru2 then 1 else 0))
    (hxsd : wfx p → (ns = cache_state.write_lru ↔ e2.dirty = true)) :
    wf (move_to_list
      { p with entries := set_entry p.entries l e2, num_dirty := nd, num_clean := nc }
      l e2 ns)
    ∧ (wfx p → wfx (move_to_list
      { p with entries := set_entry p.entries l e2, num_dirty := nd, num_clean := nc }
      l e2 ns)) := by
  obtain ⟨hcoh, hsum, hle⟩ := hw
  have hne2 : ¬ ns = e2.state := by
    rw [hst]
    exact hne
  have hcoh2 := insert_update_relink hcoh hf e2 hst hne hd nd nc
  obtain ⟨hqe0, _, _, _, hqnd, hqnc, _⟩ :=
    move_to_list_spec
      { p with entries := set_entry p.entries l e2, num_dirty := nd, num_clean := nc }
      l e2 hne2
  have hqe : (move_to_list
      { p with entries := set_entry p.entries l e2, num_dirty := nd, num_clean := nc }
      l e2 ns).entries = set_entry p.entries l ({ e2 with state := ns }) := by
    rw [hqe0]
    exact set_entry_set_entry _ _ _ _
  have hlen0 : (move_to_list
      { p with entries := set_entry p.entries l e2, num_dirty := nd, num_clean := nc }
      l e2 ns).entries.length = p.entries.length := by
    rw [hqe, set_entry_length]
  have hnd2 : (move_to_list
      { p with entries := set_entry p.entries l e2, num_dirty := nd, num_clean := nc }
      l e2 ns).num_dirty = nd := hqnd
  have hnc2 : (move_to_list
      { p with entries := set_entry p.entries l e2, num_dirty := nd, num_clean := nc }
      l e2 ns).num_clean = nc := hqnc
  have hwl0 : ((move_to_list
      { p with entries := set_entry p.entries l e2, num_dirty := nd, num_clean := nc }
      l e2 ns).write_lru.length : Int)
      = ((p.write_lru.length : Int))
        + (if ns = cache_state.write_lru then 1 else 0)
        - (if e.state = cache_state.write_lru then 1 else 0) :=
    insert_update_move_len hcoh hf e2 hst hne nd nc cache_state.write_lru
  have hr1_0 : ((move_to_list
      { p with entries := set_entry p.entries l e2, num_dirty := nd, num_clean := nc }
      l e2 ns).read_lru1.length : Int)
      = ((p.read_lru1.length : Int))
        + (if ns = cache_state.read_lru1 then 1 else 0)
        - (if e.state = cache_state.read_lru1 then 1 else 0) :=
    insert_update_move_len hcoh hf e2 hst hne nd nc cache_state.read_lru1
  have hr2_0 : ((move_to_list
      { p with entries := set_entry p.entries l e2, num_dirty := nd, num_clean := nc }
      l e2 ns).read_lru2.length : Int)
      = ((p.read_lru2.length : Int))
        + (if ns = cache_state.read_lru2 then 1 else 0)
        - (if e.state = cache_state.read_lru2 then 1 else 0) :=
    insert_update_move_len hcoh hf e2 hst hne nd nc cache_state.read_lru2
  refine ⟨⟨hcoh2, by omega, by omega⟩, ?_⟩
  intro hx
  have hxnd2 := hxnd hx
  have hxnc2 := hxnc hx
  have hxsd2 := hxsd hx
  obtain ⟨_, _, _, hsd⟩ := hx
  refine ⟨⟨hcoh2, by omega, by omega⟩, by omega, by omega, ?_⟩
  intro x hxm
  rw [hqe] at hxm
  rcases mem_set_entry hxm with ⟨_, hx2, _⟩ | ⟨_, hx2⟩
  · rw [hx2]
    exact hxsd2
  · exact hsd x hx2

theorem insert_fresh_clean {p1 : cache_partition} (hcoh1 : coherent p1)
    {l : torrent_location} (hf1 : find_entry p1.entries l = none)
    (d : List Nat) (len : Int)
    (hsum1 : p1.num_dirty + p1.num_clean = (p1.entries.length : Int))
    (hle1 : (p1.write_lru.length : Int) <= p1.num_dirty)
    {H : Prop}
    (hxnd : H -> p1.num_dirty = (p1.write_lru.length : Int))
    (hxnc : H -> p1.num_clean = (p1.read_lru1.length : Int) + (p1.read_lru2.length : Int))
    (hxsd : H -> state_dirty p1) :
    wf (set_lru_list { p1 with entries := (l, ({ data := d, length := len, dirty := false, state := cache_state.read_lru1 } : cache_entry)) :: p1.entries, num_dirty := p1.num_dirty, num_clean := p1.num_clean + 1 } cache_state.read_lru1 (l :: p1.read_lru1))
    /\ (H -> wfx (set_lru_list { p1 with entries := (l, ({ data := d, length := len, dirty := false, state := cache_state.read_lru1 } : cache_entry)) :: p1.entries, num_dirty := p1.num_dirty, num_clean := p1.num_clean + 1 } cache_state.read_lru1 (l :: p1.read_lru1))) := by
  have hext : coherent (set_lru_list { p1 with entries := (l, ({ data := d, length := len, dirty := false, state := cache_state.read_lru1 } : cache_entry)) :: p1.entries, num_dirty := p1.num_dirty, num_clean := p1.num_clean + 1 } cache_state.read_lru1 (l :: p1.read_lru1)) := by
    refine extend_coherent hcoh1 hf1
      (fun hc => absurd (show false = true from hc) Bool.false_ne_true) rfl rfl ?_
    intro s hs
    cases s <;> first | rfl | exact absurd rfl hs
  refine ⟨⟨hext, ?_, ?_⟩, ?_⟩
  · show p1.num_dirty + (p1.num_clean + 1) = ((p1.entries.length + 1 : Nat) : Int)
    push_cast
    omega
  · show (p1.write_lru.length : Int) <= p1.num_dirty
    exact hle1
  · intro hx
    refine ⟨⟨hext, ?_, ?_⟩, ?_, ?_, ?_⟩
    · show p1.num_dirty + (p1.num_clean + 1) = ((p1.entries.length + 1 : Nat) : Int)
      push_cast
      omega
    · show (p1.write_lru.length : Int) <= p1.num_dirty
      exact hle1
    · show p1.num_dirty = (p1.write_lru.length : Int)
      exact hxnd hx
    · show p1.num_clean + 1 = ((p1.read_lru1.length + 1 : Nat) : Int) + (p1.read_lru2.length : Int)
      have h9 := hxnc hx
      push_cast
      omega
    · intro x hxm
      have hxm2 : x = (l, ({ data := d, length := len, dirty := false, state := cache_state.read_lru1 } : cache_entry)) \/ x ∈ p1.entries :=
        List.mem_cons.mp hxm
      rcases hxm2 with h1 | h1
      · rw [h1]
        exact ⟨fun hc => cache_state.noConfusion (show cache_state.read_lru1 = cache_state.write_lru from hc),
          fun hc => Bool.noConfusion (show false = true from hc)⟩
      · exact hxsd hx x h1

theorem insert_fresh_dirty {p1 : cache_partition} (hcoh1 : coherent p1)
    {l : torrent_location} (hf1 : find_entry p1.entries l = none)
    (d : List Nat) (len : Int)
    (hsum1 : p1.num_dirty + p1.num_clean = (p1.entries.length : Int))
    (hle1 : (p1.write_lru.length : Int) <= p1.num_dirty)
    {H : Prop}
    (hxnd : H -> p1.num_dirty = (p1.write_lru.length : Int))
    (hxnc : H -> p1.num_clean = (p1.read_lru1.length : Int) + (p1.read_lru2.length : Int))
    (hxsd : H -> state_dirty p1) :
    wf (set_lru_list { p1 with entries := (l, ({ data := d, length := len, dirty := true, state := cache_state.write_lru } : cache_entry)) :: p1.entries, num_dirty := p1.num_dirty + 1, num_clean := p1.num_clean } cache_state.write_lru (l :: p1.write_lru))
    /\ (H -> wfx (set_lru_list { p1 with entries := (l, ({ data := d, length := len, dirty := true, state := cache_state.write_lru } : cache_entry)) :: p1.entries, num_dirty := p1.num_dirty + 1, num_clean := p1.num_clean } cache_state.write_lru (l :: p1.write_lru))) := by
  have hext : coherent (set_lru_list { p1 with entries := (l, ({ data := d, length := len, dirty := true, state := cache_state.write_lru } : cache_entry)) :: p1.entries, num_dirty := p1.num_dirty + 1, num_clean := p1.num_clean } cache_state.write_lru (l :: p1.write_lru)) := by
    refine extend_coherent hcoh1 hf1 (fun _ => rfl) rfl rfl ?_
    intro s hs
    cases s <;> first | rfl | exact absurd rfl hs
  refine ⟨⟨hext, ?_, ?_⟩, ?_⟩
  · show (p1.num_dirty + 1) + p1.num_clean = ((p1.entries.length + 1 : Nat) : Int)
    push_cast
    omega
  · show ((p1.write_lru.length + 1 : Nat) : Int) <= p1.num_dirty + 1
    push_cast
    omega
  · intro hx
    refine ⟨⟨hext, ?_, ?_⟩, ?_, ?_, ?_⟩
    · show (p1.num_dirty + 1) + p1.num_clean = ((p1.entries.length + 1 : Nat) : Int)
      push_cast
      omega
    · show ((p1.write_lru.length + 1 : Nat) : Int) <= p1.num_dirty + 1
      push_cast
      omega
    · show p1.num_dirty + 1 = ((p1.write_lru.length + 1 : Nat) : Int)
      have h9 := hxnd hx
      push_cast
      omega
    · show p1.num_clean = (p1.read_lru1.length : Int) + (p1.read_lru2.length : Int)
      exact hxnc hx
    · intro x hxm
      have hxm2 : x = (l, ({ data := d, length := len, dirty := true, state := cache_state.write_lru } : cache_entry)) \/ x ∈ p1.entries :=
        List.mem_cons.mp hxm
      rcases hxm2 with h1 | h1
      · rw [h1]
        exact ⟨fun _ => rfl, fun _ => rfl⟩
      · exact hxsd hx x h1

theorem insert_pres {p : cache_partition} (hw : wf p) (l : torrent_location)
    (src : List Nat) (length : Int) (dirty : Bool) :
    wf (cache_partition.insert p l src length dirty)
    ∧ (wfx p → wfx (cache_partition.insert p l src length dirty)) := by
  obtain ⟨hcoh, hsum, hle⟩ := hw
  unfold cache_partition.insert
  rcases hf : find_entry p.entries l with _ | e
  · -- fresh insert after the eviction loop
    simp only [hf]
    obtain ⟨hcoh1, hnd1, hw1, hmax1, hdiff1, hrdiff1, hsub1⟩ :=
      evict_until_room_spec (p.entries.length + 1) p hcoh
    have hf1 : find_entry (evict_until_room p (p.entries.length + 1)).entries l = none := by
      rcases hx : find_entry (evict_until_room p (p.entries.length + 1)).entries l with _ | e1
      · rfl
      · exact absurd (hsub1 (l, e1) (find_entry_mem hx)) (find_entry_eq_none hf e1)
    rcases hdirty : dirty with _ | _
    · -- clean fresh insert (insert_read fill)
      simp only [Bool.false_eq_true, if_false]
      exact insert_fresh_clean hcoh1 hf1
        (src.take length.toNat ++ List.replicate (DEFAULT_BLOCK_SIZE.toNat - length.toNat) 0)
        length (by omega) (by rw [hnd1, hw1]; exact hle)
        (fun hx => by rw [hnd1, hw1]; exact hx.2.1)
        (fun hx => by have h9 := hx.2.2.1; omega)
        (fun hx x hxm => hx.2.2.2 x (hsub1 x hxm))
    · -- dirty fresh insert (insert_write fill)
      simp only [if_true]
      exact insert_fresh_dirty hcoh1 hf1
        (src.take length.toNat ++ List.replicate (DEFAULT_BLOCK_SIZE.toNat - length.toNat) 0)
        length (by omega) (by rw [hnd1, hw1]; exact hle)
        (fun hx => by rw [hnd1, hw1]; exact hx.2.1)
        (fun hx => by have h9 := hx.2.2.1; omega)
        (fun hx x hxm => hx.2.2.2 x (hsub1 x hxm))
  · -- update of an existing entry
    simp only []
    have hwr1 : ¬ cache_state.write_lru = cache_state.read_lru1 := fun hc => cache_state.noConfusion hc
    have hwr2 : ¬ cache_state.write_lru = cache_state.read_lru2 := fun hc => cache_state.noConfusion hc
    have hr1w : ¬ cache_state.read_lru1 = cache_state.write_lru := fun hc => cache_state.noConfusion hc
    have hr12 : ¬ cache_state.read_lru1 = cache_state.read_lru2 := fun hc => cache_state.noConfusion hc
    have hr21 : ¬ cache_state.read_lru2 = cache_state.read_lru1 := fun hc => cache_state.noConfusion hc
    have hr2w : ¬ cache_state.read_lru2 = cache_state.write_lru := fun hc => cache_state.noConfusion hc
    rcases hdirty : dirty with _ | _
    · -- clean overwrite
      simp only [Bool.false_eq_true, if_false]
      rcases hed : e.dirty with _ | _
      · -- entry was clean: counters untouched
        simp only [Bool.false_eq_true, if_false]
        by_cases hes : e.state = cache_state.read_lru1
        · have hb : (e.state == cache_state.read_lru1) = true := by simp [hes]
          rw [hb]
          simp only [if_true]
          rw [show cache_state.read_lru1 = e.state from hes.symm]
          exact insert_touch_case ⟨hcoh, hsum, hle⟩ hf
            ({ e with data := src.take length.toNat ++ e.data.drop length.toNat, length := length, dirty := false }) rfl
            (fun hc => absurd (show false = true from hc) Bool.false_ne_true)
            p.num_dirty p.num_clean rfl hle
            (fun hx => hx.2.1) (fun hx => hx.2.2.1)
            (fun _ => ⟨fun hc => cache_state.noConfusion (hes.symm.trans hc),
              fun hc => absurd (show false = true from hc) Bool.false_ne_true⟩)
        · have hb : (e.state == cache_state.read_lru1) = false := by simp [hes]
          rw [hb]
          simp only [Bool.false_eq_true, if_false]
          exact insert_move_case ⟨hcoh, hsum, hle⟩ hf
            ({ e with data := src.take length.toNat ++ e.data.drop length.toNat, length := length, dirty := false }) rfl
            (fun hc => hes hc.symm)
            (fun hc => absurd (show false = true from hc) Bool.false_ne_true)
            p.num_dirty p.num_clean rfl
            (by
              rw [if_neg hr1w]
              by_cases h9 : e.state = cache_state.write_lru
              · rw [if_pos h9]
                omega
              · rw [if_neg h9]
                omega)
            (fun hx => by
              have h9 : ¬ e.state = cache_state.write_lru := by
                intro hc
                have h8 : e.dirty = true := (hx.2.2.2 (l, e) (find_entry_mem hf)).mp hc
                rw [hed] at h8
                cases h8
              rw [if_neg hr1w, if_neg h9]
              have h7 := hx.2.1
              omega)
            (fun hx => by
              have h9 : ¬ e.state = cache_state.write_lru := by
                intro hc
                have h8 : e.dirty = true := (hx.2.2.2 (l, e) (find_entry_mem hf)).mp hc
                rw [hed] at h8
                cases h8
              have h7 := hx.2.2.1
              rcases hest : e.state with _ | _ | _
              · exact absurd hest h9
              · exact absurd hest hes
              · rw [if_neg hr12, if_neg hr21, if_pos rfl, if_pos rfl]
                omega)
            (fun _ => ⟨fun hc => cache_state.noConfusion hc,
              fun hc => absurd (show false = true from hc) Bool.false_ne_true⟩)
      · -- entry was dirty: it sat in write_lru, a clean overwrite demotes it
        simp only [if_true]
        have hes : e.state = cache_state.write_lru := coherent_find_dirty hcoh hf hed
        have hb : (e.state == cache_state.read_lru1) = false := by simp [hes]
        rw [hb]
        simp only [Bool.false_eq_true, if_false]
        exact insert_move_case ⟨hcoh, hsum, hle⟩ hf
          ({ e with data := src.take length.toNat ++ e.data.drop length.toNat, length := length, dirty := false }) rfl
          (fun hc => cache_state.noConfusion (hc.trans hes))
          (fun hc => absurd (show false = true from hc) Bool.false_ne_true)
          (p.num_dirty - 1) (p.num_clean + 1)
          (by ring)
          (by
            rw [if_neg hr1w, if_pos hes]
            omega)
          (fun hx => by
            rw [if_neg hr1w, if_pos hes]
            have h7 := hx.2.1
            omega)
          (fun hx => by
            rw [hes, if_pos rfl, if_neg hr12, if_neg hwr1, if_neg hwr2]
            have h7 := hx.2.2.1
            omega)
          (fun _ => ⟨fun hc => cache_state.noConfusion hc,
            fun hc => absurd (show false = true from hc) Bool.false_ne_true⟩)
    · -- dirty overwrite
      simp only [if_true]
      rcases hed : e.dirty with _ | _
      · -- entry was clean
        simp only [Bool.false_eq_true, if_false]
        by_cases hes : e.state = cache_state.write_lru
        · have hcontra : wfx p → False := by
            intro hx
            have h9 : e.dirty = true := (hx.2.2.2 (l, e) (find_entry_mem hf)).mp hes
            rw [hed] at h9
            cases h9
          have hb : (e.state == cache_state.write_lru) = true := by simp [hes]
          rw [hb]
          simp only [if_true]
          rw [show cache_state.write_lru = e.state from hes.symm]
          exact insert_touch_case ⟨hcoh, hsum, hle⟩ hf
            ({ e with data := src.take length.toNat ++ e.data.drop length.toNat, length := length, dirty := true }) rfl
            (fun _ => hes)
            (p.num_dirty + 1) (p.num_clean - 1)
            (by ring) (by omega)
            (fun hx => (hcontra hx).elim) (fun hx => (hcontra hx).elim)
            (fun hx => (hcontra hx).elim)
        · have hb : (e.state == cache_state.write_lru) = false := by simp [hes]
          rw [hb]
          simp only [Bool.false_eq_true, if_false]
          exact insert_move_case ⟨hcoh, hsum, hle⟩ hf
            ({ e with data := src.take length.toNat ++ e.data.drop length.toNat, length := length, dirty := true }) rfl
            (fun hc => hes hc.symm)
            (fun _ => rfl)
            (p.num_dirty + 1) (p.num_clean - 1)
            (by ring)
            (by
              rw [if_pos rfl, if_neg hes]
              omega)
            (fun hx => by
              rw [if_pos rfl, if_neg hes]
              have h7 := hx.2.1
              omega)
            (fun hx => by
              have h7 := hx.2.2.1
              rcases hest : e.state with _ | _ | _
              · exact absurd hest hes
              · rw [if_neg hwr1, if_neg hwr2, if_pos rfl, if_neg hr12]
                omega
              · rw [if_neg hwr1, if_neg hwr2, if_neg hr21, if_pos rfl]
                omega)
            (fun _ => ⟨fun _ => rfl, fun _ => rfl⟩)
      · -- entry was already dirty: it is in write_lru, stays there
        simp only [if_true]
        have hes : e.state = cache_state.write_lru := coherent_find_dirty hcoh hf hed
        have hb : (e.state == cache_state.write_lru) = true := by simp [hes]
        rw [hb]
        simp only [if_true]
        rw [show cache_state.write_lru = e.state from hes.symm]
        exact insert_touch_case ⟨hcoh, hsum, hle⟩ hf
          ({ e with data := src.take length.toNat ++ e.data.drop length.toNat, length := length, dirty := true }) rfl
          (fun _ => hes)
          p.num_dirty p.num_clean rfl hle
          (fun hx => hx.2.1) (fun hx => hx.2.2.1)
          (fun _ => ⟨fun _ => rfl, fun _ => hes⟩)

/-- The empty partition satisfies the exact counter invariant. -/
theorem wfx_empty (max : Nat) : wfx (cache_partition.empty max) := by
  refine ⟨⟨coherent_empty max, by simp [cache_partition.empty], by simp [cache_partition.empty]⟩,
    by simp [cache_partition.empty], by simp [cache_partition.empty], ?_⟩
  intro x hx
  cases hx

/-- Partition states reachable through the public cache operations,
starting from a fresh partition. -/
inductive reachable : cache_partition → Prop
  | empty (max : Nat) : reachable (cache_partition.empty max)
  | insert {p : cache_partition} (l : torrent_location) (src : List Nat) (length : Int)
      (dirty : Bool) : reachable p → reachable (cache_partition.insert p l src length dirty)
  | get {p : cache_partition} (l : torrent_location) :
      reachable p → reachable (cache_partition.get p l).2
  | get2 {p : cache_partition} (l1 l2 : torrent_location) :
      reachable p → reachable (cache_partition.get2 p l1 l2).2.2
  | mark_clean {p : cache_partition} (l : torrent_location) :
      reachable p → reachable (cache_partition.mark_clean p l)
  | collect {p : cache_partition} (storage : Nat) :
      reachable p → reachable (collect_dirty_blocks_for_storage p storage).2

/-- Reachability without collect_dirty_blocks_for_storage, which is the
one operation that desynchronises the dirty flags from the counters. -/
inductive reachable_nc : cache_partition → Prop
  | empty (max : Nat) : reachable_nc (cache_partition.empty max)
  | insert {p : cache_partition} (l : torrent_location) (src : List Nat) (length : Int)
      (dirty : Bool) : reachable_nc p → reachable_nc (cache_partition.insert p l src length dirty)
  | get {p : cache_partition} (l : torrent_location) :
      reachable_nc p → reachable_nc (cache_partition.get p l).2
  | get2 {p : cache_partition} (l1 l2 : torrent_location) :
      reachable_nc p → reachable_nc (cache_partition.get2 p l1 l2).2.2
  | mark_clean {p : cache_partition} (l : torrent_location) :
      reachable_nc p → reachable_nc (cache_partition.mark_clean p l)

theorem reachable_wf {p : cache_partition} (h : reachable p) : wf p := by
  induction h with
  | empty max => exact (wfx_empty max).1
  | insert l src length dirty _ ih => exact (insert_pres ih l src length dirty).1
  | get l _ ih => exact (get_pres ih l).1
  | get2 l1 l2 _ ih => exact (get2_pres ih l1 l2).1
  | mark_clean l _ ih => exact (mark_clean_pres ih l).1
  | collect storage _ ih => exact collect_pres ih storage

theorem reachable_nc_wfx {p : cache_partition} (h : reachable_nc p) : wfx p := by
  induction h with
  | empty max => exact wfx_empty max
  | insert l src length dirty _ ih => exact (insert_pres ih.1 l src length dirty).2 ih
  | get l _ ih => exact (get_pres ih.1 l).2 ih
  | get2 l1 l2 _ ih => exact (get2_pres ih.1 l1 l2).2 ih
  | mark_clean l _ ih => exact (mark_clean_pres ih.1 l).2 ih

theorem reachable_nc_reachable {p : cache_partition} (h : reachable_nc p) : reachable p := by
  induction h with
  | empty max => exact reachable.empty max
  | insert l src length dirty _ ih => exact reachable.insert l src length dirty ih
  | get l _ ih => exact reachable.get l ih
  | get2 l1 l2 _ ih => exact reachable.get2 l1 l2 ih
  | mark_clean l _ ih => exact reachable.mark_clean l ih

/-- When every cached entry is dirty both read LRU lists are empty, so
the eviction scan finds no victim. -/
theorem evict_none_of_all_dirty {p : cache_partition} (hcoh : coherent p)
    (hall : ∀ x ∈ p.entries, x.2.dirty = true) : evict_one_lru p = none := by
  have hr1 : p.read_lru1 = [] := by
    rcases h1 : p.read_lru1 with _ | ⟨a, rest⟩
    · rfl
    · exfalso
      have hm : a ∈ p.read_lru1 := by
        rw [h1]
        exact List.mem_cons_self a rest
      obtain ⟨e, hf, hs⟩ := coherent_list_state hcoh
        (show a ∈ lru_list p cache_state.read_lru1 from hm)
      have hw := coherent_find_dirty hcoh hf (hall (a, e) (find_entry_mem hf))
      exact cache_state.noConfusion (hs.symm.trans hw)
  have hr2 : p.read_lru2 = [] := by
    rcases h1 : p.read_lru2 with _ | ⟨a, rest⟩
    · rfl
    · exfalso
      have hm : a ∈ p.read_lru2 := by
        rw [h1]
        exact List.mem_cons_self a rest
      obtain ⟨e, hf, hs⟩ := coherent_list_state hcoh
        (show a ∈ lru_list p cache_state.read_lru2 from hm)
      have hw := coherent_find_dirty hcoh hf (hall (a, e) (find_entry_mem hf))
      exact cache_state.noConfusion (hs.symm.trans hw)
  unfold evict_one_lru
  rw [hr1, hr2]
  rfl

/-- With only dirty entries the eviction loop gives up immediately. -/
theorem evict_until_room_all_dirty (fuel : Nat) {p : cache_partition} (hcoh : coherent p)
    (hall : ∀ x ∈ p.entries, x.2.dirty = true) : evict_until_room p fuel = p := by
  cases fuel with
  | zero => rfl
  | succ n =>
      rw [evict_until_room]
      by_cases hc : p.entries.length ≥ p.max_entries
      · rw [if_pos hc, evict_none_of_all_dirty hcoh hall]
      · rw [if_neg hc]

/-- Inserting an absent key always adds exactly one entry on top of
whatever the eviction loop left behind. -/
theorem insert_fresh_entries_length {p : cache_partition} {l : torrent_location}
    (hf : find_entry p.entries l = none) (src : List Nat) (length : Int) (dirty : Bool) :
    (cache_partition.insert p l src length dirty).entries.length
      = (evict_until_room p (p.entries.length + 1)).entries.length + 1 := by
  unfold cache_partition.insert
  rw [hf]
  cases dirty <;> rfl

/-- In a coherent partition each LRU list enumerates exactly the keys of
the entries whose state names that list. -/
theorem lru_count {p : cache_partition} (hcoh : coherent p) (s : cache_state) :
    (lru_list p s).length
      = (p.entries.filter (fun x => x.2.state == s)).length := by
  have hn1 : (lru_list p s).Nodup := lru_list_nodup hcoh s
  have hn2 : ((p.entries.filter (fun x => x.2.state == s)).map (fun x => x.1)).Nodup := by
    refine List.Nodup.sublist ?_ hcoh.1
    exact List.Sublist.map _ (List.filter_sublist _)
  have hmem : ∀ a, a ∈ lru_list p s
      ↔ a ∈ (p.entries.filter (fun x => x.2.state == s)).map (fun x => x.1) := by
    intro a
    constructor
    · intro hm
      obtain ⟨e, hf, hs⟩ := coherent_list_state hcoh hm
      refine List.mem_map.mpr ⟨(a, e), ?_, rfl⟩
      refine List.mem_filter.mpr ⟨find_entry_mem hf, ?_⟩
      simp [hs]
    · intro hm
      obtain ⟨x, hxf, hx1⟩ := List.mem_map.mp hm
      obtain ⟨hxe, hxs⟩ := List.mem_filter.mp hxf
      have h9 := hcoh.2.2.2.2.1 x hxe
      have hxs2 : x.2.state = s := by
        simpa using hxs
      rw [hxs2, hx1] at h9
      exact h9
  have hperm : List.Perm (lru_list p s)
      ((p.entries.filter (fun x => x.2.state == s)).map (fun x => x.1)) :=
    (List.perm_ext_iff_of_nodup hn1 hn2).mpr hmem
  have h10 := hperm.length_eq
  rw [List.length_map] at h10
  exact h10

/-- The three states partition the entry list. -/
theorem count_states (es : List (torrent_location × cache_entry)) :
    (es.filter (fun x => x.2.state == cache_state.write_lru)).length
      + (es.filter (fun x => x.2.state == cache_state.read_lru1)).length
      + (es.filter (fun x => x.2.state == cache_state.read_lru2)).length
      = es.length := by
  induction es with
  | nil => rfl
  | cons x rest ih =>
      rw [List.filter_cons, List.filter_cons, List.filter_cons]
      rcases hx : x.2.state with _ | _ | _ <;> simp [hx] <;> omega

/-- The dirty flag partitions the entry list. -/
theorem count_dirty_split (es : List (torrent_location × cache_entry)) :
    (es.filter (fun x => x.2.dirty)).length + (es.filter (fun x => !x.2.dirty)).length
      = es.length := by
  induction es with
  | nil => rfl
  | cons x rest ih =>
      rw [List.filter_cons, List.filter_cons]
      rcases hx : x.2.dirty with _ | _ <;> simp [hx] <;> omega

/-- Under the state-mirrors-dirty invariant the write_lru entries are
exactly the dirty-flagged ones. -/
theorem filter_state_eq_filter_dirty {p : cache_partition} (hsd : state_dirty p) :
    p.entries.filter (fun x => x.2.state == cache_state.write_lru)
      = p.entries.filter (fun x => x.2.dirty) := by
  refine List.filter_congr ?_
  intro x hx
  have h9 := hsd x hx
  rcases hs : x.2.state with _ | _ | _ <;> rcases hd : x.2.dirty with _ | _ <;> simp_all

/-- C3: cache eviction only ever removes clean entries.  A block picked
by evict_one_lru carries dirty=false; when every entry of a reachable
partition is dirty, eviction fails (returns none), and a fresh insert
still proceeds, growing the entry count by one - beyond max_entries if
the partition was already full. -/
theorem eviction_only_removes_clean_entries {p : cache_partition} (h : reachable p) :
    (∀ l p', evict_one_lru p = some (l, p') →
      ∃ e, find_entry p.entries l = some e ∧ e.dirty = false)
    ∧ ((∀ x ∈ p.entries, x.2.dirty = true) → evict_one_lru p = none)
    ∧ (∀ l src len, (∀ x ∈ p.entries, x.2.dirty = true) →
        find_entry p.entries l = none →
        (cache_partition.insert p l src len true).entries.length = p.entries.length + 1
        ∧ (p.entries.length ≥ p.max_entries →
            (cache_partition.insert p l src len true).entries.length > p.max_entries)) := by
  have hw := reachable_wf h
  refine ⟨?_, ?_, ?_⟩
  · intro l p' he
    exact (evict_one_lru_spec hw.1 he).1
  · intro hall
    exact evict_none_of_all_dirty hw.1 hall
  · intro l src len hall hf
    have h1 : (cache_partition.insert p l src len true).entries.length
        = p.entries.length + 1 := by
      rw [insert_fresh_entries_length hf src len true,
        evict_until_room_all_dirty (p.entries.length + 1) hw.1 hall]
    exact ⟨h1, fun hge => by omega⟩

/-- Witness for C3 at a concrete all-dirty partition: a second dirty
insert into a one-entry all-dirty partition adds an entry. -/
theorem eviction_only_removes_clean_entries_witness :
    (cache_partition.insert
      (cache_partition.insert (cache_partition.empty 8) ⟨0, 0, 0⟩ [] 16384 true)
      ⟨0, 0, 16384⟩ [] 16384 true).entries.length
    = (cache_partition.insert (cache_partition.empty 8) ⟨0, 0, 0⟩ [] 16384 true).entries.length
      + 1 :=
  ((eviction_only_removes_clean_entries
      (reachable.insert ⟨0, 0, 0⟩ [] 16384 true (reachable.empty 8))).2.2
    ⟨0, 0, 16384⟩ [] 16384 (by decide) (by decide)).1

/-- C10 counterexample: collect_dirty_blocks_for_storage clears the
dirty flag of the collected entry but leaves m_num_dirty untouched, so
afterwards num_dirty = 1 while no entry has the dirty flag set. -/
theorem collect_desyncs_counters_counterexample :
    (collect_dirty_blocks_for_storage
      (cache_partition.insert (cache_partition.empty 8) ⟨0, 0, 0⟩ [] 16384 true) 0).2.num_dirty
      = 1
    ∧ ((collect_dirty_blocks_for_storage
        (cache_partition.insert (cache_partition.empty 8) ⟨0, 0, 0⟩ [] 16384 true)
        0).2.entries.filter (fun x => x.2.dirty)).length = 0 := by
  exact ⟨by decide, by decide⟩

/-- C10 (amended): after any sequence of insert, get, get2 and
mark_clean operations - but no collect - num_dirty equals the number of
dirty-flagged entries and num_clean the number of clean-flagged ones,
and get_dirty_ratio is computed from num_dirty and max_entries. -/
theorem counters_match_dirty_flags {p : cache_partition} (h : reachable_nc p) :
    p.num_dirty = ((p.entries.filter (fun x => x.2.dirty)).length : Int)
    ∧ p.num_clean = ((p.entries.filter (fun x => !x.2.dirty)).length : Int)
    ∧ get_dirty_ratio p
        = (if p.max_entries = 0 then 0 else (p.num_dirty : ℚ) / (p.max_entries : ℚ)) := by
  obtain ⟨⟨hcoh, hsum, hle⟩, hnd, hnc, hsd⟩ := reachable_nc_wfx h
  have h1 : p.write_lru.length
      = (p.entries.filter (fun x => x.2.state == cache_state.write_lru)).length :=
    lru_count hcoh cache_state.write_lru
  have h2 : p.read_lru1.length
      = (p.entries.filter (fun x => x.2.state == cache_state.read_lru1)).length :=
    lru_count hcoh cache_state.read_lru1
  have h3 : p.read_lru2.length
      = (p.entries.filter (fun x => x.2.state == cache_state.read_lru2)).length :=
    lru_count hcoh cache_state.read_lru2
  have h4 := count_states p.entries
  have h5 := count_dirty_split p.entries
  have h7 : (p.entries.filter (fun x => x.2.state == cache_state.write_lru)).length
      = (p.entries.filter (fun x => x.2.dirty)).length := by
    rw [filter_state_eq_filter_dirty hsd]
  refine ⟨by omega, by omega, rfl⟩

/-- Witness for C10 at a concrete one-insert partition. -/
theorem counters_match_dirty_flags_witness :
    (cache_partition.insert (cache_partition.empty 8) ⟨0, 0, 0⟩ [] 16384 true).num_dirty
      = (((cache_partition.insert (cache_partition.empty 8) ⟨0, 0, 0⟩ [] 16384
          true).entries.filter (fun x => x.2.dirty)).length : Int) :=
  (counters_match_dirty_flags
    (reachable_nc.insert ⟨0, 0, 0⟩ [] 16384 true (reachable_nc.empty 8))).1

/-- raw_disk_io::async_write (raw_disk_io.cpp), buffered path.  The
block is inserted into its cache partition dirty (insert_write), the
posted write job performs the storage write over the mapped slices of
the request, then unconditionally calls m_cache.mark_clean(loc), and
finally posts the handler with the storage error.  Buffer-pool and
stats bookkeeping are not modelled; the partition of the location
stands for the whole unified cache. -/
def async_write_step (p : cache_partition) (loc : torrent_location)
    (src : List Nat) (len : Int)
    (names : List (List Char)) (slices : List file_slice) :
    cache_partition × storage_error :=
  let p1 := cache_partition.insert p loc src len true
  let error := (partition_storage_write names slices).2
  let p2 := cache_partition.mark_clean p1 loc
  (p2, error)

/-- C2: refuted.  async_write posts a job that runs the storage write
and then calls mark_clean unconditionally, so after a failed
write-through (here: the mapped file name "g" does not parse, giving a
ParseFailed storage error) the freshly written block sits in the cache
with dirty = false even though the handler receives the error. -/
theorem async_write_marks_clean_on_failed_write :
    ((find_entry (async_write_step (cache_partition.empty 8) ⟨0, 0, 0⟩ [] 16384
        [['g']] [⟨0, 0, 16384⟩]).1.entries ⟨0, 0, 0⟩).map (fun e => e.dirty) = some false)
    ∧ (async_write_step (cache_partition.empty 8) ⟨0, 0, 0⟩ [] 16384
        [['g']] [⟨0, 0, 16384⟩]).2.ec = some error_kind.parse_failed := by
  exact ⟨by decide, by decide⟩

/-- A memcpy into the 16 KiB destination buffer: overwrite src.length
bytes starting at off. -/
def write_region (dst : List Nat) (off : Nat) (srcB : List Nat) : List Nat :=
  dst.take off ++ srcB ++ dst.drop (off + srcB.length)

/-- One storage read issued by async_read: device range and the offset
inside the destination buffer it lands at. -/
structure disk_read_call where
  offset : Int
  len : Int
  buf_offset : Int
deriving DecidableEq, Repr

/-- Everything observable about one async_read call: the error handed
to the completion handler, the storage reads performed, the cache
partition afterwards, the destination buffer contents (none when the
handler got an empty holder), and whether the cache was consulted. -/
structure read_outcome where
  error : storage_error
  reads : List disk_read_call
  cache : cache_partition
  buffer : Option (List Nat)
  cache_queried : Bool

/-- raw_disk_io::async_read (raw_disk_io.cpp).  Validation checks only
length <= 0 and start < 0; a failed pool malloc reports no_memory; an
unaligned request (start % 16384 + length > 16384) goes through get2
with the bitmask (buf1 ? 2 : 0) | (buf2 ? 1 : 0) and never inserts; an
aligned request goes through get and on a miss reads from storage and
inserts the block clean.  Storage reads are modelled as always
delivering their bytes (read errors are not modelled), the partition of
the request stands for the whole unified cache, and the scratch buffer
starts zeroed. -/
def async_read (p : cache_partition) (storage : Nat) (piece start length : Int)
    (mallocOk : Bool) (storage_read : Int → Int → List Nat) : read_outcome :=
  if length ≤ 0 ∨ start < 0 then
    ⟨⟨some .invalid_request, none, some .file_read⟩, [], p, none, false⟩
  else if mallocOk = false then
    ⟨⟨some .no_memory, none, some .alloc_cache_piece⟩, [], p, none, false⟩
  else
    let block_offset := start - start % DEFAULT_BLOCK_SIZE
    let read_offset := start - block_offset
    let buf0 : List Nat := List.replicate DEFAULT_BLOCK_SIZE.toNat 0
    if read_offset + length > DEFAULT_BLOCK_SIZE then
      let loc1 : torrent_location := ⟨storage, piece, block_offset⟩
      let loc2 : torrent_location := ⟨storage, piece, block_offset + DEFAULT_BLOCK_SIZE⟩
      let len1 := DEFAULT_BLOCK_SIZE - read_offset
      let g := cache_partition.get2 p loc1 loc2
      let bufA := match g.1 with
        | some d1 => write_region buf0 0 ((d1.drop read_offset.toNat).take len1.toNat)
        | none => buf0
      let bufB := match g.2.1 with
        | some d2 => write_region bufA len1.toNat (d2.take (length - len1).toNat)
        | none => bufA
      let ret : Nat := (match g.1 with | some _ => 2 | none => 0)
        + (match g.2.1 with | some _ => 1 | none => 0)
      if ret = 3 then ⟨storage_error.ok, [], g.2.2, some bufB, true⟩
      else if ret ≠ 0 then
        let off := if ret = 2 then block_offset + DEFAULT_BLOCK_SIZE else start
        let ln := if ret = 2 then length - len1 else len1
        let bo := if ret = 2 then len1 else 0
        ⟨storage_error.ok, [⟨off, ln, bo⟩], g.2.2,
          some (write_region bufB bo.toNat (storage_read off ln)), true⟩
      else
        ⟨storage_error.ok, [⟨start, length, 0⟩], g.2.2,
          some (write_region bufB 0 (storage_read start length)), true⟩
    else
      let loc : torrent_location := ⟨storage, piece, block_offset⟩
      let g := cache_partition.get p loc
      match g.1 with
      | some d1 =>
          ⟨storage_error.ok, [], g.2,
            some (write_region buf0 0 ((d1.drop read_offset.toNat).take length.toNat)), true⟩
      | none =>
          let data := storage_read start length
          ⟨storage_error.ok, [⟨start, length, 0⟩],
            cache_partition.insert g.2 loc data length false,
            some (write_region buf0 0 (data.take length.toNat)), true⟩

/-- The error code async_read hands to its completion handler depends
only on the validation check and the malloc outcome. -/
theorem async_read_error_ec (p : cache_partition) (storage : Nat)
    (piece start length : Int) (mallocOk : Bool) (sr : Int → Int → List Nat) :
    (async_read p storage piece start length mallocOk sr).error.ec
      = if length ≤ 0 ∨ start < 0 then some error_kind.invalid_request
        else if mallocOk = false then some error_kind.no_memory
        else none := by
  unfold async_read
  by_cases h1 : length ≤ 0 ∨ start < 0
  · rw [if_pos h1, if_pos h1]
  · rw [if_neg h1, if_neg h1]
    by_cases h2 : mallocOk = false
    · rw [if_pos h2, if_pos h2]
    · rw [if_neg h2, if_neg h2]
      simp only []
      repeat' split
      all_goals rfl

/-- C6 counterexample: a request of 16385 bytes at start 0 is NOT
rejected as InvalidRequest - the only validation is length <= 0 or
start < 0 - and async_read goes on to issue storage I/O for it. -/
theorem async_read_length_over_block_counterexample :
    (async_read (cache_partition.empty 8) 0 0 0 16385 true (fun _ _ => [])).error.ec
      ≠ some error_kind.invalid_request
    ∧ (async_read (cache_partition.empty 8) 0 0 0 16385 true (fun _ _ => [])).reads ≠ [] := by
  exact ⟨by decide, by decide⟩

/-- C6 (amended): async_read reports InvalidRequest through its handler
exactly when length <= 0 or start < 0 (length > 16384 is NOT rejected;
the code only asserts it), and in that case it performs no storage read,
leaves the cache untouched and unqueried, and tags the error with the
file_read operation. -/
theorem async_read_invalid_request_iff (p : cache_partition) (storage : Nat)
    (piece start length : Int) (mallocOk : Bool) (sr : Int → Int → List Nat) :
    ((async_read p storage piece start length mallocOk sr).error.ec
        = some error_kind.invalid_request ↔ (length ≤ 0 ∨ start < 0))
    ∧ ((length ≤ 0 ∨ start < 0) →
        (async_read p storage piece start length mallocOk sr).reads = []
        ∧ (async_read p storage piece start length mallocOk sr).cache = p
        ∧ (async_read p storage piece start length mallocOk sr).cache_queried = false
        ∧ (async_read p storage piece start length mallocOk sr).error.operation
            = some operation_kind.file_read) := by
  constructor
  · rw [async_read_error_ec p storage piece start length mallocOk sr]
    by_cases h1 : length ≤ 0 ∨ start < 0
    · rw [if_pos h1]
      exact ⟨fun _ => h1, fun _ => rfl⟩
    · rw [if_neg h1]
      refine ⟨fun hc => ?_, fun hc => absurd hc h1⟩
      by_cases h2 : mallocOk = false
      · rw [if_pos h2] at hc
        exact absurd hc (by decide)
      · rw [if_neg h2] at hc
        cases hc
  · intro hval
    have heq : async_read p storage piece start length mallocOk sr
        = ⟨⟨some .invalid_request, none, some .file_read⟩, [], p, none, false⟩ := by
      unfold async_read
      rw [if_pos hval]
    rw [heq]
    exact ⟨rfl, rfl, rfl, rfl⟩

/-- Witness for C6 at a negative start offset. -/
theorem async_read_invalid_request_iff_witness :
    (async_read (cache_partition.empty 8) 0 0 (-1) 5 true (fun _ _ => [])).error.ec
      = some error_kind.invalid_request :=
  (async_read_invalid_request_iff (cache_partition.empty 8) 0 0 (-1) 5 true
    (fun _ _ => [])).1.mpr (Or.inr (by decide))

theorem write_region_zero (dst srcB : List Nat) :
    write_region dst 0 srcB = srcB ++ dst.drop srcB.length := by
  unfold write_region
  rw [List.take_zero, List.nil_append, Nat.zero_add]

theorem take_append_exact {a b : List Nat} {n : Nat} (h : a.length = n) :
    (a ++ b).take n = a := by
  rw [← h]
  exact List.take_left a b

theorem drop_append_exact {a b : List Nat} {n : Nat} (h : a.length = n) :
    (a ++ b).drop n = b := by
  rw [← h]
  exact List.drop_left a b

theorem take_append_two {a b c : List Nat} {m n : Nat}
    (ha : a.length = m) (hb : b.length = n) :
    (a ++ b ++ c).take (m + n) = a ++ b := by
  have h2 : (a ++ b).length = m + n := by
    rw [List.length_append, ha, hb]
  exact take_append_exact h2

theorem get2_fst (p : cache_partition) (l1 l2 : torrent_location) :
    (cache_partition.get2 p l1 l2).1 = (find_entry p.entries l1).map (fun e => e.data) := rfl

theorem get2_snd_fst (p : cache_partition) (l1 l2 : torrent_location) :
    (cache_partition.get2 p l1 l2).2.1 = (find_entry p.entries l2).map (fun e => e.data) := rfl

/-- get only relinks LRU positions; the mapping from keys to buffer
contents is untouched. -/
theorem get_find_data (p : cache_partition) (l l' : torrent_location) :
    (find_entry (cache_partition.get p l).2.entries l').map (fun e => e.data)
      = (find_entry p.entries l').map (fun e => e.data) := by
  rcases hf : find_entry p.entries l with _ | e
  · rw [get_snd_match, hf]
  · rw [get_snd_match, hf]
    show (find_entry (if (e.state == cache_state.read_lru1) = true
        then move_to_list p l e cache_state.read_lru2
        else touch_front p l e.state).entries l').map (fun x => x.data)
      = (find_entry p.entries l').map (fun x => x.data)
    have hset : ∀ (e2 : cache_entry), e2.data = e.data →
        (find_entry (set_entry p.entries l e2) l').map (fun x => x.data)
          = (find_entry p.entries l').map (fun x => x.data) := by
      intro e2 hd
      by_cases hl : l' = l
      · rw [hl, find_entry_set_eq e2 hf, hf]
        simp only [Option.map_some']
        rw [hd]
      · rw [find_entry_set_ne e2 hl]
    by_cases hb : (e.state == cache_state.read_lru1) = true
    · rw [if_pos hb]
      have hne : ¬ cache_state.read_lru2 = e.state := by
        rw [eq_of_beq hb]
        exact fun hc => cache_state.noConfusion hc
      rw [(move_to_list_spec p l e hne).1]
      exact hset _ rfl
    · rw [if_neg hb]
      rw [(touch_front_spec p l e.state).1]

theorem get2_find_data (p : cache_partition) (l1 l2 l' : torrent_location) :
    (find_entry (cache_partition.get2 p l1 l2).2.2.entries l').map (fun e => e.data)
      = (find_entry p.entries l').map (fun e => e.data) := by
  rw [get2_snd_eq, get_find_data, get_find_data]

/-- C4: for a read crossing a 16 KiB block boundary async_read consults
the cache for the two covering blocks through get2, encodes the hits as
the bitmask (buf1 then 2, buf2 then 1), completes from cache on a double
hit, reads just the missing block's portion from storage into the right
slot of the destination buffer on a single hit, reads the whole range in
one call on a double miss, and never inserts into the cache (the
key-to-buffer mapping afterwards is that of the partition before the
call).  Storage reads are assumed to deliver the requested byte count
and cached blocks to be full 16 KiB buffers. -/
theorem async_read_unaligned_bitmask (p : cache_partition) (storage : Nat)
    (piece start length : Int) (sr : Int → Int → List Nat)
    (hst : 0 ≤ start) (hlen : 0 < length) (hlen2 : length ≤ 16384)
    (hun : start % 16384 + length > 16384)
    (hd1 : ∀ e, find_entry p.entries ⟨storage, piece, start - start % 16384⟩ = some e → e.data.length = 16384)
    (hd2 : ∀ e, find_entry p.entries ⟨storage, piece, start - start % 16384 + 16384⟩ = some e → e.data.length = 16384)
    (hsr : ∀ off ln, (sr off ln).length = ln.toNat) :
    (async_read p storage piece start length true sr).error = storage_error.ok
    ∧ (∀ l', (find_entry (async_read p storage piece start length true sr).cache.entries l').map (fun e => e.data)
        = (find_entry p.entries l').map (fun e => e.data))
    ∧ (∀ e1 e2, find_entry p.entries ⟨storage, piece, start - start % 16384⟩ = some e1
        → find_entry p.entries ⟨storage, piece, start - start % 16384 + 16384⟩ = some e2
        → (async_read p storage piece start length true sr).reads = []
          ∧ (async_read p storage piece start length true sr).buffer.map (fun b => b.take length.toNat)
            = some (((e1.data.drop (start % 16384 : Int).toNat).take ((16384 - start % 16384 : Int)).toNat) ++ (e2.data.take ((length - (16384 - start % 16384) : Int)).toNat)))
    ∧ (∀ e1, find_entry p.entries ⟨storage, piece, start - start % 16384⟩ = some e1
        → find_entry p.entries ⟨storage, piece, start - start % 16384 + 16384⟩ = none
        → (async_read p storage piece start length true sr).reads = [⟨start - start % 16384 + 16384,
              length - (16384 - start % 16384), 16384 - start % 16384⟩]
          ∧ (async_read p storage piece start length true sr).buffer.map (fun b => b.take length.toNat)
            = some (((e1.data.drop (start % 16384 : Int).toNat).take ((16384 - start % 16384 : Int)).toNat) ++ (sr (start - start % 16384 + 16384) (length - (16384 - start % 16384)))))
    ∧ (∀ e2, find_entry p.entries ⟨storage, piece, start - start % 16384⟩ = none
        → find_entry p.entries ⟨storage, piece, start - start % 16384 + 16384⟩ = some e2
        → (async_read p storage piece start length true sr).reads = [⟨start, 16384 - start % 16384, 0⟩]
          ∧ (async_read p storage piece start length true sr).buffer.map (fun b => b.take length.toNat)
            = some ((sr start (16384 - start % 16384)) ++ (e2.data.take ((length - (16384 - start % 16384) : Int)).toNat)))
    ∧ (find_entry p.entries ⟨storage, piece, start - start % 16384⟩ = none
        → find_entry p.entries ⟨storage, piece, start - start % 16384 + 16384⟩ = none
        → (async_read p storage piece start length true sr).reads = [⟨start, length, 0⟩]
          ∧ (async_read p storage piece start length true sr).buffer.map (fun b => b.take length.toNat)
            = some (sr start length)) := by
  have hDN : DEFAULT_BLOCK_SIZE = (16384 : Int) := rfl
  have hval : ¬ (length ≤ 0 ∨ start < 0) := by omega
  have hmal : ¬ ((true : Bool) = false) := fun hc => Bool.noConfusion hc
  have hro : start - (start - start % (16384 : Int)) = start % 16384 := by ring
  have herr : (async_read p storage piece start length true sr).error = storage_error.ok := by
    unfold async_read
    rw [if_neg hval, if_neg hmal]
    simp only [hDN]
    rw [hro, if_pos hun]
    rw [get2_fst, get2_snd_fst]
    rcases hf1 : find_entry p.entries ⟨storage, piece, start - start % 16384⟩ with _ | e1 <;>
      rcases hf2 : find_entry p.entries ⟨storage, piece, start - start % 16384 + 16384⟩ with _ | e2 <;> rfl
  have hcache : (async_read p storage piece start length true sr).cache = (cache_partition.get2 p ⟨storage, piece, start - start % 16384⟩ ⟨storage, piece, start - start % 16384 + 16384⟩).2.2 := by
    unfold async_read
    rw [if_neg hval, if_neg hmal]
    simp only [hDN]
    rw [hro, if_pos hun]
    rw [get2_fst, get2_snd_fst]
    rcases hf1 : find_entry p.entries ⟨storage, piece, start - start % 16384⟩ with _ | e1 <;>
      rcases hf2 : find_entry p.entries ⟨storage, piece, start - start % 16384 + 16384⟩ with _ | e2 <;> rfl
  refine ⟨herr, ?_, ?_, ?_, ?_, ?_⟩
  · intro l'
    rw [hcache]
    exact get2_find_data p _ _ l'
  · intro e1 e2 hf1 hf2
    have hS1 : ((e1.data.drop (start % 16384 : Int).toNat).take ((16384 - start % 16384 : Int)).toNat).length = ((16384 - start % 16384 : Int)).toNat := by
      rw [List.length_take, List.length_drop, hd1 e1 hf1]
      omega
    have hS2 : (e2.data.take ((length - (16384 - start % 16384) : Int)).toNat).length = ((length - (16384 - start % 16384) : Int)).toNat := by
      rw [List.length_take, hd2 e2 hf2]
      omega
    have hr : async_read p storage piece start length true sr
        = ⟨storage_error.ok, [], (cache_partition.get2 p ⟨storage, piece, start - start % 16384⟩ ⟨storage, piece, start - start % 16384 + 16384⟩).2.2,
            some (write_region (write_region (List.replicate (16384 : Int).toNat 0) 0 ((e1.data.drop (start % 16384 : Int).toNat).take ((16384 - start % 16384 : Int)).toNat)) ((16384 - start % 16384 : Int)).toNat (e2.data.take ((length - (16384 - start % 16384) : Int)).toNat)), true⟩ := by
      unfold async_read
      rw [if_neg hval, if_neg hmal]
      simp only [hDN]
      rw [hro, if_pos hun]
      rw [get2_fst, get2_snd_fst]
      rw [hf1, hf2]
      rfl
    refine ⟨by rw [hr], ?_⟩
    rw [hr]
    simp only [Option.map_some']
    rw [write_region_zero]
    unfold write_region
    rw [take_append_exact hS1]
    rw [show length.toNat = ((16384 - start % 16384 : Int)).toNat + ((length - (16384 - start % 16384) : Int)).toNat from by omega]
    rw [take_append_two hS1 hS2]
  · intro e1 hf1 hf2
    have hS1 : ((e1.data.drop (start % 16384 : Int).toNat).take ((16384 - start % 16384 : Int)).toNat).length = ((16384 - start % 16384 : Int)).toNat := by
      rw [List.length_take, List.length_drop, hd1 e1 hf1]
      omega
    have hS2 : (sr (start - start % 16384 + 16384) (length - (16384 - start % 16384))).length = ((length - (16384 - start % 16384) : Int)).toNat :=
      hsr (start - start % 16384 + 16384) (length - (16384 - start % 16384))
    have hr : async_read p storage piece start length true sr
        = ⟨storage_error.ok, [⟨start - start % 16384 + 16384,
              length - (16384 - start % 16384), 16384 - start % 16384⟩], (cache_partition.get2 p ⟨storage, piece, start - start % 16384⟩ ⟨storage, piece, start - start % 16384 + 16384⟩).2.2,
            some (write_region (write_region (List.replicate (16384 : Int).toNat 0) 0 ((e1.data.drop (start % 16384 : Int).toNat).take ((16384 - start % 16384 : Int)).toNat)) ((16384 - start % 16384 : Int)).toNat (sr (start - start % 16384 + 16384) (length - (16384 - start % 16384)))), true⟩ := by
      unfold async_read
      rw [if_neg hval, if_neg hmal]
      simp only [hDN]
      rw [hro, if_pos hun]
      rw [get2_fst, get2_snd_fst]
      rw [hf1, hf2]
      rfl
    refine ⟨by rw [hr], ?_⟩
    rw [hr]
    simp only [Option.map_some']
    rw [write_region_zero]
    unfold write_region
    rw [take_append_exact hS1]
    rw [show length.toNat = ((16384 - start % 16384 : Int)).toNat + ((length - (16384 - start % 16384) : Int)).toNat from by omega]
    rw [take_append_two hS1 hS2]
  · intro e2 hf1 hf2
    have hB0 : ((List.replicate (16384 : Int).toNat 0).take ((16384 - start % 16384 : Int)).toNat).length = ((16384 - start % 16384 : Int)).toNat := by
      rw [List.length_take, List.length_replicate]
      omega
    have hS2 : (e2.data.take ((length - (16384 - start % 16384) : Int)).toNat).length = ((length - (16384 - start % 16384) : Int)).toNat := by
      rw [List.length_take, hd2 e2 hf2]
      omega
    have hSR1 : (sr start (16384 - start % 16384)).length = ((16384 - start % 16384 : Int)).toNat :=
      hsr start (16384 - start % 16384)
    have hr : async_read p storage piece start length true sr
        = ⟨storage_error.ok, [⟨start, 16384 - start % 16384, 0⟩], (cache_partition.get2 p ⟨storage, piece, start - start % 16384⟩ ⟨storage, piece, start - start % 16384 + 16384⟩).2.2,
            some (write_region (write_region (List.replicate (16384 : Int).toNat 0) ((16384 - start % 16384 : Int)).toNat (e2.data.take ((length - (16384 - start % 16384) : Int)).toNat)) 0 (sr start (16384 - start % 16384))), true⟩ := by
      unfold async_read
      rw [if_neg hval, if_neg hmal]
      simp only [hDN]
      rw [hro, if_pos hun]
      rw [get2_fst, get2_snd_fst]
      rw [hf1, hf2]
      rfl
    refine ⟨by rw [hr], ?_⟩
    rw [hr]
    simp only [Option.map_some']
    rw [write_region_zero]
    unfold write_region
    rw [hSR1, List.append_assoc, drop_append_exact hB0]
    rw [← List.append_assoc]
    rw [show length.toNat = ((16384 - start % 16384 : Int)).toNat + ((length - (16384 - start % 16384) : Int)).toNat from by omega]
    rw [take_append_two hSR1 hS2]
  · intro hf1 hf2
    have hr : async_read p storage piece start length true sr
        = ⟨storage_error.ok, [⟨start, length, 0⟩], (cache_partition.get2 p ⟨storage, piece, start - start % 16384⟩ ⟨storage, piece, start - start % 16384 + 16384⟩).2.2,
            some (write_region (List.replicate (16384 : Int).toNat 0) 0 (sr start length)), true⟩ := by
      unfold async_read
      rw [if_neg hval, if_neg hmal]
      simp only [hDN]
      rw [hro, if_pos hun]
      rw [get2_fst, get2_snd_fst]
      rw [hf1, hf2]
      rfl
    refine ⟨by rw [hr], ?_⟩
    rw [hr]
    simp only [Option.map_some']
    rw [write_region_zero]
    rw [take_append_exact (hsr start length)]

/-- Witness for C4: a double-miss unaligned read from an empty cache
reads the whole range in one storage call. -/
theorem async_read_unaligned_bitmask_witness :
    (async_read (cache_partition.empty 8) 0 0 8192 16384 true
        (fun _ ln => List.replicate ln.toNat 7)).reads = [⟨8192, 16384, 0⟩]
    ∧ (async_read (cache_partition.empty 8) 0 0 8192 16384 true
        (fun _ ln => List.replicate ln.toNat 7)).buffer.map
          (fun b => b.take (16384 : Int).toNat)
      = some (List.replicate (16384 : Int).toNat 7) :=
  (async_read_unaligned_bitmask (cache_partition.empty 8) 0 0 8192 16384
      (fun _ ln => List.replicate ln.toNat 7)
      (by decide) (by decide) (by decide) (by decide)
      (fun _ he => Option.noConfusion he) (fun _ he => Option.noConfusion he)
      (fun _ _ => List.length_replicate _ _)).2.2.2.2.2 rfl rfl

/-- The strict comparator handed to std::sort by flush_dirty_blocks
(raw_disk_io.cpp): compare by piece first, then offset. -/
def flush_less (a b : torrent_location) : Bool :=
  if ¬ a.piece = b.piece then decide (a.piece < b.piece) else decide (a.offset < b.offset)

/-- The non-strict companion order of flush_less. -/
def flush_le (a b : torrent_location) : Bool := !(flush_less b a)

/-- The sort step of flush_dirty_blocks, modelled as a merge sort under
the non-strict companion of the std::sort comparator. -/
def flush_sort (locs : List torrent_location) : List torrent_location :=
  locs.mergeSort flush_le

theorem flush_le_iff (a b : torrent_location) :
    flush_le a b = true
      ↔ (a.piece < b.piece ∨ (a.piece = b.piece ∧ a.offset ≤ b.offset)) := by
  unfold flush_le flush_less
  by_cases h1 : b.piece = a.piece
  · rw [if_neg (fun hc => hc h1)]
    simp [h1]
  · rw [if_pos h1]
    simp only [Bool.not_eq_true', decide_eq_false_iff_not, not_lt]
    constructor
    · intro h2
      left
      omega
    · intro h2
      rcases h2 with h2 | h2
      · omega
      · exact absurd h2.1.symm h1

theorem flush_le_trans : ∀ (a b c : torrent_location),
    flush_le a b = true → flush_le b c = true → flush_le a c = true := by
  intro a b c h1 h2
  rw [flush_le_iff] at h1 h2 ⊢
  rcases h1 with h1 | h1 <;> rcases h2 with h2 | h2 <;> [left; left; left; right] <;> omega

theorem flush_le_total : ∀ (a b : torrent_location),
    (flush_le a b || flush_le b a) = true := by
  intro a b
  rw [Bool.or_eq_true, flush_le_iff, flush_le_iff]
  omega

/-- C8: collect_dirty_blocks_for_storage returns exactly the cached
blocks that are dirty and belong to the given storage, clears their
dirty flag in the same operation (a second collect returns nothing),
and the flush path's sort arranges the collected blocks by (piece,
offset): the sorted list is a permutation of the collected one and is
ordered piece-first, offset-second. -/
theorem collect_exact_and_flush_sorted {p : cache_partition} (h : reachable p)
    (storage : Nat) :
    (∀ l, l ∈ (collect_dirty_blocks_for_storage p storage).1
        ↔ ∃ e, find_entry p.entries l = some e ∧ e.dirty = true ∧ l.torrent = storage)
    ∧ (∀ l ∈ (collect_dirty_blocks_for_storage p storage).1,
        ∃ e, find_entry (collect_dirty_blocks_for_storage p storage).2.entries l = some e
          ∧ e.dirty = false)
    ∧ (collect_dirty_blocks_for_storage
        (collect_dirty_blocks_for_storage p storage).2 storage).1 = []
    ∧ List.Pairwise (fun a b => a.piece < b.piece ∨ (a.piece = b.piece ∧ a.offset ≤ b.offset))
        (flush_sort (collect_dirty_blocks_for_storage p storage).1)
    ∧ List.Perm (flush_sort (collect_dirty_blocks_for_storage p storage).1)
        (collect_dirty_blocks_for_storage p storage).1 := by
  have hnd : (p.entries.map (fun x => x.1)).Nodup := (reachable_wf h).1.1
  have hqe : (collect_dirty_blocks_for_storage p storage).2.entries
      = p.entries.map (fun x => if x.2.dirty && (x.1.torrent == storage)
          then (x.1, { x.2 with dirty := false }) else x) := rfl
  refine ⟨?_, ?_, ?_, ?_, List.mergeSort_perm _ _⟩
  · intro l
    constructor
    · intro hm
      obtain ⟨x, hxf, hx1⟩ := List.mem_map.mp hm
      obtain ⟨hxe, hxc⟩ := List.mem_filter.mp hxf
      rw [Bool.and_eq_true] at hxc
      refine ⟨x.2, ?_, hxc.1, ?_⟩
      · rw [← hx1]
        exact mem_find_entry hnd hxe
      · rw [← hx1]
        exact eq_of_beq hxc.2
    · rintro ⟨e, hf, hd, hts⟩
      refine List.mem_map.mpr ⟨(l, e), List.mem_filter.mpr ⟨find_entry_mem hf, ?_⟩, rfl⟩
      rw [Bool.and_eq_true]
      refine ⟨hd, ?_⟩
      rw [hts]
      simp
  · intro l hm
    obtain ⟨x, hxf, hx1⟩ := List.mem_map.mp hm
    obtain ⟨hxe, hxc⟩ := List.mem_filter.mp hxf
    rw [Bool.and_eq_true] at hxc
    have hf : find_entry p.entries l = some x.2 := by
      rw [← hx1]
      exact mem_find_entry hnd hxe
    refine ⟨{ x.2 with dirty := false }, ?_, rfl⟩
    rw [hqe, find_entry_collect, hf]
    rw [Option.map_some']
    have hc : (x.2.dirty && (l.torrent == storage)) = true := by
      rw [Bool.and_eq_true]
      refine ⟨hxc.1, ?_⟩
      rw [← hx1]
      exact hxc.2
    rw [if_pos hc]
  · have hfil : (collect_dirty_blocks_for_storage p storage).2.entries.filter
        (fun x => x.2.dirty && (x.1.torrent == storage)) = [] := by
      rw [hqe]
      refine List.filter_eq_nil_iff.mpr ?_
      intro y hy
      obtain ⟨x, hx, hyx⟩ := List.mem_map.mp hy
      by_cases hc : (x.2.dirty && (x.1.torrent == storage)) = true
      · rw [if_pos hc] at hyx
        rw [← hyx]
        simp
      · rw [if_neg hc] at hyx
        rw [← hyx]
        exact hc
    show ((collect_dirty_blocks_for_storage p storage).2.entries.filter
        (fun x => x.2.dirty && (x.1.torrent == storage))).map (fun x => x.1) = []
    rw [hfil]
    rfl
  · exact List.Pairwise.imp (fun hab => (flush_le_iff _ _).mp hab)
      (List.sorted_mergeSort flush_le_trans flush_le_total _)

/-- Witness for C8: after two dirty inserts a collect empties the dirty
set, so a second collect returns nothing. -/
theorem collect_exact_and_flush_sorted_witness :
    (collect_dirty_blocks_for_storage
      (collect_dirty_blocks_for_storage
        (cache_partition.insert
          (cache_partition.insert (cache_partition.empty 8) ⟨0, 0, 16384⟩ [] 16384 true)
          ⟨0, 0, 0⟩ [] 16384 true) 0).2 0).1 = [] :=
  (collect_exact_and_flush_sorted
    (reachable.insert ⟨0, 0, 0⟩ [] 16384 true
      (reachable.insert ⟨0, 0, 16384⟩ [] 16384 true (reachable.empty 8))) 0).2.2.1

/-- cache_partition::get returns the found buffer unchanged. -/
theorem get_fst (p : cache_partition) (l : torrent_location) :
    (cache_partition.get p l).1 = (find_entry p.entries l).map (fun e => e.data) := by
  unfold cache_partition.get
  rcases hf : find_entry p.entries l with _ | e
  · rfl
  · show (if (e.state == cache_state.read_lru1) = true
        then (some e.data, move_to_list p l e cache_state.read_lru2)
        else (some e.data, touch_front p l e.state)).1
      = (some e).map (fun e => e.data)
    split <;> rfl

/-- unified_cache::get: dispatch to the partition selected by
get_partition_index, run the partition get there, and store the updated
partition back.  The whole cache is a function from partition index to
partition. -/
def unified_get (u : Nat → cache_partition) (loc : torrent_location) :
    Option (List Nat) × (Nat → cache_partition) :=
  let i := get_partition_index loc
  let r := cache_partition.get (u i) loc
  (r.1, Function.update u i r.2)

theorem unified_get_fst (u : Nat → cache_partition) (loc : torrent_location) :
    (unified_get u loc).1
      = (find_entry (u (get_partition_index loc)).entries loc).map (fun e => e.data) := by
  unfold unified_get
  exact get_fst _ _

theorem unified_get_find_data (u : Nat → cache_partition) (loc l' : torrent_location) :
    (find_entry ((unified_get u loc).2 (get_partition_index l')).entries l').map
        (fun e => e.data)
      = (find_entry (u (get_partition_index l')).entries l').map (fun e => e.data) := by
  show (find_entry ((Function.update u (get_partition_index loc)
      (cache_partition.get (u (get_partition_index loc)) loc).2)
      (get_partition_index l')).entries l').map (fun e => e.data)
    = (find_entry (u (get_partition_index l')).entries l').map (fun e => e.data)
  by_cases hi : get_partition_index l' = get_partition_index loc
  · rw [hi, Function.update_same, get_find_data]
  · rw [Function.update_noteq hi]

/-- The block loop of raw_disk_io::async_hash: for each block of the
piece in increasing offset order, try the cache (promoting on a hit);
on a miss read the block from storage into the scratch buffer.  The
bytes fed into the SHA-1 state are accumulated in acc.  Storage reads
are modelled as delivering the requested len bytes (ret = len), so the
short-read early exit does not fire and no error arises. -/
def async_hash_go (st_read : Int → Int → List Nat) (piece_size : Int)
    (storage : Nat) (piece : Int) :
    Nat → Int → (Nat → cache_partition) → List Nat
      → List Nat × (Nat → cache_partition)
  | 0, _, u, acc => (acc, u)
  | i + 1, offset, u, acc =>
      let len := min DEFAULT_BLOCK_SIZE (piece_size - offset)
      let r := unified_get u ⟨storage, piece, offset⟩
      match r.1 with
      | some d => async_hash_go st_read piece_size storage piece i (offset + len) r.2
          (acc ++ d.take len.toNat)
      | none => async_hash_go st_read piece_size storage piece i (offset + len) r.2
          (acc ++ st_read offset len)

/-- raw_disk_io::async_hash: blocks_in_piece = ceil(piece_size / 16 KiB),
run the block loop from offset 0, then post (piece, sha1 of the fed
bytes, error) to the engine executor.  sha1 is an abstract digest
function over the fed byte stream. -/
def async_hash_model (sha1 : List Nat → List Nat) (st_read : Int → Int → List Nat)
    (u : Nat → cache_partition) (storage : Nat) (piece piece_size : Int) :
    (Int × List Nat × storage_error) × (Nat → cache_partition) :=
  let blocks := ((piece_size + DEFAULT_BLOCK_SIZE - 1) / DEFAULT_BLOCK_SIZE).toNat
  let r := async_hash_go st_read piece_size storage piece blocks 0 u []
  ((piece, sha1 r.1, storage_error.ok), r.2)

/-- Specification-side byte stream for C9: the piece's blocks in
increasing offset order, each taken from the cache as it was BEFORE the
call when the block is present there, otherwise from storage. -/
def piece_bytes_spec (st_read : Int → Int → List Nat) (piece_size : Int)
    (storage : Nat) (piece : Int) (u : Nat → cache_partition) :
    Nat → Int → List Nat
  | 0, _ => []
  | i + 1, offset =>
      let len := min DEFAULT_BLOCK_SIZE (piece_size - offset)
      (match (find_entry (u (get_partition_index ⟨storage, piece, offset⟩)).entries
          ⟨storage, piece, offset⟩).map (fun e => e.data) with
        | some d => d.take len.toNat
        | none => st_read offset len)
      ++ piece_bytes_spec st_read piece_size storage piece u i (offset + len)

theorem piece_bytes_spec_congr (st_read : Int → Int → List Nat) (piece_size : Int)
    (storage : Nat) (piece : Int) :
    ∀ (n : Nat) (offset : Int) {u1 u2 : Nat → cache_partition},
    (∀ l', (find_entry (u1 (get_partition_index l')).entries l').map (fun e => e.data)
      = (find_entry (u2 (get_partition_index l')).entries l').map (fun e => e.data)) →
    piece_bytes_spec st_read piece_size storage piece u1 n offset
      = piece_bytes_spec st_read piece_size storage piece u2 n offset := by
  intro n
  induction n with
  | zero => intro offset u1 u2 hu; rfl
  | succ i ih =>
      intro offset u1 u2 hu
      rw [piece_bytes_spec, piece_bytes_spec]
      rw [hu ⟨storage, piece, offset⟩]
      rw [ih (offset + min DEFAULT_BLOCK_SIZE (piece_size - offset)) hu]

theorem async_hash_go_spec (st_read : Int → Int → List Nat) (piece_size : Int)
    (storage : Nat) (piece : Int) :
    ∀ (n : Nat) (offset : Int) (u : Nat → cache_partition) (acc : List Nat),
    (async_hash_go st_read piece_size storage piece n offset u acc).1
      = acc ++ piece_bytes_spec st_read piece_size storage piece u n offset
    ∧ (∀ l', (find_entry
        ((async_hash_go st_read piece_size storage piece n offset u acc).2
          (get_partition_index l')).entries l').map (fun e => e.data)
      = (find_entry (u (get_partition_index l')).entries l').map (fun e => e.data)) := by
  intro n
  induction n with
  | zero =>
      intro offset u acc
      exact ⟨(List.append_nil acc).symm, fun l' => rfl⟩
  | succ i ih =>
      intro offset u acc
      rcases hf : find_entry (u (get_partition_index ⟨storage, piece, offset⟩)).entries ⟨storage, piece, offset⟩ with _ | e
      · have hstep : async_hash_go st_read piece_size storage piece (i + 1) offset u acc
            = async_hash_go st_read piece_size storage piece i (offset + min DEFAULT_BLOCK_SIZE (piece_size - offset))
              (unified_get u ⟨storage, piece, offset⟩).2 (acc ++ st_read offset (min DEFAULT_BLOCK_SIZE (piece_size - offset))) := by
          rw [async_hash_go, unified_get_fst, hf]
          rfl
        have hspec : piece_bytes_spec st_read piece_size storage piece u (i + 1) offset
            = st_read offset (min DEFAULT_BLOCK_SIZE (piece_size - offset))
              ++ piece_bytes_spec st_read piece_size storage piece u i (offset + min DEFAULT_BLOCK_SIZE (piece_size - offset)) := by
          rw [piece_bytes_spec, hf]
          rfl
        obtain ⟨ih1, ih2⟩ := ih (offset + min DEFAULT_BLOCK_SIZE (piece_size - offset))
          (unified_get u ⟨storage, piece, offset⟩).2 (acc ++ st_read offset (min DEFAULT_BLOCK_SIZE (piece_size - offset)))
        constructor
        · rw [hstep, ih1,
            piece_bytes_spec_congr st_read piece_size storage piece i (offset + min DEFAULT_BLOCK_SIZE (piece_size - offset))
              (fun l' => unified_get_find_data u ⟨storage, piece, offset⟩ l'),
            hspec, List.append_assoc]
        · intro l'
          rw [hstep, ih2 l', unified_get_find_data]
      · have hstep : async_hash_go st_read piece_size storage piece (i + 1) offset u acc
            = async_hash_go st_read piece_size storage piece i (offset + min DEFAULT_BLOCK_SIZE (piece_size - offset))
              (unified_get u ⟨storage, piece, offset⟩).2 (acc ++ e.data.take (min DEFAULT_BLOCK_SIZE (piece_size - offset)).toNat) := by
          rw [async_hash_go, unified_get_fst, hf]
          rfl
        have hspec : piece_bytes_spec st_read piece_size storage piece u (i + 1) offset
            = e.data.take (min DEFAULT_BLOCK_SIZE (piece_size - offset)).toNat
              ++ piece_bytes_spec st_read piece_size storage piece u i (offset + min DEFAULT_BLOCK_SIZE (piece_size - offset)) := by
          rw [piece_bytes_spec, hf]
          rfl
        obtain ⟨ih1, ih2⟩ := ih (offset + min DEFAULT_BLOCK_SIZE (piece_size - offset))
          (unified_get u ⟨storage, piece, offset⟩).2 (acc ++ e.data.take (min DEFAULT_BLOCK_SIZE (piece_size - offset)).toNat)
        constructor
        · rw [hstep, ih1,
            piece_bytes_spec_congr st_read piece_size storage piece i (offset + min DEFAULT_BLOCK_SIZE (piece_size - offset))
              (fun l' => unified_get_find_data u ⟨storage, piece, offset⟩ l'),
            hspec, List.append_assoc]
        · intro l'
          rw [hstep, ih2 l', unified_get_find_data]

/-- C9: async_hash posts, on the engine executor, the piece index, the
SHA-1 digest of the piece's bytes taken block by block in increasing
offset order - each 16 KiB block fed from the cache when present there
and read from storage into the scratch buffer otherwise - and the
storage error (no error under the model's always-successful reads); the
cache's key-to-buffer mapping is unchanged by the hashing pass. -/
theorem async_hash_digest (sha1 : List Nat → List Nat)
    (st_read : Int → Int → List Nat) (u : Nat → cache_partition)
    (storage : Nat) (piece piece_size : Int) :
    (async_hash_model sha1 st_read u storage piece piece_size).1
      = (piece, sha1 (piece_bytes_spec st_read piece_size storage piece u
          ((piece_size + DEFAULT_BLOCK_SIZE - 1) / DEFAULT_BLOCK_SIZE).toNat 0),
        storage_error.ok)
    ∧ (∀ l', (find_entry
        ((async_hash_model sha1 st_read u storage piece piece_size).2
          (get_partition_index l')).entries l').map (fun e => e.data)
      = (find_entry (u (get_partition_index l')).entries l').map (fun e => e.data)) := by
  obtain ⟨h1, h2⟩ := async_hash_go_spec st_read piece_size storage piece
    ((piece_size + DEFAULT_BLOCK_SIZE - 1) / DEFAULT_BLOCK_SIZE).toNat 0 u []
  constructor
  · show (piece, sha1 (async_hash_go st_read piece_size storage piece
        ((piece_size + DEFAULT_BLOCK_SIZE - 1) / DEFAULT_BLOCK_SIZE).toNat 0 u []).1,
      storage_error.ok) = _
    rw [h1, List.nil_append]
  · exact h2

end ezio
